import Mathlib

/-!
# go-registry-cli: the `list` command (src/cmd/listImages.go)

A shallow embedding of `listImages`, `getTags`, `getCreatedTime` and `getArchitectures`.

* The registry is an oracle: one function per endpoint, from the requests issued so far to
  what the round trip plus JSON decoding hands back to the caller.
* `log.Fatal` ends the process; a call that can reach it returns a `Run`.
* The standard library pieces the code calls (`strings.Join`, `strings.HasPrefix`,
  `time.Parse`, `Time.After`, `Time.Format`, `sort.Slice`) are modelled after the Go
  standard library as of Go 1.27; where the behaviour of an earlier release differs, the
  definition says so.
-/

namespace RegistryCli

/-! ## Response types (listImages.go 18-56) -/

structure CatalogResponse where
  Repositories : List String
deriving DecidableEq, Repr

structure TagsResponse where
  Tags : List String
  CreatedTime : List String
  Architecture : List String
deriving DecidableEq, Repr

structure Config where
  Digest : String
deriving DecidableEq, Repr

structure ManifestResponse where
  Config : RegistryCli.Config
  Architecture : RegistryCli.Config
deriving DecidableEq, Repr

structure ConfigBlob where
  Created : String
deriving DecidableEq, Repr

structure Platform where
  Architecture : String
  OS : String
deriving DecidableEq, Repr

structure Manifest where
  MediaType : String
  Digest : String
  Size : Int
  Platform : Platform
deriving DecidableEq, Repr

structure ManifestList where
  Manifests : List Manifest
  Architecture : String
deriving DecidableEq, Repr

/-! ## The registry as seen by the client -/

/-- The five GET requests the command issues. `manifest` carries
`Accept: application/vnd.docker.distribution.manifest.v2+json`, `manifestList` carries
`Accept: application/vnd.docker.distribution.manifest.list.v2+json`. -/
inductive Request where
  | catalog : Request
  | tagsList (repo : String) : Request
  | manifest (repo tag : String) : Request
  | blob (repo digest : String) : Request
  | manifestList (repo tag : String) : Request
deriving DecidableEq, Repr

/-- What one round trip followed by JSON decoding gives the caller. `failed`: the request
could not be built, the transport failed or the body could not be read. Otherwise the
status code of the response and its body as the JSON decoder reads it into the target type
(`none` when decoding fails). -/
inductive HttpResult (α : Type) where
  | failed : HttpResult α
  | response (status : Nat) (body : Option α) : HttpResult α
deriving DecidableEq, Repr

/-- A registry: for every endpoint, the answer to a request given the requests issued
before it (oldest first). -/
structure Registry where
  catalog : List Request → HttpResult CatalogResponse
  tagsList : List Request → String → HttpResult TagsResponse
  manifest : List Request → String → String → HttpResult ManifestResponse
  blob : List Request → String → String → HttpResult ConfigBlob
  manifestList : List Request → String → String → HttpResult ManifestList

/-- The error values the command can return. -/
inductive Error where
  | urlRequired : Error
  | requestFailed (r : Request) : Error
  | decodeFailed (r : Request) : Error
deriving DecidableEq, Repr

/-- A call that may end the process: `exit` is `log.Fatal` (print, then `os.Exit(1)`),
`ret a` is a normal return. -/
inductive Run (α : Type) where
  | exit : Run α
  | ret (a : α) : Run α
deriving DecidableEq, Repr

/-! ## strings -/

/-- Go `strings.Join`. -/
def strings_Join : List String → String → String
  | [], _ => ""
  | [a], _ => a
  | a :: rest, sep => rest.foldl (fun b s => b ++ sep ++ s) a

/-- Go `strings.HasPrefix`. -/
def strings_HasPrefix (s pre : String) : Bool :=
  pre.data.isPrefixOf s.data

/-! ## getArchitectures (listImages.go 294-342) -/

/-- Lines 332-341: the architectures read off a decoded manifest-list response. -/
def getArchitectures_res (result : ManifestList) : List String :=
  if result.Manifests.length > 0 then
    result.Manifests.foldl (fun res manifest => res ++ [manifest.Platform.Architecture]) []
  else
    [] ++ [result.Architecture]

/-- The function `getArchitectures`: one manifest-list request; request, transport and decode
failures all go through `log.Fatal`; the HTTP status is not looked at; the returned error
is the decoder's, which is nil on this path. -/
def getArchitectures (reg : Registry) (hist : List Request) (repo tag : String) :
    Run (List String × Option Error) × List Request :=
  let hist1 := hist ++ [Request.manifestList repo tag]
  match reg.manifestList hist repo tag with
  | .failed => (.exit, hist1)
  | .response _ none => (.exit, hist1)
  | .response _ (some result) => (.ret (getArchitectures_res result, none), hist1)

/-! ## getCreatedTime (listImages.go 235-292) -/

/-- The function `getCreatedTime`: the manifest request, then the config blob request for
the manifest's config digest; every failure is returned as an error. -/
def getCreatedTime (reg : Registry) (hist : List Request) (repo tag : String) :
    (String × Option Error) × List Request :=
  let hist1 := hist ++ [Request.manifest repo tag]
  match reg.manifest hist repo tag with
  | .failed => (("", some (.requestFailed (.manifest repo tag))), hist1)
  | .response _ none => (("", some (.decodeFailed (.manifest repo tag))), hist1)
  | .response _ (some manifest) =>
    let configDigest := manifest.Config.Digest
    let hist2 := hist1 ++ [Request.blob repo configDigest]
    match reg.blob hist1 repo configDigest with
    | .failed => (("", some (.requestFailed (.blob repo configDigest))), hist2)
    | .response _ none => (("", some (.decodeFailed (.blob repo configDigest))), hist2)
    | .response _ (some configBlob) => ((configBlob.Created, none), hist2)

/-! ## time (model of the Go standard library, package time)

Machine integers are unbounded here: for the years `time.Parse` can produce (0 to 9999) no
intermediate value of the library leaves the 64-bit range. The calendar arithmetic
(`norm`, `daysSinceEpoch`, `absDate`, `absClock`) is written in the form it has up to Go
1.22; later releases compute the same proleptic Gregorian dates by other formulas. -/

/-- Go `time.Time` as an instant with a zone: `sec` seconds and `nsec` nanoseconds since
January 1, year 1, 00:00:00 UTC, read in the zone `offset` seconds east of UTC. -/
structure Time where
  sec : Int
  nsec : Int
  offset : Int
deriving DecidableEq, Repr

/-- The zero value `Time{}`: January 1, year 1, 00:00:00 UTC. -/
def Time.zero : Time := { sec := 0, nsec := 0, offset := 0 }

/-- Go `Time.After`. -/
def Time.After (t u : Time) : Bool :=
  decide (t.sec > u.sec) || (decide (t.sec = u.sec) && decide (t.nsec > u.nsec))

def secondsPerMinute : Nat := 60
def secondsPerHour : Nat := 60 * secondsPerMinute
def secondsPerDay : Nat := 24 * secondsPerHour
def daysPer400Years : Nat := 365 * 400 + 97
def daysPer100Years : Nat := 365 * 100 + 24
def daysPer4Years : Nat := 365 * 4 + 1

/-- The year of the zero of absolute time, chosen by the library so that all supported
instants are non-negative and the year is 1 modulo 400. -/
def absoluteZeroYear : Int := -292277022399

/-- The year of the zero of `Time.sec`. -/
def internalYear : Int := 1

/-- Seconds from the absolute zero to the internal zero, negated:
`(absoluteZeroYear - internalYear) * 365.2425 * secondsPerDay`. -/
def absoluteToInternal : Int :=
  (absoluteZeroYear - internalYear) * 146097 / 400 * 86400

def internalToAbsolute : Int := -absoluteToInternal

/-- The table `daysBefore`: days in a non-leap year before month `m + 1` begins. -/
def daysBefore : List Nat :=
  [0, 31, 31 + 28, 31 + 28 + 31, 31 + 28 + 31 + 30, 31 + 28 + 31 + 30 + 31,
   31 + 28 + 31 + 30 + 31 + 30, 31 + 28 + 31 + 30 + 31 + 30 + 31,
   31 + 28 + 31 + 30 + 31 + 30 + 31 + 31, 31 + 28 + 31 + 30 + 31 + 30 + 31 + 31 + 30,
   31 + 28 + 31 + 30 + 31 + 30 + 31 + 31 + 30 + 31,
   31 + 28 + 31 + 30 + 31 + 30 + 31 + 31 + 30 + 31 + 30,
   31 + 28 + 31 + 30 + 31 + 30 + 31 + 31 + 30 + 31 + 30 + 31]

def isLeap (year : Int) : Bool :=
  year % 4 == 0 && (year % 100 != 0 || year % 400 == 0)

/-- Go `daysIn`, for a month 1..12. -/
def daysIn (m : Nat) (year : Int) : Nat :=
  if m == 2 && isLeap year then 29
  else daysBefore.getD m 0 - daysBefore.getD (m - 1) 0

/-- Go `norm`: `(nhi, nlo)` with `hi * base + lo = nhi * base + nlo` and `0 <= nlo < base`. -/
def norm (hi lo base : Int) : Int × Int :=
  let (hi1, lo1) :=
    if lo < 0 then
      let n := (-lo - 1) / base + 1
      (hi - n, lo + n * base)
    else (hi, lo)
  if lo1 ≥ base then
    let n := lo1 / base
    (hi1 + n, lo1 - n * base)
  else (hi1, lo1)

/-- Go `daysSinceEpoch`: days from the absolute zero to January 1 of `year`. -/
def daysSinceEpoch (year : Int) : Nat :=
  let y := (year - absoluteZeroYear).toNat
  let n := y / 400
  let y := y - 400 * n
  let d := daysPer400Years * n
  let n := y / 100
  let y := y - 100 * n
  let d := d + daysPer100Years * n
  let n := y / 4
  let y := y - 4 * n
  let d := d + daysPer4Years * n
  let n := y
  d + 365 * n

/-- Go `Date` in UTC: the instant of the given wall-clock reading. -/
def Date (year month day hour min sec nsec : Int) : Time :=
  let m := month - 1
  let (year, m) := norm year m 12
  let month := m + 1
  let (sec, nsec) := norm sec nsec 1000000000
  let (min, sec) := norm min sec 60
  let (hour, min) := norm hour min 60
  let (day, hour) := norm day hour 24
  let d : Int := daysSinceEpoch year
  let d := d + daysBefore.getD (month - 1).toNat 0
  let d := if isLeap year && decide (month ≥ 3) then d + 1 else d
  let d := d + (day - 1)
  let abs := d * secondsPerDay
  let abs := abs + (hour * secondsPerHour + min * secondsPerMinute + sec)
  { sec := abs + absoluteToInternal, nsec := nsec, offset := 0 }

/-- Go `Time.abs`: seconds since the absolute zero, shifted to the zone of `t`. -/
def Time.abs (t : Time) : Nat :=
  (t.sec + t.offset + internalToAbsolute).toNat

/-- The tail of Go `absDate`: month and day of month from the leap flag of the year and
the zero-based day of the year. -/
def absDate_monthDay (leap : Bool) (yday : Nat) : Nat × Nat :=
  if leap && decide (yday = 31 + 29 - 1) then (2, 29)
  else
    let day := if leap && decide (yday > 31 + 29 - 1) then yday - 1 else yday
    let month := day / 31
    let «end» := daysBefore.getD (month + 1) 0
    let (month, begin) :=
      if day ≥ «end» then (month + 1, «end») else (month, daysBefore.getD month 0)
    (month + 1, day - begin + 1)

/-- Go `absDate` (full): year, month, day of month and zero-based day of year of an
absolute time. -/
def absDate (abs : Nat) : Int × Nat × Nat × Nat :=
  let d := abs / secondsPerDay
  let n := d / daysPer400Years
  let y := 400 * n
  let d := d - daysPer400Years * n
  let n := d / daysPer100Years
  let n := n - n / 4
  let y := y + 100 * n
  let d := d - daysPer100Years * n
  let n := d / daysPer4Years
  let y := y + 4 * n
  let d := d - daysPer4Years * n
  let n := d / 365
  let n := n - n / 4
  let y := y + n
  let d := d - 365 * n
  let year : Int := (y : Int) + absoluteZeroYear
  let yday := d
  let md := absDate_monthDay (isLeap year) yday
  (year, md.1, md.2, yday)

/-- Go `absClock`: hour, minute and second within the day of an absolute time. -/
def absClock (abs : Nat) : Nat × Nat × Nat :=
  let sec := abs % secondsPerDay
  let hour := sec / secondsPerHour
  let sec := sec - hour * secondsPerHour
  let min := sec / secondsPerMinute
  let sec := sec - min * secondsPerMinute
  (hour, min, sec)

/-- The digit loop of Go `appendInt`: the decimal digits of `u`, most significant first
(`fuel` is the length of the library's 20-byte buffer). -/
def appendInt_digits : Nat → Nat → List Char → List Char
  | 0, _, acc => acc
  | fuel + 1, u, acc =>
    if u ≥ 10 then
      let q := u / 10
      appendInt_digits fuel q (Char.ofNat (48 + (u - q * 10)) :: acc)
    else Char.ofNat (48 + u) :: acc

/-- Go `appendInt`: `x` in decimal, zero-padded on the left to `width` digits, after a
minus sign when negative. -/
def appendInt (x : Int) (width : Nat) : List Char :=
  let u := x.natAbs
  let ds := appendInt_digits 20 u []
  (if x < 0 then ['-'] else []) ++ List.replicate (width - ds.length) '0' ++ ds

/-- Go `Time.Format` for the layout `"2006-01-02 15:04:05"`. -/
def Time.Format (t : Time) : String :=
  let abs := t.abs
  let (year, month, day, _) := absDate abs
  let (hour, min, sec) := absClock abs
  String.mk (appendInt year 4 ++ ['-'] ++ appendInt month 2 ++ ['-'] ++ appendInt day 2
    ++ [' '] ++ appendInt hour 2 ++ [':'] ++ appendInt min 2 ++ [':'] ++ appendInt sec 2)

/-! ### time.Parse for the layout `time.RFC3339Nano`

`"2006-01-02T15:04:05.999999999Z07:00"`: the general layout-driven parser of the library,
unrolled for this layout. The library reads bytes; every character it accepts is ASCII. -/

/-- Go `isDigit` on the head of the remaining input. -/
def isDigitChar (c : Char) : Bool := decide ('0' ≤ c) && decide (c ≤ '9')

/-- The value of a decimal digit, `c - '0'`. -/
def digitVal (c : Char) : Nat := c.toNat - 48

/-- Go `getnum`: one or two decimal digits; `fixed` demands two. -/
def getnum (s : List Char) (fixed : Bool) : Option (Nat × List Char) :=
  match s with
  | [] => none
  | c0 :: rest =>
    if !isDigitChar c0 then none
    else
      match rest with
      | [] => if fixed then none else some (digitVal c0, rest)
      | c1 :: rest1 =>
        if !isDigitChar c1 then
          if fixed then none else some (digitVal c0, rest)
        else some (digitVal c0 * 10 + digitVal c1, rest1)

/-- The layout element `2006`: exactly four digits. -/
def getYear (s : List Char) : Option (Nat × List Char) :=
  match s with
  | c0 :: c1 :: c2 :: c3 :: rest =>
    if isDigitChar c0 && isDigitChar c1 && isDigitChar c2 && isDigitChar c3 then
      some (((digitVal c0 * 10 + digitVal c1) * 10 + digitVal c2) * 10 + digitVal c3, rest)
    else none
  | _ => none

/-- Go `skip` for a one-character literal of the layout. -/
def skip (s : List Char) (c : Char) : Option (List Char) :=
  match s with
  | [] => none
  | d :: rest => if d = c then some rest else none

/-- Go `commaOrPeriod`. -/
def commaOrPeriod (c : Char) : Bool := c = '.' || c = ','

/-- Go `atoi` on a run of digits. -/
def atoiDigits (ds : List Char) : Nat :=
  ds.foldl (fun x c => x * 10 + digitVal c) 0

/-- Go `parseNanoseconds` on the digits after the separator: at most nine are read, and
the value is scaled to nanoseconds. -/
def parseNanoseconds (digits : List Char) : Nat :=
  let ds := digits.take 9
  atoiDigits ds * 10 ^ (9 - ds.length)

/-- The layout element `.999999999`: an optional fraction, introduced by a period or a
comma and followed by at least one digit; all its digits are consumed. -/
def getFrac (s : List Char) : Nat × List Char :=
  match s with
  | c0 :: c1 :: rest =>
    if commaOrPeriod c0 && isDigitChar c1 then
      let digits := (c1 :: rest).takeWhile isDigitChar
      (parseNanoseconds digits, (c1 :: rest).dropWhile isDigitChar)
    else (0, s)
  | _ => (0, s)

/-- The layout element `Z07:00`: `Z` for UTC (`none`), or a sign, two digits, a colon and
two digits, giving the offset in seconds east of UTC. The range check on the zone (hour at
most 24, minute at most 60) is that of Go 1.23 and later; releases up to Go 1.22 accept any
two digits. -/
def getZone (s : List Char) : Option (Option Int × List Char) :=
  match s with
  | 'Z' :: rest => some (none, rest)
  | sign :: h0 :: h1 :: colon :: m0 :: m1 :: rest =>
    if colon ≠ ':' then none
    else
      match getnum [h0, h1] true, getnum [m0, m1] true with
      | some (hr, _), some (mm, _) =>
        if hr > 24 || mm > 60 then none
        else
          let zoneOffset : Int := ((hr * 60 + mm) * 60 : Nat)
          if sign = '+' then some (some zoneOffset, rest)
          else if sign = '-' then some (some (-zoneOffset), rest)
          else none
      | _, _ => none
  | _ => none

/-- The fields `time.Parse` collects while it walks the layout. -/
structure Fields where
  year : Nat
  month : Nat
  day : Nat
  hour : Nat
  min : Nat
  sec : Nat
  nsec : Nat
  zone : Option Int
deriving DecidableEq, Repr

/-- The walk of `time.Parse` over the layout `RFC3339Nano`: the fields read from `value`,
or `none` at the first element that does not match or is out of range. -/
def scanRFC3339Nano (value : List Char) : Option Fields :=
  match getYear value with
  | none => none
  | some (year, v) =>
  match skip v '-' with
  | none => none
  | some v =>
  match getnum v true with
  | none => none
  | some (month, v) =>
  if month ≤ 0 || 12 < month then none else
  match skip v '-' with
  | none => none
  | some v =>
  match getnum v true with
  | none => none
  | some (day, v) =>
  match skip v 'T' with
  | none => none
  | some v =>
  match getnum v false with
  | none => none
  | some (hour, v) =>
  if 24 ≤ hour then none else
  match skip v ':' with
  | none => none
  | some v =>
  match getnum v true with
  | none => none
  | some (min, v) =>
  if 60 ≤ min then none else
  match skip v ':' with
  | none => none
  | some v =>
  match getnum v true with
  | none => none
  | some (sec, v) =>
  if 60 ≤ sec then none else
  match getFrac v with
  | (nsec, v) =>
  match getZone v with
  | none => none
  | some (zone, v) =>
  if v ≠ [] then none else
  some { year := year, month := month, day := day, hour := hour, min := min, sec := sec,
         nsec := nsec, zone := zone }

/-- The end of `time.Parse`: the day of the month is validated, then the time is built in
UTC and, for a numeric zone, moved back by the offset and given that zone. -/
def fieldsTime (f : Fields) : Option Time :=
  if f.day < 1 || f.day > daysIn f.month f.year then none
  else
    let t := Date f.year f.month f.day f.hour f.min f.sec f.nsec
    match f.zone with
    | none => some t
    | some zoneOffset => some { t with sec := t.sec - zoneOffset, offset := zoneOffset }

/-- Go `time.Parse(time.RFC3339Nano, value)`: the time and whether the error is non-nil;
on error the time is the zero value. -/
def time_Parse (value : String) : Time × Bool :=
  match (scanRFC3339Nano value.data).bind fieldsTime with
  | some t => (t, false)
  | none => (Time.zero, true)

/-! ## sort.Slice (model of the Go standard library, package sort, Go 1.19 and later)

`sort.Slice(x, less)` runs `pdqsort_func` on the whole slice. The slice is a list, indices
are natural numbers, and `less` compares elements (the closure in `getTags` compares the
elements at two indices). Every loop runs on a counter that bounds its iterations. -/

section SortSlice

variable {α : Type}

/-- The call `data.Swap(i, j)`. -/
def swap (data : List α) (i j : Nat) : List α :=
  match data[i]?, data[j]? with
  | some x, some y => (data.set i y).set j x
  | _, _ => data

/-- The call `data.Less(i, j)`. -/
def lessAt (less : α → α → Bool) (data : List α) (i j : Nat) : Bool :=
  match data[i]?, data[j]? with
  | some x, some y => less x y
  | _, _ => false

/-- The inner loop of `insertionSort_func`:
`for j := i; j > a && data.Less(j, j-1); j-- { data.Swap(j, j-1) }`. -/
def insertionSort_inner (less : α → α → Bool) (a : Nat) : Nat → List α → List α
  | 0, data => data
  | j + 1, data =>
    if j + 1 > a && lessAt less data (j + 1) j then
      insertionSort_inner less a j (swap data (j + 1) j)
    else data

/-- The outer loop of `insertionSort_func`, from index `i`. -/
def insertionSort_loop (less : α → α → Bool) (a b : Nat) : Nat → Nat → List α → List α
  | 0, _, data => data
  | fuel + 1, i, data =>
    if i < b then
      insertionSort_loop less a b fuel (i + 1) (insertionSort_inner less a i data)
    else data

/-- Go `insertionSort_func`: sorts `data[a:b]` by insertion. -/
def insertionSort_func (less : α → α → Bool) (data : List α) (a b : Nat) : List α :=
  insertionSort_loop less a b (b - a) (a + 1) data

/-- Go `siftDown_func`. -/
def siftDown_func (less : α → α → Bool) (hi first : Nat) : Nat → Nat → List α → List α
  | 0, _, data => data
  | fuel + 1, root, data =>
    let child := 2 * root + 1
    if child ≥ hi then data
    else
      let child :=
        if child + 1 < hi && lessAt less data (first + child) (first + child + 1) then child + 1
        else child
      if !lessAt less data (first + root) (first + child) then data
      else siftDown_func less hi first fuel child (swap data (first + root) (first + child))

/-- First loop of `heapSort_func`: `for i := (hi - 1) / 2; i >= 0; i--`, here from `i`
down to 0. -/
def heapSort_build (less : α → α → Bool) (hi first : Nat) : Nat → List α → List α
  | 0, data => siftDown_func less hi first (hi + 1) 0 data
  | i + 1, data =>
    heapSort_build less hi first i (siftDown_func less hi first (hi + 1) (i + 1) data)

/-- Second loop of `heapSort_func`: `for i := hi - 1; i >= 0; i--`, here from `i` down
to 0. -/
def heapSort_pop (less : α → α → Bool) (first : Nat) : Nat → List α → List α
  | 0, data => siftDown_func less 0 first 1 0 (swap data first first)
  | i + 1, data =>
    heapSort_pop less first i
      (siftDown_func less (i + 1) first (i + 2) 0 (swap data first (first + (i + 1))))

/-- Go `heapSort_func`. -/
def heapSort_func (less : α → α → Bool) (data : List α) (a b : Nat) : List α :=
  let first := a
  let hi := b - a
  heapSort_pop less first (hi - 1) (heapSort_build less hi first ((hi - 1) / 2) data)

/-- Go `bits.Len`: the number of bits needed to write `x`. -/
def bitsLen : Nat → Nat → Nat
  | 0, _ => 0
  | fuel + 1, x => if x = 0 then 0 else 1 + bitsLen fuel (x / 2)

/-- Go `bits.Len(uint(length))` for a slice length. -/
def bits_Len (x : Nat) : Nat := bitsLen 64 x

/-- Go `(*xorshift).Next` on a 64-bit state, with the shift amounts 13, 7, 17 (releases up
to Go 1.22 shift by 13, 17, 5). The value only selects the swap partners in
`breakPatterns_func`: the theorems on `sort_Slice` hold for any partners, and the runs
evaluated below never reach `breakPatterns_func`. -/
def xorshift_Next (r : Nat) : Nat :=
  let r := Nat.xor r ((r <<< 13) % 2 ^ 64)
  let r := Nat.xor r (r >>> 7)
  Nat.xor r ((r <<< 17) % 2 ^ 64)

/-- Go `nextPowerOfTwo`. -/
def nextPowerOfTwo (length : Nat) : Nat := 1 <<< bits_Len length

/-- The loop of `breakPatterns_func`: three swaps around the middle with pseudo-random
partners. -/
def breakPatterns_loop (a length modulus idx : Nat) : Nat → Nat → Nat → List α → List α
  | 0, _, _, data => data
  | fuel + 1, i, random, data =>
    let random := xorshift_Next random
    let other := random % modulus
    let other := if other ≥ length then other - length else other
    breakPatterns_loop a length modulus idx fuel (i + 1) random
      (swap data (idx - 1 + i) (a + other))

/-- Go `breakPatterns_func`: for a range of at least 8 elements, the three slots
`idx - 1`, `idx`, `idx + 1` around `idx = a + (length / 4) * 2` are swapped with
pseudo-random slots of the range. -/
def breakPatterns_func (data : List α) (a b : Nat) : List α :=
  let length := b - a
  if length ≥ 8 then
    let random := length
    let modulus := nextPowerOfTwo length
    let idx := a + (length / 4) * 2
    breakPatterns_loop a length modulus idx 3 0 random data
  else data

/-- Go `order2_func`: the two indices ordered by their elements, and the swap count. -/
def order2_func (less : α → α → Bool) (data : List α) (a b swaps : Nat) : Nat × Nat × Nat :=
  if lessAt less data b a then (b, a, swaps + 1) else (a, b, swaps)

/-- Go `median_func`: the index of the median of three elements, and the swap count. -/
def median_func (less : α → α → Bool) (data : List α) (a b c swaps : Nat) : Nat × Nat :=
  let (a, b, swaps) := order2_func less data a b swaps
  let (b, _, swaps) := order2_func less data b c swaps
  let (_, b, swaps) := order2_func less data a b swaps
  (b, swaps)

/-- Go `medianAdjacent_func`. -/
def medianAdjacent_func (less : α → α → Bool) (data : List α) (a swaps : Nat) : Nat × Nat :=
  median_func less data (a - 1) a (a + 1) swaps

/-- The hints `choosePivot_func` returns. -/
inductive sortedHint where
  | unknownHint : sortedHint
  | increasingHint : sortedHint
  | decreasingHint : sortedHint
deriving DecidableEq, Repr

/-- Go `choosePivot_func`. -/
def choosePivot_func (less : α → α → Bool) (data : List α) (a b : Nat) : Nat × sortedHint :=
  let shortestNinther := 50
  let maxSwaps := 4 * 3
  let l := b - a
  let swaps := 0
  let i := a + l / 4 * 1
  let j := a + l / 4 * 2
  let k := a + l / 4 * 3
  let (j, swaps) :=
    if l ≥ 8 then
      let (i, j, k, swaps) :=
        if l ≥ shortestNinther then
          let (i, swaps) := medianAdjacent_func less data i swaps
          let (j, swaps) := medianAdjacent_func less data j swaps
          let (k, swaps) := medianAdjacent_func less data k swaps
          (i, j, k, swaps)
        else (i, j, k, swaps)
      median_func less data i j k swaps
    else (j, swaps)
  if swaps = 0 then (j, .increasingHint)
  else if swaps = maxSwaps then (j, .decreasingHint)
  else (j, .unknownHint)

/-- Go `reverseRange_func`, from the pair of indices `(i, j)`. -/
def reverseRange_loop : Nat → Nat → Nat → List α → List α
  | 0, _, _, data => data
  | fuel + 1, i, j, data =>
    if i < j then reverseRange_loop fuel (i + 1) (j - 1) (swap data i j) else data

/-- Go `reverseRange_func`. -/
def reverseRange_func (data : List α) (a b : Nat) : List α :=
  reverseRange_loop (b - a) a (b - 1) data

/-- The loop `for i < b && !data.Less(i, i-1) { i++ }` of `partialInsertionSort_func`. -/
def partialInsertionSort_skip (less : α → α → Bool) (data : List α) (b : Nat) :
    Nat → Nat → Nat
  | 0, i => i
  | fuel + 1, i =>
    if i < b && !lessAt less data i (i - 1) then
      partialInsertionSort_skip less data b fuel (i + 1)
    else i

/-- The loop `for j := i - 1; j >= 1; j--` of `partialInsertionSort_func`, which shifts
the smaller element to the left. -/
def partialInsertionSort_left (less : α → α → Bool) : Nat → List α → List α
  | 0, data => data
  | j + 1, data =>
    if !lessAt less data (j + 1) j then data
    else partialInsertionSort_left less j (swap data (j + 1) j)

/-- The loop `for j := i + 1; j < b; j++` of `partialInsertionSort_func`, which shifts
the greater element to the right. -/
def partialInsertionSort_right (less : α → α → Bool) (b : Nat) : Nat → Nat → List α → List α
  | 0, _, data => data
  | fuel + 1, j, data =>
    if j < b then
      if !lessAt less data j (j - 1) then data
      else partialInsertionSort_right less b fuel (j + 1) (swap data j (j - 1))
    else data

/-- The loop `for j := 0; j < maxSteps; j++` of `partialInsertionSort_func`, `steps`
iterations left. -/
def partialInsertionSort_loop (less : α → α → Bool) (a b : Nat) :
    Nat → Nat → List α → List α × Bool
  | 0, _, data => (data, false)
  | steps + 1, i, data =>
    let shortestShifting := 50
    let i := partialInsertionSort_skip less data b (b - i) i
    if i = b then (data, true)
    else if b - a < shortestShifting then (data, false)
    else
      let data := swap data i (i - 1)
      let data := if i - a ≥ 2 then partialInsertionSort_left less (i - 1) data else data
      let data :=
        if b - i ≥ 2 then partialInsertionSort_right less b (b - i) (i + 1) data else data
      partialInsertionSort_loop less a b steps i data

/-- Go `partialInsertionSort_func`: the slice, and whether it is sorted at the end. -/
def partialInsertionSort_func (less : α → α → Bool) (data : List α) (a b : Nat) :
    List α × Bool :=
  partialInsertionSort_loop less a b 5 (a + 1) data

/-- The loop `for i <= j && data.Less(i, a) { i++ }` of `partition_func`. -/
def partition_up (less : α → α → Bool) (data : List α) (a j : Nat) : Nat → Nat → Nat
  | 0, i => i
  | fuel + 1, i =>
    if i ≤ j && lessAt less data i a then partition_up less data a j fuel (i + 1) else i

/-- The loop `for i <= j && !data.Less(j, a) { j-- }` of `partition_func`. -/
def partition_down (less : α → α → Bool) (data : List α) (a i : Nat) : Nat → Nat
  | 0 => 0
  | j + 1 =>
    if i ≤ j + 1 && !lessAt less data (j + 1) a then partition_down less data a i j
    else j + 1

/-- The final `for` loop of `partition_func`; gives the slice and the index `j`. -/
def partition_loop (less : α → α → Bool) (a : Nat) : Nat → Nat → Nat → List α → List α × Nat
  | 0, _, j, data => (data, j)
  | fuel + 1, i, j, data =>
    let i := partition_up less data a j (j + 1 - i) i
    let j := partition_down less data a i j
    if i > j then (data, j)
    else partition_loop less a fuel (i + 1) (j - 1) (swap data i j)

/-- Go `partition_func`: the slice, the final index of the pivot, and whether the slice
was already partitioned. -/
def partition_func (less : α → α → Bool) (data : List α) (a b pivot : Nat) :
    List α × Nat × Bool :=
  let data := swap data a pivot
  let i := a + 1
  let j := b - 1
  let i := partition_up less data a j (j + 1 - i) i
  let j := partition_down less data a i j
  if i > j then (swap data j a, j, true)
  else
    let data := swap data i j
    let (data, j) := partition_loop less a (b - a) (i + 1) (j - 1) data
    (swap data j a, j, false)

/-- The loop `for i <= j && !data.Less(a, i) { i++ }` of `partitionEqual_func`. -/
def partitionEqual_up (less : α → α → Bool) (data : List α) (a j : Nat) : Nat → Nat → Nat
  | 0, i => i
  | fuel + 1, i =>
    if i ≤ j && !lessAt less data a i then partitionEqual_up less data a j fuel (i + 1)
    else i

/-- The loop `for i <= j && data.Less(a, j) { j-- }` of `partitionEqual_func`. -/
def partitionEqual_down (less : α → α → Bool) (data : List α) (a i : Nat) : Nat → Nat
  | 0 => 0
  | j + 1 =>
    if i ≤ j + 1 && lessAt less data a (j + 1) then partitionEqual_down less data a i j
    else j + 1

/-- The `for` loop of `partitionEqual_func`; gives the slice and the index `i`. -/
def partitionEqual_loop (less : α → α → Bool) (a : Nat) :
    Nat → Nat → Nat → List α → List α × Nat
  | 0, i, _, data => (data, i)
  | fuel + 1, i, j, data =>
    let i := partitionEqual_up less data a j (j + 1 - i) i
    let j := partitionEqual_down less data a i j
    if i > j then (data, i)
    else partitionEqual_loop less a fuel (i + 1) (j - 1) (swap data i j)

/-- Go `partitionEqual_func`. -/
def partitionEqual_func (less : α → α → Bool) (data : List α) (a b pivot : Nat) :
    List α × Nat :=
  let data := swap data a pivot
  partitionEqual_loop less a (b - a + 1) (a + 1) (b - 1) data

/-- Go `pdqsort_func` on `data[a:b]`; `fuel` bounds the nesting of loop iterations and
recursive calls, each of which works on a strictly shorter range. -/
def pdqsort_func (less : α → α → Bool) :
    Nat → List α → Nat → Nat → Nat → Bool → Bool → List α
  | 0, data, _, _, _, _, _ => data
  | fuel + 1, data, a, b, limit, wasBalanced, wasPartitioned =>
    let maxInsertion := 12
    let length := b - a
    if length ≤ maxInsertion then insertionSort_func less data a b
    else if limit = 0 then heapSort_func less data a b
    else
      let (data, limit) :=
        if !wasBalanced then (breakPatterns_func data a b, limit - 1) else (data, limit)
      let (pivot, hint) := choosePivot_func less data a b
      let (data, pivot, hint) :=
        if hint = .decreasingHint then
          (reverseRange_func data a b, (b - 1) - (pivot - a), sortedHint.increasingHint)
        else (data, pivot, hint)
      let (data, done) :=
        if wasBalanced && wasPartitioned && decide (hint = .increasingHint) then
          partialInsertionSort_func less data a b
        else (data, false)
      if done then data
      else if a > 0 && !lessAt less data (a - 1) pivot then
        let (data, mid) := partitionEqual_func less data a b pivot
        pdqsort_func less fuel data mid b limit wasBalanced wasPartitioned
      else
        let (data, mid, alreadyPartitioned) := partition_func less data a b pivot
        let wasPartitioned := alreadyPartitioned
        let leftLen := mid - a
        let rightLen := b - mid
        let balanceThreshold := length / 8
        if leftLen < rightLen then
          let wasBalanced := decide (leftLen ≥ balanceThreshold)
          let data := pdqsort_func less fuel data a mid limit true true
          pdqsort_func less fuel data (mid + 1) b limit wasBalanced wasPartitioned
        else
          let wasBalanced := decide (rightLen ≥ balanceThreshold)
          let data := pdqsort_func less fuel data (mid + 1) b limit true true
          pdqsort_func less fuel data a mid limit wasBalanced wasPartitioned

/-- Go `sort.Slice(x, less)`. -/
def sort_Slice (less : α → α → Bool) (x : List α) : List α :=
  let length := x.length
  let limit := bits_Len length
  pdqsort_func less (length + 1) x 0 length limit true true

end SortSlice

/-! ## getTags (listImages.go 159-233) -/

/-- The table handed to the presenter: the header and the rows appended so far. -/
structure Table where
  header : List String
  rows : List (List String)
deriving DecidableEq, Repr

/-- The function `getTable`: a table with the four column titles and no rows (the column
alignment settings are presentation only). -/
def getTable : Table :=
  { header := ["image", "tags", "architecture", "Created Time"], rows := [] }

/-- The method `AppendRow`. -/
def Table.AppendRow (t : Table) (row : List String) : Table :=
  { t with rows := t.rows ++ [row] }

/-- The element type of `tagsWithTimeAndArchitecture`. -/
structure TagWithTimeAndArchitecture where
  Tag : String
  CreatedTime : String
  Architecture : String
deriving DecidableEq, Repr

/-- Lines 185-202: the loop that resolves every tag, from the requests issued so far and
the records filled in so far. It stops with the error of `getCreatedTime`, and the
process ends when `getArchitectures` reaches `log.Fatal`. -/
def getTags_resolve (reg : Registry) (repo : String) :
    List String → List Request → List TagWithTimeAndArchitecture →
      Run (List TagWithTimeAndArchitecture × Option Error) × List Request
  | [], hist, acc => (.ret (acc, none), hist)
  | tag :: rest, hist, acc =>
    match getCreatedTime reg hist repo tag with
    | ((_, some err), hist1) => (.ret (acc, some err), hist1)
    | ((createdTime, none), hist1) =>
      match getArchitectures reg hist1 repo tag with
      | (.exit, hist2) => (.exit, hist2)
      | (.ret (_, some err), hist2) => (.ret (acc, some err), hist2)
      | (.ret (architectures, none), hist2) =>
        let architecture := strings_Join architectures ","
        getTags_resolve reg repo rest hist2
          (acc ++ [{ Tag := tag, CreatedTime := createdTime, Architecture := architecture }])

/-- Lines 205-209: the `less` closure given to `sort.Slice`; both parse errors are
dropped. -/
def getTags_less (x y : TagWithTimeAndArchitecture) : Bool :=
  let time1 := (time_Parse x.CreatedTime).1
  let time2 := (time_Parse y.CreatedTime).1
  time1.After time2

/-- Lines 211-214: the cut to five entries unless `showAll`. -/
def getTags_truncate (showAll : Bool) (tags : List TagWithTimeAndArchitecture) :
    List TagWithTimeAndArchitecture :=
  if !showAll && decide (tags.length > 5) then tags.take 5 else tags

/-- Lines 217-229: the row of one tag. A parse error is printed and the zero time that
comes with it is formatted all the same. -/
def getTags_row (repo : String) (x : TagWithTimeAndArchitecture) : List String :=
  let tag := x.Tag
  let createdTime := x.CreatedTime
  let architecture := x.Architecture
  let time := (time_Parse createdTime).1
  let formattedTime := time.Format
  [repo, tag, architecture, formattedTime]

/-- Lines 204-231: from the resolved tags to the rows appended for the repository. -/
def getTags_rows (repo : String) (showAll : Bool) (tags : List TagWithTimeAndArchitecture) :
    List (List String) :=
  (getTags_truncate showAll (sort_Slice getTags_less tags)).map (getTags_row repo)

/-- The function `getTags`: the tag list request, the resolution of every tag, then sort,
cut and rows. On an error the table comes back as it was; the error returned at the end
is the (nil) error of the tag list decode, since the loop declares its own `err`. -/
def getTags (reg : Registry) (hist : List Request) (repo : String) (showAll : Bool) (t : Table) :
    Run (Table × Option Error) × List Request :=
  let hist1 := hist ++ [Request.tagsList repo]
  match reg.tagsList hist repo with
  | .failed => (.ret (t, some (.requestFailed (.tagsList repo))), hist1)
  | .response _ none => (.ret (t, some (.decodeFailed (.tagsList repo))), hist1)
  | .response _ (some tags) =>
    match getTags_resolve reg repo tags.Tags hist1 [] with
    | (.exit, hist2) => (.exit, hist2)
    | (.ret (_, some err), hist2) => (.ret (t, some err), hist2)
    | (.ret (resolved, none), hist2) =>
      let rows := getTags_rows repo showAll resolved
      (.ret (rows.foldl Table.AppendRow t, none), hist2)

/-! ## listImages (listImages.go 72-120) -/

/-- What a run of `listImages` that returns leaves behind: the error it returns and the
table it printed, if it got that far. -/
structure Outcome where
  err : Option Error
  printed : Option Table
deriving DecidableEq, Repr

/-- The prefix filter of `listImages`, line 111. -/
def passesFilter (sName repo : String) : Bool :=
  sName == "" || strings_HasPrefix repo sName

/-- Lines 109-119: the loop over the catalog, then the print and `return nil`. The error
of `getTags` is assigned to the blank identifier. -/
def listImages_loop (reg : Registry) (sName : String) (showAll : Bool) :
    List String → List Request → Table → Run Outcome × List Request
  | [], hist, t => (.ret { err := none, printed := some t }, hist)
  | repo :: rest, hist, t =>
    if passesFilter sName repo then
      match getTags reg hist repo showAll t with
      | (.exit, hist1) => (.exit, hist1)
      | (.ret (t1, _), hist1) => listImages_loop reg sName showAll rest hist1 t1
    else listImages_loop reg sName showAll rest hist t

/-- The function `listImages` on the flags `url`, `s` and `all`: the outcome of the run
and the requests issued, oldest first. -/
def listImages (reg : Registry) (registryURL sName : String) (showAll : Bool) :
    Run Outcome × List Request :=
  let t := getTable
  if registryURL == "" then (.ret { err := some .urlRequired, printed := none }, [])
  else
    match reg.catalog [] with
    | .failed => (.ret { err := some (.requestFailed .catalog), printed := none }, [.catalog])
    | .response _ none =>
      (.ret { err := some (.decodeFailed .catalog), printed := none }, [.catalog])
    | .response _ (some catalog) =>
      listImages_loop reg sName showAll catalog.Repositories [.catalog] t

/-! ## Example registries and responses -/

/-- A registry that answers every request with status 200 and the given bodies. -/
def Registry.const (catalog : Option CatalogResponse) (tags : String → Option TagsResponse)
    (manifest : String → String → Option ManifestResponse)
    (blob : String → String → Option ConfigBlob)
    (manifestList : String → String → Option ManifestList) : Registry :=
  { catalog := fun _ => .response 200 catalog
    tagsList := fun _ repo => .response 200 (tags repo)
    manifest := fun _ repo tag => .response 200 (manifest repo tag)
    blob := fun _ repo digest => .response 200 (blob repo digest)
    manifestList := fun _ repo tag => .response 200 (manifestList repo tag) }

/-- A manifest-list entry for one architecture. -/
def Manifest.ofArch (arch : String) : Manifest :=
  { MediaType := "application/vnd.docker.distribution.manifest.v2+json", Digest := "",
    Size := 0, Platform := { Architecture := arch, OS := "linux" } }

/-- The multi-platform example of the specification: `manifests` lists amd64 then arm64. -/
def exampleMulti : ManifestList :=
  { Manifests := [Manifest.ofArch "amd64", Manifest.ofArch "arm64"], Architecture := "" }

/-- The fallback example of the specification: no `manifests`, top-level amd64. -/
def exampleFallback : ManifestList :=
  { Manifests := [], Architecture := "amd64" }


/-- The tag list `{"tags": [...]}` as decoded. -/
def TagsResponse.ofTags (tags : List String) : TagsResponse :=
  { Tags := tags, CreatedTime := [], Architecture := [] }

/-- The manifest `{"config": {"digest": d}}` as decoded. -/
def ManifestResponse.ofDigest (d : String) : ManifestResponse :=
  { Config := { Digest := d }, Architecture := { Digest := "" } }

/-- A registry with the catalog `app-a`, `app-b`, `tool-c`. Every repository has the one
tag `v1`, created `2023-05-01T12:30:00.123456Z`, for amd64; the config digest of
`repo:tag` is `sha256:repo`. -/
def exampleRegistry : Registry :=
  Registry.const (some { Repositories := ["app-a", "app-b", "tool-c"] })
    (fun _ => some (TagsResponse.ofTags ["v1"]))
    (fun repo _ => some (ManifestResponse.ofDigest ("sha256:" ++ repo)))
    (fun _ _ => some { Created := "2023-05-01T12:30:00.123456Z" })
    (fun _ _ => some exampleFallback)

/-- The registry `exampleRegistry`, except that the manifest-list body of `app-a:v1` is not
valid JSON. -/
def exampleRegistryBadManifestList : Registry :=
  { exampleRegistry with
    manifestList := fun _ repo _ =>
      if repo = "app-a" then .response 200 none else .response 200 (some exampleFallback) }

/-- The registry `exampleRegistry`, except that the tag list request of `app-a` fails in
the transport. -/
def exampleRegistryBadTagsList : Registry :=
  { exampleRegistry with
    tagsList := fun _ repo =>
      if repo = "app-a" then .failed else .response 200 (some (TagsResponse.ofTags ["v1"])) }

/-- The registry `exampleRegistry`, except that the catalog request fails in the
transport. -/
def exampleRegistryCatalogDown : Registry :=
  { exampleRegistry with catalog := fun _ => .failed }

/-- The registry `exampleRegistry`, except that the body of the catalog response is not
valid JSON for a catalog. -/
def exampleRegistryCatalogBadBody : Registry :=
  { exampleRegistry with catalog := fun _ => .response 200 none }

/-- The registry `exampleRegistry`, except that the catalog comes with status 500 (and
the same body). -/
def exampleRegistryCatalog500 : Registry :=
  { exampleRegistry with
    catalog := fun _ => .response 500 (some { Repositories := ["app-a", "app-b", "tool-c"] }) }

/-- A registry whose one repository `app` has eight tags `t1` .. `t8`, the tag `tN`
created on day `N` of May 2023. -/
def exampleRegistryEightTags : Registry :=
  Registry.const (some { Repositories := ["app"] })
    (fun _ => some (TagsResponse.ofTags ["t1", "t2", "t3", "t4", "t5", "t6", "t7", "t8"]))
    (fun _ tag => some (ManifestResponse.ofDigest tag))
    (fun _ digest => some { Created := "2023-05-0" ++ digest.drop 1 ++ "T00:00:00Z" })
    (fun _ _ => some exampleFallback)

/-! ## The orderings sort.Slice is documented for -/

/-- The requirement the package documentation puts on `less` ("Less must describe a
transitive ordering"): a strict weak ordering. -/
def StrictWeakOrder {α : Type} (less : α → α → Bool) : Prop :=
  (∀ x, less x x = false) ∧
  (∀ x y z, less x y = true → less y z = true → less x z = true) ∧
  (∀ x y z, less x y = false → less y z = false → less x z = false)

/-- The instant of a time, without its zone: seconds and nanoseconds since the zero time. -/
def Time.instant (t : Time) : Int × Int := (t.sec, t.nsec)

/-- The creation instant `getTags` sorts a tag by: that of the parsed creation time, the
zero instant when the string does not parse. -/
def createdInstant (x : TagWithTimeAndArchitecture) : Int × Int :=
  (time_Parse x.CreatedTime).1.instant

/-- The repositories of the tag list requests in a request history, oldest first. -/
def tagsListRepos (hist : List Request) : List String :=
  hist.filterMap (fun r => match r with | .tagsList repo => some repo | _ => none)

/-- The eight tags of `exampleRegistryEightTags` as `getTags` resolves them. -/
def exampleEightResolved : List TagWithTimeAndArchitecture :=
  [{ Tag := "t1", CreatedTime := "2023-05-01T00:00:00Z", Architecture := "amd64" },
   { Tag := "t2", CreatedTime := "2023-05-02T00:00:00Z", Architecture := "amd64" },
   { Tag := "t3", CreatedTime := "2023-05-03T00:00:00Z", Architecture := "amd64" },
   { Tag := "t4", CreatedTime := "2023-05-04T00:00:00Z", Architecture := "amd64" },
   { Tag := "t5", CreatedTime := "2023-05-05T00:00:00Z", Architecture := "amd64" },
   { Tag := "t6", CreatedTime := "2023-05-06T00:00:00Z", Architecture := "amd64" },
   { Tag := "t7", CreatedTime := "2023-05-07T00:00:00Z", Architecture := "amd64" },
   { Tag := "t8", CreatedTime := "2023-05-08T00:00:00Z", Architecture := "amd64" }]

/-- The requests issued by the end of the resolution of the eight tags of
`exampleRegistryEightTags`, after the catalog and tag list requests. -/
def exampleEightHist : List Request :=
  [Request.catalog, Request.tagsList "app"] ++
    (["t1", "t2", "t3", "t4", "t5", "t6", "t7", "t8"].map (fun tag =>
      [Request.manifest "app" tag, Request.blob "app" tag,
       Request.manifestList "app" tag])).flatten

/-- A registry whose one repository `app` has the one tag `v1`, with a creation time that
is not a timestamp. -/
def exampleRegistryBadTime : Registry :=
  Registry.const (some { Repositories := ["app"] })
    (fun _ => some (TagsResponse.ofTags ["v1"]))
    (fun _ tag => some (ManifestResponse.ofDigest tag))
    (fun _ _ => some { Created := "not-a-time" })
    (fun _ _ => some exampleFallback)

/-- A resolved tag for amd64. -/
def exampleTag (tag createdTime : String) : TagWithTimeAndArchitecture :=
  { Tag := tag, CreatedTime := createdTime, Architecture := "amd64" }

/-- Thirteen resolved tags in the order of the registry's tag list: `t00` to `t11` name the
same image, created `2023-05-01T00:00:00Z`, and `t12` a newer one. -/
def exampleThirteen : List TagWithTimeAndArchitecture :=
  [exampleTag "t00" "2023-05-01T00:00:00Z", exampleTag "t01" "2023-05-01T00:00:00Z",
   exampleTag "t02" "2023-05-01T00:00:00Z", exampleTag "t03" "2023-05-01T00:00:00Z",
   exampleTag "t04" "2023-05-01T00:00:00Z", exampleTag "t05" "2023-05-01T00:00:00Z",
   exampleTag "t06" "2023-05-01T00:00:00Z", exampleTag "t07" "2023-05-01T00:00:00Z",
   exampleTag "t08" "2023-05-01T00:00:00Z", exampleTag "t09" "2023-05-01T00:00:00Z",
   exampleTag "t10" "2023-05-01T00:00:00Z", exampleTag "t11" "2023-05-01T00:00:00Z",
   exampleTag "t12" "2023-06-01T00:00:00Z"]

/-- The zero-based day of the year of a calendar date, as `Date` adds it up. -/
def ydayOf (leap : Bool) (m d : Nat) : Nat :=
  daysBefore.getD (m - 1) 0 + (if leap && decide (m ≥ 3) then 1 else 0) + (d - 1)

/-! ## The display form of the specification -/

/-- The character of the last decimal digit of `n`. -/
def digitChar (n : Nat) : Char := Char.ofNat (48 + n % 10)

/-- The form `YYYY-MM-DD HH:MM:SS` of the specification, written digit by digit: a
four-digit year and two-digit month, day, hour, minute and second. -/
def displayForm (year month day hour min sec : Nat) : String :=
  String.mk
    [digitChar (year / 1000), digitChar (year / 100), digitChar (year / 10), digitChar year,
     '-', digitChar (month / 10), digitChar month,
     '-', digitChar (day / 10), digitChar day,
     ' ', digitChar (hour / 10), digitChar hour,
     ':', digitChar (min / 10), digitChar min,
     ':', digitChar (sec / 10), digitChar sec]

/-! ## Predicates on a slice and a range of indices -/

section RangePredicates

variable {α : Type}

/-- The slice `d'` is a permutation of `d` that leaves every index outside `[a, b)` as
it is. -/
def RangePerm (a b : Nat) (d d' : List α) : Prop :=
  d'.Perm d ∧ ∀ k, (k < a ∨ b ≤ k) → d'[k]? = d[k]?

/-- Every element of `d` at an index in `[a, b)` satisfies `P`. -/
def AllIn (P : α → Prop) (d : List α) (a b : Nat) : Prop :=
  ∀ k x, a ≤ k → k < b → d[k]? = some x → P x

/-- The elements of `d` at the indices in `[a, b)` are in order: none is less than one
before it. -/
def SortedIn (less : α → α → Bool) (d : List α) (a b : Nat) : Prop :=
  ∀ i j x y, a ≤ i → i < j → j < b → d[i]? = some x → d[j]? = some y → less y x = false

/-- Every element at an index in `[a, b)` is at least the element just before the
range, when there is one. -/
def LowerBounded (less : α → α → Bool) (d : List α) (a b : Nat) : Prop :=
  ∀ k x y, 0 < a → a ≤ k → k < b → d[a - 1]? = some x → d[k]? = some y → less y x = false

end RangePredicates

section HeapPredicates

variable {α : Type}

/-- The heap of size `hi` that starts at index `first` has its node `k` in order: the
node is not less than either of its children. -/
def HeapAt (less : α → α → Bool) (d : List α) (first hi k : Nat) : Prop :=
  ∀ c, (c = 2 * k + 1 ∨ c = 2 * k + 2) → c < hi →
    lessAt less d (first + k) (first + c) = false

end HeapPredicates

/-! # Theorems -/


/-! ## sort.Slice keeps its contract -/

section SortProofs

variable {α : Type}

theorem swap_of_lt (d : List α) (i j : Nat) (hi : i < d.length) (hj : j < d.length) :
    swap d i j = (d.set i d[j]).set j d[i] := by
  unfold swap
  rw [List.getElem?_eq_getElem hi, List.getElem?_eq_getElem hj]

theorem swap_of_ge_left (d : List α) (i j : Nat) (hi : d.length ≤ i) : swap d i j = d := by
  unfold swap
  rw [List.getElem?_eq_none hi]

theorem swap_of_ge_right (d : List α) (i j : Nat) (hj : d.length ≤ j) : swap d i j = d := by
  unfold swap
  rw [List.getElem?_eq_none hj]
  cases d[i]? <;> rfl

theorem length_swap (d : List α) (i j : Nat) : (swap d i j).length = d.length := by
  by_cases hi : i < d.length
  · by_cases hj : j < d.length
    · rw [swap_of_lt d i j hi hj]; simp
    · rw [swap_of_ge_right d i j (by omega)]
  · rw [swap_of_ge_left d i j (by omega)]

theorem getElem?_swap (d : List α) (i j k : Nat) (hi : i < d.length) (hj : j < d.length) :
    (swap d i j)[k]? = if k = j then d[i]? else if k = i then d[j]? else d[k]? := by
  rw [swap_of_lt d i j hi hj]
  by_cases h1 : k = j
  · subst h1
    simp [List.getElem?_set, hi, hj]
  · by_cases h2 : k = i
    · subst h2
      rw [if_neg h1, if_pos rfl, List.getElem?_set_ne (Ne.symm h1)]
      simp [List.getElem?_set, hj, hi]
    · rw [if_neg h1, if_neg h2, List.getElem?_set_ne (Ne.symm h1),
        List.getElem?_set_ne (Ne.symm h2)]

theorem getElem?_swap_of_ne (d : List α) (i j k : Nat) (h1 : k ≠ i) (h2 : k ≠ j) :
    (swap d i j)[k]? = d[k]? := by
  by_cases hi : i < d.length
  · by_cases hj : j < d.length
    · rw [getElem?_swap d i j k hi hj, if_neg h2, if_neg h1]
    · rw [swap_of_ge_right d i j (by omega)]
  · rw [swap_of_ge_left d i j (by omega)]

theorem swap_perm (d : List α) (i j : Nat) : (swap d i j).Perm d := by
  classical
  by_cases hi : i < d.length
  · by_cases hj : j < d.length
    · rw [swap_of_lt d i j hi hj]
      rw [List.perm_iff_count]
      intro x
      rw [List.count_set _ _ _ _ (by simpa using hj), List.count_set _ _ _ _ hi]
      by_cases hij : i = j
      · subst hij
        simp only [List.getElem_set_self]
        have := List.count_pos_iff.mpr (List.getElem_mem hi)
        by_cases hx : d[i] = x
        · subst hx; simp
        · simp [hx]
      · rw [List.getElem_set_ne hij]
        have h1 : 0 < d.count d[i] :=
          List.count_pos_iff.mpr (List.getElem_mem hi)
        have h2 : 0 < d.count d[j] :=
          List.count_pos_iff.mpr (List.getElem_mem hj)
        by_cases hx : d[i] = x <;> by_cases hy : d[j] = x
        · simp [hx, hy]; rw [hx] at h1; omega
        · simp [hx, hy]; rw [hx] at h1; omega
        · simp [hx, hy]
        · simp [hx, hy]
    · rw [swap_of_ge_right d i j (by omega)]
  · rw [swap_of_ge_left d i j (by omega)]

theorem RangePerm.refl (a b : Nat) (d : List α) : RangePerm a b d d :=
  ⟨List.Perm.refl d, fun _ _ => rfl⟩

theorem RangePerm.trans {a b : Nat} {d1 d2 d3 : List α} (h1 : RangePerm a b d1 d2)
    (h2 : RangePerm a b d2 d3) : RangePerm a b d1 d3 :=
  ⟨h2.1.trans h1.1, fun k hk => (h2.2 k hk).trans (h1.2 k hk)⟩

theorem RangePerm.mono {a b a' b' : Nat} {d d' : List α} (h : RangePerm a b d d')
    (ha : a' ≤ a) (hb : b ≤ b') : RangePerm a' b' d d' :=
  ⟨h.1, fun k hk => h.2 k (by omega)⟩

theorem RangePerm.length_eq {a b : Nat} {d d' : List α} (h : RangePerm a b d d') :
    d'.length = d.length := h.1.length_eq

theorem swap_rangePerm (d : List α) (a b i j : Nat) (hi1 : a ≤ i) (hi2 : i < b)
    (hj1 : a ≤ j) (hj2 : j < b) : RangePerm a b d (swap d i j) :=
  ⟨swap_perm d i j, fun k hk => getElem?_swap_of_ne d i j k (by omega) (by omega)⟩

theorem RangePerm.mem_range {a b : Nat} {d d' : List α} (h : RangePerm a b d d')
    (k : Nat) (x : α) (hk1 : a ≤ k) (hk2 : k < b) (hx : d'[k]? = some x) :
    ∃ k', a ≤ k' ∧ k' < b ∧ d[k']? = some x := by
  have hab : a ≤ b := by omega
  have hsplit : ∀ l : List α, l = l.take a ++ ((l.drop a).take (b - a) ++ l.drop b) := by
    intro l
    have h1 : l.drop b = (l.drop a).drop (b - a) := by
      rw [List.drop_drop]; congr 1; omega
    rw [h1, List.take_append_drop, List.take_append_drop]
  have htake : d'.take a = d.take a := by
    apply List.ext_getElem?
    intro n
    rw [List.getElem?_take, List.getElem?_take]
    split
    · exact h.2 n (Or.inl (by assumption))
    · rfl
  have hdrop : d'.drop b = d.drop b := by
    apply List.ext_getElem?
    intro n
    rw [List.getElem?_drop, List.getElem?_drop]
    exact h.2 (b + n) (Or.inr (by omega))
  have hp := h.1
  rw [hsplit d', hsplit d, htake, hdrop] at hp
  have hmid : ((d'.drop a).take (b - a)).Perm ((d.drop a).take (b - a)) :=
    (List.perm_append_right_iff _).mp ((List.perm_append_left_iff _).mp hp)
  have hmem : x ∈ (d'.drop a).take (b - a) := by
    apply List.mem_iff_getElem?.mpr
    refine ⟨k - a, ?_⟩
    rw [List.getElem?_take, if_pos (by omega), List.getElem?_drop]
    rw [show a + (k - a) = k by omega]
    exact hx
  obtain ⟨n, hn⟩ := List.mem_iff_getElem?.mp (hmid.mem_iff.mp hmem)
  rw [List.getElem?_take] at hn
  split at hn
  · rw [List.getElem?_drop] at hn
    exact ⟨a + n, by omega, by omega, hn⟩
  · exact absurd hn (by simp)

theorem RangePerm.allIn {a b : Nat} {d d' : List α} (h : RangePerm a b d d')
    (P : α → Prop) (hP : AllIn P d a b) : AllIn P d' a b := by
  intro k x hk1 hk2 hx
  obtain ⟨k', h1, h2, h3⟩ := h.mem_range k x hk1 hk2 hx
  exact hP k' x h1 h2 h3

theorem RangePerm.allIn_sub {a b a' b' : Nat} {d d' : List α} (h : RangePerm a' b' d d')
    (ha : a ≤ a') (hb : b' ≤ b) (P : α → Prop) (hP : AllIn P d a b) : AllIn P d' a b := by
  intro k x hk1 hk2 hx
  by_cases hin : a' ≤ k ∧ k < b'
  · obtain ⟨k', h1, h2, h3⟩ := h.mem_range k x hin.1 hin.2 hx
    exact hP k' x (by omega) (by omega) h3
  · rw [h.2 k (by omega)] at hx
    exact hP k x hk1 hk2 hx

theorem getElem?_some_of_lt (d : List α) (k : Nat) (h : k < d.length) :
    ∃ x, d[k]? = some x := ⟨d[k], List.getElem?_eq_getElem h⟩

theorem lt_of_getElem?_some {d : List α} {k : Nat} {x : α} (h : d[k]? = some x) :
    k < d.length := (List.getElem?_eq_some.mp h).1

theorem lessAt_of_some (less : α → α → Bool) {d : List α} {i j : Nat} {x y : α}
    (hi : d[i]? = some x) (hj : d[j]? = some y) : lessAt less d i j = less x y := by
  unfold lessAt
  rw [hi, hj]

theorem lessAt_eq_true (less : α → α → Bool) (data : List α) (i j : Nat)
    (h : lessAt less data i j = true) :
    ∃ x y, data[i]? = some x ∧ data[j]? = some y ∧ less x y = true := by
  unfold lessAt at h
  cases hx : data[i]? with
  | none => simp [hx] at h
  | some x =>
    cases hy : data[j]? with
    | none => simp [hx, hy] at h
    | some y => exact ⟨x, y, rfl, rfl, by simpa [hx, hy] using h⟩

end SortProofs

section SortProofs2

variable {α : Type} {less : α → α → Bool}

theorem StrictWeakOrder.asymm (hsw : StrictWeakOrder less) {x y : α}
    (h : less x y = true) : less y x = false := by
  cases hyx : less y x with
  | false => rfl
  | true =>
    have := hsw.2.1 x y x h hyx
    rw [hsw.1 x] at this
    exact absurd this (by decide)

theorem StrictWeakOrder.le_trans (hsw : StrictWeakOrder less) {x y z : α}
    (h1 : less y x = false) (h2 : less z y = false) : less z x = false :=
  hsw.2.2 z y x h2 h1

theorem StrictWeakOrder.lt_of_lt_of_le (hsw : StrictWeakOrder less) {x y z : α}
    (h1 : less x y = true) (h2 : less z y = false) : less x z = true := by
  cases h : less x z with
  | true => rfl
  | false =>
    have := hsw.2.2 x z y h h2
    rw [h1] at this
    exact absurd this (by decide)

theorem StrictWeakOrder.lt_of_le_of_lt (hsw : StrictWeakOrder less) {x y z : α}
    (h1 : less y x = false) (h2 : less y z = true) : less x z = true := by
  cases h : less x z with
  | true => rfl
  | false =>
    have := hsw.2.2 y x z h1 h
    rw [h2] at this
    exact absurd this (by decide)

theorem SortedIn.shrink {d : List α} {a b a' b' : Nat} (h : SortedIn less d a b)
    (ha : a ≤ a') (hb : b' ≤ b) : SortedIn less d a' b' :=
  fun i j x y h1 h2 h3 hx hy => h i j x y (by omega) h2 (by omega) hx hy

theorem SortedIn.glue {d : List α} {a m b : Nat} (h1 : SortedIn less d a m)
    (h2 : SortedIn less d m b)
    (h3 : ∀ i j x y, a ≤ i → i < m → m ≤ j → j < b → d[i]? = some x → d[j]? = some y →
      less y x = false) :
    SortedIn less d a b := by
  intro i j x y hi hij hj hx hy
  by_cases hjm : j < m
  · exact h1 i j x y hi hij hjm hx hy
  · by_cases him : m ≤ i
    · exact h2 i j x y him hij hj hx hy
    · exact h3 i j x y hi (by omega) (by omega) hj hx hy

theorem SortedIn.of_frame {d d' : List α} {a b : Nat} (h : SortedIn less d a b)
    (hf : ∀ k, a ≤ k → k < b → d'[k]? = d[k]?) : SortedIn less d' a b := by
  intro i j x y hi hij hj hx hy
  rw [hf i hi (by omega)] at hx
  rw [hf j (by omega) hj] at hy
  exact h i j x y hi hij hj hx hy

theorem insertionSort_inner_rangePerm (less : α → α → Bool) (a j : Nat) (d : List α) :
    RangePerm a (j + 1) d (insertionSort_inner less a j d) := by
  induction j generalizing d with
  | zero => exact RangePerm.refl _ _ _
  | succ j ih =>
    unfold insertionSort_inner
    by_cases hc : (decide (j + 1 > a) && lessAt less d (j + 1) j) = true
    · rw [if_pos hc]
      have ha : a ≤ j := by
        simp only [Bool.and_eq_true, decide_eq_true_eq] at hc; omega
      exact (swap_rangePerm d a (j + 2) (j + 1) j (by omega) (by omega) ha (by omega)).trans
        ((ih (swap d (j + 1) j)).mono (Nat.le_refl _) (by omega))
    · rw [if_neg hc]
      exact RangePerm.refl _ _ _

/-- The inner loop of the insertion sort puts the element at index `j` in place: when
the range `[a, J]` without index `j` is in order and the element at `j` is at most those
after it, the range is in order afterwards. -/
theorem insertionSort_inner_sorted (hsw : StrictWeakOrder less) (a J : Nat) :
    ∀ (j : Nat) (d : List α), j ≤ J → J < d.length →
      SortedIn less d a j → SortedIn less d j (J + 1) →
      (∀ k m x y, a ≤ k → k < j → j < m → m ≤ J → d[k]? = some x → d[m]? = some y →
        less y x = false) →
      SortedIn less (insertionSort_inner less a j d) a (J + 1) := by
  intro j
  induction j with
  | zero =>
    intro d _ _ _ h2 _
    exact h2.shrink (Nat.zero_le _) (Nat.le_refl _)
  | succ j ih =>
    intro d hjJ hJ h1 h2 h3
    obtain ⟨x, hx⟩ := getElem?_some_of_lt d (j + 1) (by omega)
    obtain ⟨y, hy⟩ := getElem?_some_of_lt d j (by omega)
    unfold insertionSort_inner
    by_cases hc : (decide (j + 1 > a) && lessAt less d (j + 1) j) = true
    · rw [if_pos hc]
      simp only [Bool.and_eq_true, decide_eq_true_eq] at hc
      obtain ⟨haj, hlt⟩ := hc
      rw [lessAt_of_some less hx hy] at hlt
      have hs := getElem?_swap d (j + 1) j
      have hj1 : j + 1 < d.length := by omega
      have hj0 : j < d.length := by omega
      apply ih (swap d (j + 1) j) (by omega) (by rw [length_swap]; exact hJ)
      · -- the prefix before j is untouched
        apply (h1.shrink (Nat.le_refl _) (Nat.le_succ j)).of_frame
        intro k _ hk
        exact getElem?_swap_of_ne d (j + 1) j k (by omega) (by omega)
      · intro p q u v hp hpq hq hu hv
        rw [hs q hj1 hj0] at hv
        rw [hs p hj1 hj0] at hu
        have hqj : q ≠ j := by omega
        rw [if_neg hqj] at hv
        by_cases hpj : p = j
        · rw [if_pos hpj, hx] at hu
          cases hu
          by_cases hq1 : q = j + 1
          · rw [if_pos hq1, hy] at hv
            cases hv
            exact hsw.asymm hlt
          · rw [if_neg hq1] at hv
            exact h2 (j + 1) q _ _ (Nat.le_refl _) (by omega) hq hx hv
        · rw [if_neg hpj] at hu
          by_cases hp1 : p = j + 1
          · rw [if_pos hp1, hy] at hu
            cases hu
            have hq1 : q ≠ j + 1 := by omega
            rw [if_neg hq1] at hv
            exact h3 j q _ _ (by omega) (by omega) (by omega) (by omega) hy hv
          · rw [if_neg hp1] at hu
            have hq1 : q ≠ j + 1 := by omega
            rw [if_neg hq1] at hv
            exact h2 p q u v (by omega) hpq hq hu hv
      · intro k m u v hk1 hk2 hm1 hm2 hu hv
        rw [hs k hj1 hj0, if_neg (by omega), if_neg (by omega)] at hu
        rw [hs m hj1 hj0, if_neg (by omega)] at hv
        by_cases hm : m = j + 1
        · rw [if_pos hm, hy] at hv
          cases hv
          exact h1 k j _ _ hk1 hk2 (by omega) hu hy
        · rw [if_neg hm] at hv
          exact h3 k m u v hk1 (by omega) (by omega) hm2 hu hv
    · rw [if_neg hc]
      by_cases haj : j + 1 > a
      · have hle : less x y = false := by
          simp only [Bool.and_eq_true, decide_eq_true_eq, not_and, Bool.not_eq_true] at hc
          have := hc haj
          rwa [lessAt_of_some less hx hy] at this
        apply SortedIn.glue h1 h2
        intro i m u v hi1 hi2 hm1 hm2 hu hv
        have hyu : less y u = false := by
          by_cases hij : i = j
          · subst hij
            rw [hy] at hu; cases hu
            exact hsw.1 _
          · exact h1 i j u y hi1 (by omega) (by omega) hu hy
        by_cases hm : m = j + 1
        · subst hm
          rw [hx] at hv; cases hv
          exact hsw.le_trans hyu hle
        · exact h3 i m u v hi1 hi2 (by omega) (by omega) hu hv
      · exact h2.shrink (by omega) (Nat.le_refl _)

theorem insertionSort_loop_rangePerm (less : α → α → Bool) (a b fuel i : Nat) (d : List α)
    (hi : a ≤ i) : RangePerm a b d (insertionSort_loop less a b fuel i d) := by
  induction fuel generalizing i d with
  | zero => exact RangePerm.refl _ _ _
  | succ fuel ih =>
    unfold insertionSort_loop
    by_cases hc : i < b
    · rw [if_pos hc]
      exact ((insertionSort_inner_rangePerm less a i d).mono (Nat.le_refl _) (by omega)).trans
        (ih (i + 1) _ (by omega))
    · rw [if_neg hc]
      exact RangePerm.refl _ _ _

theorem insertionSort_loop_sorted (hsw : StrictWeakOrder less) (a b fuel i : Nat)
    (d : List α) (hb : b ≤ d.length) (hfuel : b - i ≤ fuel)
    (hs : SortedIn less d a i) :
    SortedIn less (insertionSort_loop less a b fuel i d) a b := by
  induction fuel generalizing i d with
  | zero => exact hs.shrink (Nat.le_refl _) (by omega)
  | succ fuel ih =>
    unfold insertionSort_loop
    by_cases hc : i < b
    · rw [if_pos hc]
      apply ih (i + 1) _
      · rw [(insertionSort_inner_rangePerm less a i d).length_eq]; exact hb
      · omega
      · apply insertionSort_inner_sorted hsw a i i d (Nat.le_refl _) (by omega) hs
        · intro p q _ _ _ _ _; omega
        · intro k m _ _ _ _ _ _; omega
    · rw [if_neg hc]
      exact hs.shrink (Nat.le_refl _) (by omega)

theorem insertionSort_func_rangePerm (less : α → α → Bool) (d : List α) (a b : Nat) :
    RangePerm a b d (insertionSort_func less d a b) :=
  insertionSort_loop_rangePerm less a b _ _ d (by omega)

theorem insertionSort_func_sorted (hsw : StrictWeakOrder less) (d : List α) (a b : Nat)
    (hb : b ≤ d.length) : SortedIn less (insertionSort_func less d a b) a b := by
  apply insertionSort_loop_sorted hsw a b _ _ d hb (by omega)
  intro p q _ _ _ _ _; omega

end SortProofs2

section SortProofs3

variable {α : Type} {less : α → α → Bool}

theorem lessAt_congr (less : α → α → Bool) {d d' : List α} {i j i' j' : Nat}
    (hi : d'[i']? = d[i]?) (hj : d'[j']? = d[j]?) :
    lessAt less d' i' j' = lessAt less d i j := by
  unfold lessAt
  rw [hi, hj]

theorem partition_up_spec (less : α → α → Bool) (d : List α) (a j fuel i : Nat)
    (hfuel : j + 1 - i ≤ fuel) :
    i ≤ partition_up less d a j fuel i ∧
    (partition_up less d a j fuel i ≤ j + 1 ∨ partition_up less d a j fuel i = i) ∧
    (∀ k, i ≤ k → k < partition_up less d a j fuel i → lessAt less d k a = true) ∧
    (partition_up less d a j fuel i ≤ j →
      lessAt less d (partition_up less d a j fuel i) a = false) := by
  induction fuel generalizing i with
  | zero =>
    unfold partition_up
    exact ⟨Nat.le_refl _, Or.inr rfl, fun k h1 h2 => by omega, fun h => by omega⟩
  | succ fuel ih =>
    unfold partition_up
    by_cases hc : (decide (i ≤ j) && lessAt less d i a) = true
    · rw [if_pos hc]
      simp only [Bool.and_eq_true, decide_eq_true_eq] at hc
      obtain ⟨h1, h2, h3, h4⟩ := ih (i + 1) (by omega)
      refine ⟨by omega, ?_, ?_, h4⟩
      · rcases h2 with h2 | h2
        · exact Or.inl h2
        · exact Or.inl (by omega)
      · intro k hk1 hk2
        by_cases hki : k = i
        · rw [hki]; exact hc.2
        · exact h3 k (by omega) hk2
    · rw [if_neg hc]
      refine ⟨Nat.le_refl _, Or.inr rfl, fun k h1 h2 => by omega, fun h => ?_⟩
      simp only [Bool.and_eq_true, decide_eq_true_eq, not_and, Bool.not_eq_true] at hc
      exact hc h

theorem partition_down_spec (less : α → α → Bool) (d : List α) (a i j : Nat) (hi : 1 ≤ i) :
    partition_down less d a i j ≤ j ∧
    (i ≤ partition_down less d a i j + 1 ∨ partition_down less d a i j = j) ∧
    (∀ k, partition_down less d a i j < k → k ≤ j → lessAt less d k a = false) ∧
    (i ≤ partition_down less d a i j →
      lessAt less d (partition_down less d a i j) a = true) := by
  induction j with
  | zero =>
    unfold partition_down
    exact ⟨Nat.le_refl _, Or.inr rfl, fun k h1 h2 => by omega, fun h => by omega⟩
  | succ j ih =>
    unfold partition_down
    by_cases hc : (decide (i ≤ j + 1) && !lessAt less d (j + 1) a) = true
    · rw [if_pos hc]
      simp only [Bool.and_eq_true, decide_eq_true_eq, Bool.not_eq_true'] at hc
      obtain ⟨h1, h2, h3, h4⟩ := ih
      refine ⟨by omega, ?_, ?_, h4⟩
      · rcases h2 with h2 | h2
        · exact Or.inl h2
        · exact Or.inl (by omega)
      · intro k hk1 hk2
        by_cases hkj : k = j + 1
        · rw [hkj]; exact hc.2
        · exact h3 k hk1 (by omega)
    · rw [if_neg hc]
      refine ⟨Nat.le_refl _, Or.inr rfl, fun k h1 h2 => by omega, fun h => ?_⟩
      simp only [Bool.and_eq_true, decide_eq_true_eq, Bool.not_eq_true', not_and,
        Bool.not_eq_false] at hc
      exact hc h

/-- The loop of `partition_func`: it only moves elements inside `[a + 1, b)`, and at its
end every element in `[a + 1, j]` is less than the pivot at `a` and none in `(j, b)` is. -/
theorem partition_loop_spec (less : α → α → Bool) (a b : Nat) :
    ∀ (fuel i j : Nat) (d : List α), b ≤ d.length → a + 1 ≤ i → j + 1 ≤ b → i ≤ j + 1 →
      j + 1 - i ≤ fuel →
      (∀ k, a + 1 ≤ k → k < i → lessAt less d k a = true) →
      (∀ k, j < k → k < b → lessAt less d k a = false) →
      RangePerm (a + 1) b d (partition_loop less a fuel i j d).1 ∧
      a ≤ (partition_loop less a fuel i j d).2 ∧
      (partition_loop less a fuel i j d).2 + 1 ≤ b ∧
      (∀ k, a + 1 ≤ k → k ≤ (partition_loop less a fuel i j d).2 →
        lessAt less (partition_loop less a fuel i j d).1 k a = true) ∧
      (∀ k, (partition_loop less a fuel i j d).2 < k → k < b →
        lessAt less (partition_loop less a fuel i j d).1 k a = false) := by
  intro fuel
  induction fuel with
  | zero =>
    intro i j d hb hi hj hij hfuel hl hr
    unfold partition_loop
    exact ⟨RangePerm.refl _ _ _, by omega, hj, fun k h1 h2 => hl k h1 (by omega), hr⟩
  | succ fuel ih =>
    intro i j d hb hi hj hij hfuel hl hr
    unfold partition_loop
    dsimp only
    obtain ⟨u1, u2, u3, u4⟩ := partition_up_spec less d a j (j + 1 - i) i (Nat.le_refl _)
    generalize partition_up less d a j (j + 1 - i) i = i' at u1 u2 u3 u4 ⊢
    obtain ⟨v1, v2, v3, v4⟩ := partition_down_spec less d a i' j (by omega)
    generalize partition_down less d a i' j = j' at v1 v2 v3 v4 ⊢
    have hi'j : i' ≤ j + 1 := by omega
    have hij' : i' ≤ j' + 1 := by omega
    by_cases hc : i' > j'
    · rw [if_pos hc]
      refine ⟨RangePerm.refl _ _ _, by omega, by omega, ?_, ?_⟩
      · intro k h1 h2
        by_cases hk : k < i
        · exact hl k h1 hk
        · exact u3 k (by omega) (by omega)
      · intro k h1 h2
        by_cases hk : j < k
        · exact hr k hk h2
        · exact v3 k h1 (by omega)
    · rw [if_neg hc]
      have hle : i' ≤ j' := by omega
      have e1 := u4 (by omega)
      have e2 := v4 hle
      have hne : i' ≠ j' := by
        intro h; rw [h] at e1; rw [e1] at e2; exact absurd e2 (by decide)
      have hi'len : i' < d.length := by omega
      have hj'len : j' < d.length := by omega
      have hsa : (swap d i' j')[a]? = d[a]? :=
        getElem?_swap_of_ne d i' j' a (by omega) (by omega)
      obtain ⟨r1, r2, r3, r4, r5⟩ := ih (i' + 1) (j' - 1) (swap d i' j')
        (by rw [length_swap]; exact hb) (by omega) (by omega) (by omega) (by omega)
        (by
          intro k h1 h2
          by_cases hk : k = i'
          · rw [hk, lessAt_congr less (d := d) (i := j') (j := a)
              (by rw [getElem?_swap d i' j' i' hi'len hj'len, if_neg hne, if_pos rfl]) hsa]
            exact e2
          · rw [lessAt_congr less (d := d) (i := k) (j := a)
              (getElem?_swap_of_ne d i' j' k hk (by omega)) hsa]
            by_cases hki : k < i
            · exact hl k h1 hki
            · exact u3 k (by omega) (by omega))
        (by
          intro k h1 h2
          by_cases hk : k = j'
          · rw [hk, lessAt_congr less (d := d) (i := i') (j := a)
              (by rw [getElem?_swap d i' j' j' hi'len hj'len, if_pos rfl]) hsa]
            exact e1
          · rw [lessAt_congr less (d := d) (i := k) (j := a)
              (getElem?_swap_of_ne d i' j' k (by omega) hk) hsa]
            by_cases hkj : j < k
            · exact hr k hkj h2
            · exact v3 k (by omega) (by omega))
      exact ⟨(swap_rangePerm d (a + 1) b i' j' (by omega) (by omega) (by omega)
        (by omega)).trans r1, r2, r3, r4, r5⟩

theorem partition_func_eq (less : α → α → Bool) (d : List α) (a b pivot : Nat) :
    (partition_func less d a b pivot).1
        = swap (partition_loop less a (b - a + 1) (a + 1) (b - 1) (swap d a pivot)).1
            (partition_loop less a (b - a + 1) (a + 1) (b - 1) (swap d a pivot)).2 a ∧
    (partition_func less d a b pivot).2.1
        = (partition_loop less a (b - a + 1) (a + 1) (b - 1) (swap d a pivot)).2 := by
  unfold partition_func
  rw [partition_loop]
  dsimp only
  split <;> simp

/-- The function `partition_func` splits `[a, b)` around the pivot: the pivot ends at the
returned index, the elements before it in the range are less than it and those after it
are not. -/
theorem partition_func_spec (less : α → α → Bool) (d : List α) (a b pivot : Nat)
    (hab : a < b) (hb : b ≤ d.length) (hp1 : a ≤ pivot) (hp2 : pivot < b) :
    RangePerm a b d (partition_func less d a b pivot).1 ∧
    a ≤ (partition_func less d a b pivot).2.1 ∧
    (partition_func less d a b pivot).2.1 < b ∧
    ∃ p, d[pivot]? = some p ∧
      (partition_func less d a b pivot).1[(partition_func less d a b pivot).2.1]? = some p ∧
      AllIn (fun x => less x p = true) (partition_func less d a b pivot).1 a
        (partition_func less d a b pivot).2.1 ∧
      AllIn (fun x => less x p = false) (partition_func less d a b pivot).1
        ((partition_func less d a b pivot).2.1 + 1) b := by
  obtain ⟨e1, e2⟩ := partition_func_eq less d a b pivot
  rw [e1, e2]
  have hd0len : (swap d a pivot).length = d.length := length_swap _ _ _
  obtain ⟨r1, r2, r3, r4, r5⟩ := partition_loop_spec less a b (b - a + 1) (a + 1) (b - 1)
    (swap d a pivot) (by omega) (Nat.le_refl _) (by omega) (by omega) (by omega)
    (fun k h1 h2 => by omega) (fun k h1 h2 => by omega)
  generalize partition_loop less a (b - a + 1) (a + 1) (b - 1) (swap d a pivot) = L at *
  obtain ⟨d2, j2⟩ := L
  simp only at r1 r2 r3 r4 r5 ⊢
  have hd2len : d2.length = d.length := by rw [r1.length_eq, hd0len]
  obtain ⟨p, hp⟩ := getElem?_some_of_lt d pivot (by omega)
  have hpa0 : (swap d a pivot)[a]? = some p := by
    rw [getElem?_swap d a pivot a (by omega) (by omega)]
    split
    · rename_i h; rw [← h] at hp; exact hp
    · rw [if_pos rfl]; exact hp
  have hpa : d2[a]? = some p := by
    rw [r1.2 a (Or.inl (by omega))]; exact hpa0
  have hsw := getElem?_swap d2 j2 a
  refine ⟨?_, r2, by omega, p, hp, ?_, ?_, ?_⟩
  · exact (swap_rangePerm d a b a pivot (Nat.le_refl _) hab hp1 hp2).trans
      ((r1.mono (Nat.le_succ a) (Nat.le_refl _)).trans
        (swap_rangePerm d2 a b j2 a r2 (by omega) (Nat.le_refl _) hab))
  · rw [hsw j2 (by omega) (by omega)]
    split
    · rename_i h; rw [h]; exact hpa
    · rw [if_pos rfl]; exact hpa
  · intro k x hk1 hk2 hx
    rw [hsw k (by omega) (by omega)] at hx
    by_cases hka : k = a
    · rw [if_pos hka] at hx
      have := r4 j2 (by omega) (Nat.le_refl _)
      rw [lessAt_of_some less hx hpa] at this
      exact this
    · rw [if_neg hka, if_neg (by omega)] at hx
      have := r4 k (by omega) (by omega)
      rw [lessAt_of_some less hx hpa] at this
      exact this
  · intro k x hk1 hk2 hx
    rw [hsw k (by omega) (by omega), if_neg (by omega), if_neg (by omega)] at hx
    have := r5 k (by omega) hk2
    rw [lessAt_of_some less hx hpa] at this
    exact this

end SortProofs3

section SortProofs4

variable {α : Type} {less : α → α → Bool}

theorem partitionEqual_up_spec (less : α → α → Bool) (d : List α) (a j fuel i : Nat)
    (hfuel : j + 1 - i ≤ fuel) :
    i ≤ partitionEqual_up less d a j fuel i ∧
    (partitionEqual_up less d a j fuel i ≤ j + 1 ∨ partitionEqual_up less d a j fuel i = i) ∧
    (∀ k, i ≤ k → k < partitionEqual_up less d a j fuel i → lessAt less d a k = false) ∧
    (partitionEqual_up less d a j fuel i ≤ j →
      lessAt less d a (partitionEqual_up less d a j fuel i) = true) := by
  induction fuel generalizing i with
  | zero =>
    unfold partitionEqual_up
    exact ⟨Nat.le_refl _, Or.inr rfl, fun k h1 h2 => by omega, fun h => by omega⟩
  | succ fuel ih =>
    unfold partitionEqual_up
    by_cases hc : (decide (i ≤ j) && !lessAt less d a i) = true
    · rw [if_pos hc]
      simp only [Bool.and_eq_true, decide_eq_true_eq, Bool.not_eq_true'] at hc
      obtain ⟨h1, h2, h3, h4⟩ := ih (i + 1) (by omega)
      refine ⟨by omega, ?_, ?_, h4⟩
      · rcases h2 with h2 | h2
        · exact Or.inl h2
        · exact Or.inl (by omega)
      · intro k hk1 hk2
        by_cases hki : k = i
        · rw [hki]; exact hc.2
        · exact h3 k (by omega) hk2
    · rw [if_neg hc]
      refine ⟨Nat.le_refl _, Or.inr rfl, fun k h1 h2 => by omega, fun h => ?_⟩
      simp only [Bool.and_eq_true, decide_eq_true_eq, Bool.not_eq_true', not_and,
        Bool.not_eq_false] at hc
      exact hc h

theorem partitionEqual_down_spec (less : α → α → Bool) (d : List α) (a i j : Nat)
    (hi : 1 ≤ i) :
    partitionEqual_down less d a i j ≤ j ∧
    (i ≤ partitionEqual_down less d a i j + 1 ∨ partitionEqual_down less d a i j = j) ∧
    (∀ k, partitionEqual_down less d a i j < k → k ≤ j → lessAt less d a k = true) ∧
    (i ≤ partitionEqual_down less d a i j →
      lessAt less d a (partitionEqual_down less d a i j) = false) := by
  induction j with
  | zero =>
    unfold partitionEqual_down
    exact ⟨Nat.le_refl _, Or.inr rfl, fun k h1 h2 => by omega, fun h => by omega⟩
  | succ j ih =>
    unfold partitionEqual_down
    by_cases hc : (decide (i ≤ j + 1) && lessAt less d a (j + 1)) = true
    · rw [if_pos hc]
      simp only [Bool.and_eq_true, decide_eq_true_eq] at hc
      obtain ⟨h1, h2, h3, h4⟩ := ih
      refine ⟨by omega, ?_, ?_, h4⟩
      · rcases h2 with h2 | h2
        · exact Or.inl h2
        · exact Or.inl (by omega)
      · intro k hk1 hk2
        by_cases hkj : k = j + 1
        · rw [hkj]; exact hc.2
        · exact h3 k hk1 (by omega)
    · rw [if_neg hc]
      refine ⟨Nat.le_refl _, Or.inr rfl, fun k h1 h2 => by omega, fun h => ?_⟩
      simp only [Bool.and_eq_true, decide_eq_true_eq, not_and, Bool.not_eq_true] at hc
      exact hc h

theorem partitionEqual_loop_spec (less : α → α → Bool) (a b : Nat) :
    ∀ (fuel i j : Nat) (d : List α), b ≤ d.length → a + 1 ≤ i → j + 1 ≤ b → i ≤ j + 1 →
      j + 1 - i ≤ fuel →
      (∀ k, a + 1 ≤ k → k < i → lessAt less d a k = false) →
      (∀ k, j < k → k < b → lessAt less d a k = true) →
      RangePerm (a + 1) b d (partitionEqual_loop less a fuel i j d).1 ∧
      a + 1 ≤ (partitionEqual_loop less a fuel i j d).2 ∧
      (partitionEqual_loop less a fuel i j d).2 ≤ b ∧
      (∀ k, a + 1 ≤ k → k < (partitionEqual_loop less a fuel i j d).2 →
        lessAt less (partitionEqual_loop less a fuel i j d).1 a k = false) ∧
      (∀ k, (partitionEqual_loop less a fuel i j d).2 ≤ k → k < b →
        lessAt less (partitionEqual_loop less a fuel i j d).1 a k = true) := by
  intro fuel
  induction fuel with
  | zero =>
    intro i j d hb hi hj hij hfuel hl hr
    unfold partitionEqual_loop
    exact ⟨RangePerm.refl _ _ _, hi, by omega, hl, fun k h1 h2 => hr k (by omega) h2⟩
  | succ fuel ih =>
    intro i j d hb hi hj hij hfuel hl hr
    unfold partitionEqual_loop
    dsimp only
    obtain ⟨u1, u2, u3, u4⟩ :=
      partitionEqual_up_spec less d a j (j + 1 - i) i (Nat.le_refl _)
    generalize partitionEqual_up less d a j (j + 1 - i) i = i' at u1 u2 u3 u4 ⊢
    obtain ⟨v1, v2, v3, v4⟩ := partitionEqual_down_spec less d a i' j (by omega)
    generalize partitionEqual_down less d a i' j = j' at v1 v2 v3 v4 ⊢
    have hi'j : i' ≤ j + 1 := by omega
    have hij' : i' ≤ j' + 1 := by omega
    by_cases hc : i' > j'
    · rw [if_pos hc]
      refine ⟨RangePerm.refl _ _ _, by omega, by omega, ?_, ?_⟩
      · intro k h1 h2
        by_cases hk : k < i
        · exact hl k h1 hk
        · exact u3 k (by omega) (by omega)
      · intro k h1 h2
        by_cases hk : j < k
        · exact hr k hk h2
        · exact v3 k (by omega) (by omega)
    · rw [if_neg hc]
      have hle : i' ≤ j' := by omega
      have e1 := u4 (by omega)
      have e2 := v4 hle
      have hne : i' ≠ j' := by
        intro h; rw [h] at e1; rw [e1] at e2; exact absurd e2 (by decide)
      have hi'len : i' < d.length := by omega
      have hj'len : j' < d.length := by omega
      have hsa : (swap d i' j')[a]? = d[a]? :=
        getElem?_swap_of_ne d i' j' a (by omega) (by omega)
      obtain ⟨r1, r2, r3, r4, r5⟩ := ih (i' + 1) (j' - 1) (swap d i' j')
        (by rw [length_swap]; exact hb) (by omega) (by omega) (by omega) (by omega)
        (by
          intro k h1 h2
          by_cases hk : k = i'
          · rw [hk, lessAt_congr less (d := d) (i := a) (j := j') hsa
              (by rw [getElem?_swap d i' j' i' hi'len hj'len, if_neg hne, if_pos rfl])]
            exact e2
          · rw [lessAt_congr less (d := d) (i := a) (j := k) hsa
              (getElem?_swap_of_ne d i' j' k hk (by omega))]
            by_cases hki : k < i
            · exact hl k h1 hki
            · exact u3 k (by omega) (by omega))
        (by
          intro k h1 h2
          by_cases hk : k = j'
          · rw [hk, lessAt_congr less (d := d) (i := a) (j := i') hsa
              (by rw [getElem?_swap d i' j' j' hi'len hj'len, if_pos rfl])]
            exact e1
          · rw [lessAt_congr less (d := d) (i := a) (j := k) hsa
              (getElem?_swap_of_ne d i' j' k (by omega) hk)]
            by_cases hkj : j < k
            · exact hr k hkj h2
            · exact v3 k (by omega) (by omega))
      exact ⟨(swap_rangePerm d (a + 1) b i' j' (by omega) (by omega) (by omega)
        (by omega)).trans r1, r2, r3, r4, r5⟩

/-- The function `partitionEqual_func` splits `[a, b)` into the elements that are not
greater than the pivot, before the returned index, and those that are, from it on. -/
theorem partitionEqual_func_spec (hsw : StrictWeakOrder less) (d : List α)
    (a b pivot : Nat) (hab : a < b) (hb : b ≤ d.length) (hp1 : a ≤ pivot)
    (hp2 : pivot < b) :
    RangePerm a b d (partitionEqual_func less d a b pivot).1 ∧
    a + 1 ≤ (partitionEqual_func less d a b pivot).2 ∧
    (partitionEqual_func less d a b pivot).2 ≤ b ∧
    ∃ p, d[pivot]? = some p ∧
      AllIn (fun x => less p x = false) (partitionEqual_func less d a b pivot).1 a
        (partitionEqual_func less d a b pivot).2 ∧
      AllIn (fun x => less p x = true) (partitionEqual_func less d a b pivot).1
        (partitionEqual_func less d a b pivot).2 b := by
  unfold partitionEqual_func
  dsimp only
  have hd0len : (swap d a pivot).length = d.length := length_swap _ _ _
  obtain ⟨r1, r2, r3, r4, r5⟩ := partitionEqual_loop_spec less a b (b - a + 1) (a + 1)
    (b - 1) (swap d a pivot) (by omega) (Nat.le_refl _) (by omega) (by omega) (by omega)
    (fun k h1 h2 => by omega) (fun k h1 h2 => by omega)
  generalize partitionEqual_loop less a (b - a + 1) (a + 1) (b - 1) (swap d a pivot) = L at *
  obtain ⟨d2, i2⟩ := L
  simp only at r1 r2 r3 r4 r5 ⊢
  obtain ⟨p, hp⟩ := getElem?_some_of_lt d pivot (by omega)
  have hpa0 : (swap d a pivot)[a]? = some p := by
    rw [getElem?_swap d a pivot a (by omega) (by omega)]
    split
    · rename_i h; rw [← h] at hp; exact hp
    · rw [if_pos rfl]; exact hp
  have hpa : d2[a]? = some p := by
    rw [r1.2 a (Or.inl (by omega))]; exact hpa0
  refine ⟨?_, r2, r3, p, hp, ?_, ?_⟩
  · exact (swap_rangePerm d a b a pivot (Nat.le_refl _) hab hp1 hp2).trans
      (r1.mono (Nat.le_succ a) (Nat.le_refl _))
  · intro k x hk1 hk2 hx
    by_cases hka : k = a
    · rw [hka, hpa] at hx
      cases hx
      exact hsw.1 _
    · have := r4 k (by omega) hk2
      rwa [lessAt_of_some less hpa hx] at this
  · intro k x hk1 hk2 hx
    have := r5 k hk1 hk2
    rwa [lessAt_of_some less hpa hx] at this

end SortProofs4

section SortProofs5

variable {α : Type} {less : α → α → Bool}

theorem median_func_mem (less : α → α → Bool) (d : List α) (x y z s : Nat) :
    (median_func less d x y z s).1 = x ∨ (median_func less d x y z s).1 = y ∨
      (median_func less d x y z s).1 = z := by
  unfold median_func order2_func
  by_cases h1 : lessAt less d y x = true <;> by_cases h2 : lessAt less d z x = true <;>
    by_cases h3 : lessAt less d z y = true <;> by_cases h4 : lessAt less d x y = true <;>
    simp [h1, h2, h3, h4]

theorem choosePivot_func_mem (less : α → α → Bool) (d : List α) (a b : Nat)
    (hab : a < b) :
    a ≤ (choosePivot_func less d a b).1 ∧ (choosePivot_func less d a b).1 < b := by
  have key : ∀ (r : Nat × sortedHint) (j s : Nat),
      (a ≤ j ∧ j < b) →
      r = (if s = 0 then (j, sortedHint.increasingHint)
            else if s = 4 * 3 then (j, sortedHint.decreasingHint)
            else (j, sortedHint.unknownHint)) →
      a ≤ r.1 ∧ r.1 < b := by
    intro r j s hj hr
    subst hr
    split
    · exact hj
    · split <;> exact hj
  unfold choosePivot_func
  dsimp only
  by_cases h8 : b - a ≥ 8
  · rw [if_pos h8]
    by_cases h50 : b - a ≥ 50
    · rw [if_pos h50]
      dsimp only [medianAdjacent_func]
      have m1 := median_func_mem less d (a + (b - a) / 4 * 1 - 1) (a + (b - a) / 4 * 1)
        (a + (b - a) / 4 * 1 + 1) 0
      generalize median_func less d (a + (b - a) / 4 * 1 - 1) (a + (b - a) / 4 * 1)
        (a + (b - a) / 4 * 1 + 1) 0 = r1 at m1 ⊢
      obtain ⟨i1, s1⟩ := r1
      have m2 := median_func_mem less d (a + (b - a) / 4 * 2 - 1) (a + (b - a) / 4 * 2)
        (a + (b - a) / 4 * 2 + 1) s1
      generalize median_func less d (a + (b - a) / 4 * 2 - 1) (a + (b - a) / 4 * 2)
        (a + (b - a) / 4 * 2 + 1) s1 = r2 at m2 ⊢
      obtain ⟨i2, s2⟩ := r2
      have m3 := median_func_mem less d (a + (b - a) / 4 * 3 - 1) (a + (b - a) / 4 * 3)
        (a + (b - a) / 4 * 3 + 1) s2
      generalize median_func less d (a + (b - a) / 4 * 3 - 1) (a + (b - a) / 4 * 3)
        (a + (b - a) / 4 * 3 + 1) s2 = r3 at m3 ⊢
      obtain ⟨i3, s3⟩ := r3
      have m4 := median_func_mem less d i1 i2 i3 s3
      generalize median_func less d i1 i2 i3 s3 = r4 at m4 ⊢
      obtain ⟨i4, s4⟩ := r4
      simp only at m1 m2 m3 m4 ⊢
      exact key _ i4 s4 (by omega) rfl
    · rw [if_neg h50]
      have m4 := median_func_mem less d (a + (b - a) / 4 * 1) (a + (b - a) / 4 * 2)
        (a + (b - a) / 4 * 3) 0
      generalize median_func less d (a + (b - a) / 4 * 1) (a + (b - a) / 4 * 2)
        (a + (b - a) / 4 * 3) 0 = r4 at m4 ⊢
      obtain ⟨i4, s4⟩ := r4
      simp only at m4 ⊢
      exact key _ i4 s4 (by omega) rfl
  · rw [if_neg h8]
    exact key _ (a + (b - a) / 4 * 2) 0 (by omega) rfl

theorem reverseRange_loop_rangePerm (a b fuel i j : Nat) (d : List α) (hi : a ≤ i)
    (hj : j < b) : RangePerm a b d (reverseRange_loop fuel i j d) := by
  induction fuel generalizing i j d with
  | zero => exact RangePerm.refl _ _ _
  | succ fuel ih =>
    unfold reverseRange_loop
    by_cases hc : i < j
    · rw [if_pos hc]
      exact (swap_rangePerm d a b i j hi (by omega) (by omega) hj).trans
        (ih (i + 1) (j - 1) _ (by omega) (by omega))
    · rw [if_neg hc]
      exact RangePerm.refl _ _ _

theorem reverseRange_func_rangePerm (d : List α) (a b : Nat) (hab : a < b) :
    RangePerm a b d (reverseRange_func d a b) :=
  reverseRange_loop_rangePerm a b _ _ _ d (Nat.le_refl _) (by omega)

theorem two_pow_bitsLen_le (fuel x : Nat) (hx : 1 ≤ x) : 2 ^ bitsLen fuel x ≤ 2 * x := by
  induction fuel generalizing x with
  | zero => unfold bitsLen; simp; omega
  | succ fuel ih =>
    unfold bitsLen
    rw [if_neg (by omega)]
    by_cases h2 : 1 ≤ x / 2
    · have := ih (x / 2) h2
      rw [Nat.pow_add, Nat.pow_one]
      omega
    · have h0 : x / 2 = 0 := by omega
      rw [h0]
      have : bitsLen fuel 0 = 0 := by
        cases fuel <;> simp [bitsLen]
      rw [this]
      simp
      omega

theorem nextPowerOfTwo_le (length : Nat) (h : 1 ≤ length) :
    nextPowerOfTwo length ≤ 2 * length := by
  unfold nextPowerOfTwo bits_Len
  rw [Nat.one_shiftLeft]
  exact two_pow_bitsLen_le 64 length h

theorem nextPowerOfTwo_pos (length : Nat) : 0 < nextPowerOfTwo length := by
  unfold nextPowerOfTwo
  rw [Nat.one_shiftLeft]
  exact Nat.pos_pow_of_pos _ (by decide)

theorem breakPatterns_loop_rangePerm (a b length modulus idx fuel i random : Nat)
    (d : List α) (hlen : a + length = b) (hmod : modulus ≤ 2 * length) (hpos : 0 < modulus)
    (hidx1 : a + 1 ≤ idx) (hidx2 : idx + 1 < b) (hi : i + fuel ≤ 3) :
    RangePerm a b d (breakPatterns_loop a length modulus idx fuel i random d) := by
  induction fuel generalizing i random d with
  | zero => exact RangePerm.refl _ _ _
  | succ fuel ih =>
    unfold breakPatterns_loop
    dsimp only
    have hlt : xorshift_Next random % modulus < modulus := Nat.mod_lt _ hpos
    have hother : (if xorshift_Next random % modulus ≥ length
        then xorshift_Next random % modulus - length
        else xorshift_Next random % modulus) < length := by
      split <;> omega
    exact (swap_rangePerm d a b _ _ (by omega) (by omega) (by omega) (by omega)).trans
      (ih (i + 1) _ _ (by omega))

theorem breakPatterns_func_rangePerm (d : List α) (a b : Nat) :
    RangePerm a b d (breakPatterns_func d a b) := by
  unfold breakPatterns_func
  dsimp only
  by_cases h8 : b - a ≥ 8
  · rw [if_pos h8]
    exact breakPatterns_loop_rangePerm a b (b - a) _ _ 3 0 _ d (by omega)
      (nextPowerOfTwo_le _ (by omega)) (nextPowerOfTwo_pos _) (by omega) (by omega)
      (by omega)
  · rw [if_neg h8]
    exact RangePerm.refl _ _ _

end SortProofs5

section SortProofs6

variable {α : Type} {less : α → α → Bool}

theorem RangePerm.lowerBounded {a b : Nat} {d d' : List α} (h : RangePerm a b d d')
    (hl : LowerBounded less d a b) : LowerBounded less d' a b := by
  intro k x y ha hk1 hk2 hx hy
  rw [h.2 (a - 1) (Or.inl (by omega))] at hx
  obtain ⟨k', h1, h2, h3⟩ := h.mem_range k y hk1 hk2 hy
  exact hl k' x y ha h1 h2 hx h3

theorem SortedIn.succ (hsw : StrictWeakOrder less) {d : List α} {a q : Nat}
    (hs : SortedIn less d a q) (hq : q < d.length)
    (h : lessAt less d q (q - 1) = false) (haq : a < q) : SortedIn less d a (q + 1) := by
  intro i j x y hi hij hj hx hy
  by_cases hjq : j < q
  · exact hs i j x y hi hij hjq hx hy
  · have hjq' : j = q := by omega
    subst hjq'
    obtain ⟨z, hz⟩ := getElem?_some_of_lt d (j - 1) (by omega)
    rw [lessAt_of_some less hy hz] at h
    by_cases hi1 : i = j - 1
    · subst hi1
      rw [hz] at hx; cases hx
      exact h
    · exact hsw.le_trans (hs i (j - 1) x z hi (by omega) (by omega) hx hz) h

theorem SortedIn.extend (hsw : StrictWeakOrder less) {d : List α} {a i : Nat} (n : Nat)
    (hs : SortedIn less d a i) (hai : a < i) (hlen : i + n ≤ d.length)
    (h : ∀ k, i ≤ k → k < i + n → lessAt less d k (k - 1) = false) :
    SortedIn less d a (i + n) := by
  induction n with
  | zero => exact hs
  | succ n ih =>
    exact (ih (by omega) (fun k h1 h2 => h k h1 (by omega))).succ hsw (by omega)
      (h (i + n) (by omega) (by omega)) (by omega)

theorem partialInsertionSort_skip_spec (less : α → α → Bool) (d : List α) (b fuel i : Nat)
    (hfuel : b - i ≤ fuel) :
    i ≤ partialInsertionSort_skip less d b fuel i ∧
    (partialInsertionSort_skip less d b fuel i ≤ b ∨
      partialInsertionSort_skip less d b fuel i = i) ∧
    (∀ k, i ≤ k → k < partialInsertionSort_skip less d b fuel i →
      lessAt less d k (k - 1) = false) := by
  induction fuel generalizing i with
  | zero =>
    unfold partialInsertionSort_skip
    exact ⟨Nat.le_refl _, Or.inr rfl, fun k h1 h2 => by omega⟩
  | succ fuel ih =>
    unfold partialInsertionSort_skip
    by_cases hc : (decide (i < b) && !lessAt less d i (i - 1)) = true
    · rw [if_pos hc]
      simp only [Bool.and_eq_true, decide_eq_true_eq, Bool.not_eq_true'] at hc
      obtain ⟨h1, h2, h3⟩ := ih (i + 1) (by omega)
      refine ⟨by omega, ?_, ?_⟩
      · rcases h2 with h2 | h2
        · exact Or.inl h2
        · exact Or.inl (by omega)
      · intro k hk1 hk2
        by_cases hki : k = i
        · rw [hki]; exact hc.2
        · exact h3 k (by omega) hk2
    · rw [if_neg hc]
      exact ⟨Nat.le_refl _, Or.inr rfl, fun k h1 h2 => by omega⟩

theorem partialInsertionSort_left_eq (less : α → α → Bool) (a b : Nat) :
    ∀ (j : Nat) (d : List α), b ≤ d.length → a ≤ j → j < b → LowerBounded less d a b →
      partialInsertionSort_left less j d = insertionSort_inner less a j d := by
  intro j
  induction j with
  | zero => intro d _ _ _ _; rfl
  | succ j ih =>
    intro d hb haj hjb hl
    unfold partialInsertionSort_left insertionSort_inner
    by_cases hja : j + 1 > a
    · by_cases hlt : lessAt less d (j + 1) j = true
      · simp only [hlt, hja, decide_True, Bool.and_self, Bool.not_true, Bool.false_eq_true,
          if_false, if_true]
        exact ih _ (by rw [length_swap]; exact hb) (by omega) (by omega)
          ((swap_rangePerm d a b (j + 1) j (by omega) hjb (by omega) (by omega)).lowerBounded
            hl)
      · simp [hlt, hja]
    · have hja' : a = j + 1 := by omega
      obtain ⟨x, hx⟩ := getElem?_some_of_lt d j (by omega)
      obtain ⟨y, hy⟩ := getElem?_some_of_lt d (j + 1) (by omega)
      have hle : lessAt less d (j + 1) j = false := by
        rw [lessAt_of_some less hy hx]
        exact hl (j + 1) x y (by omega) (by omega) hjb (by rw [hja']; exact hx) hy
      simp [hle, hja]

theorem partialInsertionSort_right_rangePerm (less : α → α → Bool) (i b fuel j : Nat)
    (d : List α) (hj : i + 1 ≤ j) :
    RangePerm i b d (partialInsertionSort_right less b fuel j d) := by
  induction fuel generalizing j d with
  | zero => exact RangePerm.refl _ _ _
  | succ fuel ih =>
    unfold partialInsertionSort_right
    by_cases hc : j < b
    · rw [if_pos hc]
      split
      · exact RangePerm.refl _ _ _
      · exact (swap_rangePerm d i b j (j - 1) (by omega) hc (by omega) (by omega)).trans
          (ih (j + 1) _ (by omega))
    · rw [if_neg hc]
      exact RangePerm.refl _ _ _

theorem partialInsertionSort_loop_spec (hsw : StrictWeakOrder less) (a b : Nat) :
    ∀ (steps i : Nat) (d : List α), b ≤ d.length → a + 1 ≤ i → i ≤ b →
      LowerBounded less d a b → SortedIn less d a i →
      RangePerm a b d (partialInsertionSort_loop less a b steps i d).1 ∧
      ((partialInsertionSort_loop less a b steps i d).2 = true →
        SortedIn less (partialInsertionSort_loop less a b steps i d).1 a b) := by
  intro steps
  induction steps with
  | zero =>
    intro i d _ _ _ _ _
    unfold partialInsertionSort_loop
    exact ⟨RangePerm.refl _ _ _, fun h => absurd h (by simp)⟩
  | succ steps ih =>
    intro i d hb hai hib hl hs
    unfold partialInsertionSort_loop
    dsimp only
    obtain ⟨u1, u2, u3⟩ := partialInsertionSort_skip_spec less d b (b - i) i (Nat.le_refl _)
    generalize partialInsertionSort_skip less d b (b - i) i = i' at u1 u2 u3 ⊢
    have hi'b : i' ≤ b := by omega
    have hs' : SortedIn less d a i' := by
      have := SortedIn.extend hsw (i' - i) hs (by omega) (by omega)
        (fun k h1 h2 => u3 k h1 (by omega))
      rwa [show i + (i' - i) = i' by omega] at this
    by_cases he : i' = b
    · rw [if_pos he]
      exact ⟨RangePerm.refl _ _ _, fun _ => he ▸ hs'⟩
    · rw [if_neg he]
      by_cases h50 : b - a < 50
      · rw [if_pos h50]
        exact ⟨RangePerm.refl _ _ _, fun h => absurd h (by simp)⟩
      · rw [if_neg h50]
        have hi'lt : i' < b := by omega
        have p1 : RangePerm a b d (swap d i' (i' - 1)) :=
          swap_rangePerm d a b i' (i' - 1) (by omega) hi'lt (by omega) (by omega)
        have hl1 := p1.lowerBounded hl
        have hlen1 : b ≤ (swap d i' (i' - 1)).length := by rw [length_swap]; exact hb
        have hs1 : SortedIn less (swap d i' (i' - 1)) a (i' - 1) := by
          apply (hs'.shrink (Nat.le_refl _) (by omega)).of_frame
          intro k _ hk
          exact getElem?_swap_of_ne d i' (i' - 1) k (by omega) (by omega)
        -- the shift of the smaller element to the left
        have hleft : ∃ d2, d2 = (if i' - a ≥ 2
              then partialInsertionSort_left less (i' - 1) (swap d i' (i' - 1))
              else swap d i' (i' - 1)) ∧
            RangePerm a b (swap d i' (i' - 1)) d2 ∧ SortedIn less d2 a i' := by
          refine ⟨_, rfl, ?_⟩
          by_cases h2 : i' - a ≥ 2
          · rw [if_pos h2, partialInsertionSort_left_eq less a b (i' - 1) _ hlen1 (by omega)
              (by omega) hl1]
            constructor
            · exact (insertionSort_inner_rangePerm less a (i' - 1) _).mono (Nat.le_refl _)
                (by omega)
            · have := insertionSort_inner_sorted hsw a (i' - 1) (i' - 1)
                (swap d i' (i' - 1)) (Nat.le_refl _) (by omega) hs1
                (fun p q _ _ _ _ _ => by omega) (fun k m _ _ _ _ _ _ => by omega)
              rwa [show i' - 1 + 1 = i' by omega] at this
          · rw [if_neg h2]
            exact ⟨RangePerm.refl _ _ _, fun p q _ _ _ _ _ => by omega⟩
        obtain ⟨d2, hd2, p2, hs2⟩ := hleft
        rw [← hd2]
        have hright : ∃ d3, d3 = (if b - i' ≥ 2
              then partialInsertionSort_right less b (b - i') (i' + 1) d2 else d2) ∧
            RangePerm i' b d2 d3 := by
          refine ⟨_, rfl, ?_⟩
          split
          · exact partialInsertionSort_right_rangePerm less i' b _ _ d2 (Nat.le_refl _)
          · exact RangePerm.refl _ _ _
        obtain ⟨d3, hd3, p3⟩ := hright
        rw [← hd3]
        have p13 : RangePerm a b d d3 := p1.trans (p2.trans (p3.mono (by omega) (Nat.le_refl _)))
        have hs3 : SortedIn less d3 a i' :=
          hs2.of_frame (fun k _ hk => p3.2 k (Or.inl hk))
        obtain ⟨r1, r2⟩ := ih i' d3 (by rw [p13.length_eq]; exact hb) (by omega) hi'b
          (p13.lowerBounded hl) hs3
        exact ⟨p13.trans r1, r2⟩

/-- The function `partialInsertionSort_func` only moves elements inside `[a, b)`, and the
range is in order when it reports so. -/
theorem partialInsertionSort_func_spec (hsw : StrictWeakOrder less) (d : List α)
    (a b : Nat) (hab : a < b) (hb : b ≤ d.length) (hl : LowerBounded less d a b) :
    RangePerm a b d (partialInsertionSort_func less d a b).1 ∧
    ((partialInsertionSort_func less d a b).2 = true →
      SortedIn less (partialInsertionSort_func less d a b).1 a b) :=
  partialInsertionSort_loop_spec hsw a b 5 (a + 1) d hb (Nat.le_refl _) (by omega) hl
    (fun p q _ _ _ _ _ => by omega)

end SortProofs6

section SortProofs7

variable {α : Type} {less : α → α → Bool}

theorem lessAt_asymm (hsw : StrictWeakOrder less) {d : List α} {i j : Nat}
    (h : lessAt less d i j = true) : lessAt less d j i = false := by
  obtain ⟨x, y, hx, hy, hxy⟩ := lessAt_eq_true less d i j h
  rw [lessAt_of_some less hy hx]
  exact hsw.asymm hxy

theorem lessAt_irrefl (hsw : StrictWeakOrder less) (d : List α) (i : Nat) :
    lessAt less d i i = false := by
  unfold lessAt
  cases d[i]? with
  | none => rfl
  | some x => exact hsw.1 x

theorem lessAt_ge_trans (hsw : StrictWeakOrder less) {d : List α} {p m c : Nat}
    (hm : m < d.length) (h1 : lessAt less d p m = false) (h2 : lessAt less d m c = false) :
    lessAt less d p c = false := by
  obtain ⟨y, hy⟩ := getElem?_some_of_lt d m hm
  unfold lessAt at h1 h2 ⊢
  rw [hy] at h1 h2
  cases hp : d[p]? with
  | none => rfl
  | some x =>
    cases hc : d[c]? with
    | none => rfl
    | some z =>
      rw [hp] at h1
      rw [hc] at h2
      exact hsw.2.2 x y z h1 h2

/-- The function `siftDown_func` restores the heap below `root`: when every other node
from `lo` on is in order and the parent of `root` is not less than the children of
`root`, every node from `lo` on is in order afterwards. -/
theorem siftDown_func_spec (hsw : StrictWeakOrder less) (hi first lo : Nat) :
    ∀ (fuel root : Nat) (d : List α), first + hi ≤ d.length → lo ≤ root →
      hi - root ≤ fuel →
      (∀ k, lo ≤ k → k < hi → k ≠ root → HeapAt less d first hi k) →
      (∀ pr c, lo ≤ pr → (root = 2 * pr + 1 ∨ root = 2 * pr + 2) →
        (c = 2 * root + 1 ∨ c = 2 * root + 2) → c < hi →
        lessAt less d (first + pr) (first + c) = false) →
      RangePerm (first + root) (first + hi) d (siftDown_func less hi first fuel root d) ∧
      ∀ k, lo ≤ k → k < hi →
        HeapAt less (siftDown_func less hi first fuel root d) first hi k := by
  intro fuel
  induction fuel with
  | zero =>
    intro root d hlen hlo hfuel hheap hgp
    unfold siftDown_func
    refine ⟨RangePerm.refl _ _ _, ?_⟩
    intro k hk1 hk2
    exact hheap k hk1 hk2 (by omega)
  | succ fuel ih =>
    intro root d hlen hlo hfuel hheap hgp
    unfold siftDown_func
    dsimp only
    by_cases hc0 : 2 * root + 1 ≥ hi
    · rw [if_pos hc0]
      refine ⟨RangePerm.refl _ _ _, ?_⟩
      intro k hk1 hk2
      by_cases hkr : k = root
      · intro c hc hchi
        omega
      · exact hheap k hk1 hk2 hkr
    · rw [if_neg hc0]
      -- the larger child
      have hchild : ∃ c, c = (if (decide (2 * root + 1 + 1 < hi) &&
            lessAt less d (first + (2 * root + 1)) (first + (2 * root + 1) + 1)) = true
            then 2 * root + 1 + 1 else 2 * root + 1) ∧
          (c = 2 * root + 1 ∨ c = 2 * root + 2) ∧ c < hi ∧
          ∀ c', (c' = 2 * root + 1 ∨ c' = 2 * root + 2) → c' < hi →
            lessAt less d (first + c) (first + c') = false := by
        refine ⟨_, rfl, ?_⟩
        by_cases hcc : (decide (2 * root + 1 + 1 < hi) &&
            lessAt less d (first + (2 * root + 1)) (first + (2 * root + 1) + 1)) = true
        · rw [if_pos hcc]
          simp only [Bool.and_eq_true, decide_eq_true_eq] at hcc
          refine ⟨Or.inr rfl, hcc.1, ?_⟩
          intro c' hc' hc'hi
          rcases hc' with h | h
          · rw [h]
            exact lessAt_asymm hsw hcc.2
          · rw [h]
            exact lessAt_irrefl hsw d _
        · rw [if_neg hcc]
          refine ⟨Or.inl rfl, by omega, ?_⟩
          intro c' hc' hc'hi
          rcases hc' with h | h
          · rw [h]
            exact lessAt_irrefl hsw d _
          · rw [h]
            simp only [Bool.and_eq_true, decide_eq_true_eq, not_and, Bool.not_eq_true] at hcc
            exact hcc (by omega)
      obtain ⟨c, hceq, hcc, hchi, hlarger⟩ := hchild
      rw [← hceq]
      by_cases hlt : lessAt less d (first + root) (first + c) = true
      · -- exchange with the larger child and go on below it
        simp only [hlt, Bool.not_true, Bool.false_eq_true, if_false]
        have hrlen : first + root < d.length := by omega
        have hclen : first + c < d.length := by omega
        have hsw1 := getElem?_swap d (first + root) (first + c)
        have hat_root : (swap d (first + root) (first + c))[first + root]? = d[first + c]? := by
          rw [hsw1 _ hrlen hclen, if_neg (by omega), if_pos rfl]
        have hat_c : (swap d (first + root) (first + c))[first + c]? = d[first + root]? := by
          rw [hsw1 _ hrlen hclen, if_pos rfl]
        have hat_other : ∀ k, k ≠ root → k ≠ c →
            (swap d (first + root) (first + c))[first + k]? = d[first + k]? := by
          intro k h1 h2
          exact getElem?_swap_of_ne d _ _ _ (by omega) (by omega)
        obtain ⟨r1, r2⟩ := ih c (swap d (first + root) (first + c))
          (by rw [length_swap]; exact hlen) (by omega) (by omega)
          (by
            intro k hk1 hk2 hkc
            intro cc hcc' hcchi
            by_cases hkr : k = root
            · subst hkr
              by_cases hccc : cc = c
              · rw [hccc, lessAt_congr less hat_root hat_c]
                exact lessAt_asymm hsw hlt
              · rw [lessAt_congr less hat_root (hat_other cc (by omega) hccc)]
                exact hlarger cc hcc' hcchi
            · by_cases hccr : cc = root
              · -- k is the parent of root
                rw [hccr, lessAt_congr less (hat_other k hkr hkc) hat_root]
                exact hgp k c hk1 (by omega) hcc hchi
              · rw [lessAt_congr less (hat_other k hkr hkc) (hat_other cc hccr (by omega))]
                exact hheap k hk1 hk2 hkr cc hcc' hcchi)
          (by
            intro pr c' hpr hcpr hc' hc'hi
            have hprr : pr = root := by omega
            rw [hprr, lessAt_congr less hat_root (hat_other c' (by omega) (by omega))]
            exact hheap c (by omega) hchi (by omega) c' hc' hc'hi)
        exact ⟨(swap_rangePerm d (first + root) (first + hi) _ _ (Nat.le_refl _) (by omega)
          (by omega) (by omega)).trans (r1.mono (by omega) (Nat.le_refl _)), r2⟩
      · simp only [hlt, Bool.not_false, if_true]
        refine ⟨RangePerm.refl _ _ _, ?_⟩
        intro k hk1 hk2
        by_cases hkr : k = root
        · subst hkr
          intro cc hcc' hcchi
          exact lessAt_ge_trans hsw (by omega) (by simpa using hlt) (hlarger cc hcc' hcchi)
        · exact hheap k hk1 hk2 hkr

theorem heapSort_build_spec (hsw : StrictWeakOrder less) (hi first : Nat) :
    ∀ (i : Nat) (d : List α), first + hi ≤ d.length →
      (∀ k, i < k → k < hi → HeapAt less d first hi k) →
      RangePerm first (first + hi) d (heapSort_build less hi first i d) ∧
      ∀ k, k < hi → HeapAt less (heapSort_build less hi first i d) first hi k := by
  intro i
  induction i with
  | zero =>
    intro d hlen hheap
    unfold heapSort_build
    obtain ⟨r1, r2⟩ := siftDown_func_spec hsw hi first 0 (hi + 1) 0 d hlen (Nat.le_refl _)
      (by omega) (fun k _ hk2 hk0 => hheap k (by omega) hk2)
      (fun pr c _ h _ _ => by omega)
    exact ⟨r1.mono (by omega) (Nat.le_refl _), fun k hk => r2 k (Nat.zero_le _) hk⟩
  | succ i ih =>
    intro d hlen hheap
    unfold heapSort_build
    obtain ⟨r1, r2⟩ := siftDown_func_spec hsw hi first (i + 1) (hi + 1) (i + 1) d hlen
      (Nat.le_refl _) (by omega) (fun k hk1 hk2 hk0 => hheap k (by omega) hk2)
      (fun pr c hpr h _ _ => by omega)
    obtain ⟨q1, q2⟩ := ih (siftDown_func less hi first (hi + 1) (i + 1) d)
      (by rw [r1.length_eq]; exact hlen) (fun k hk1 hk2 => r2 k (by omega) hk2)
    exact ⟨(r1.mono (by omega) (Nat.le_refl _)).trans q1, q2⟩

/-- In a heap the root is not less than any node. -/
theorem heap_root_max (hsw : StrictWeakOrder less) (d : List α) (first n : Nat)
    (hlen : first + n ≤ d.length) (hheap : ∀ k, k < n → HeapAt less d first n k) :
    ∀ k, k < n → lessAt less d first (first + k) = false := by
  intro k
  induction k using Nat.strong_induction_on with
  | _ k ih =>
    intro hk
    by_cases hk0 : k = 0
    · subst hk0
      exact lessAt_irrefl hsw d _
    · have hpr : (k - 1) / 2 < k := by omega
      have h1 := ih ((k - 1) / 2) hpr (by omega)
      have h2 := hheap ((k - 1) / 2) (by omega) k (by omega) hk
      exact lessAt_ge_trans hsw (by omega) h1 h2

theorem swap_self_getElem? (d : List α) (i k : Nat) : (swap d i i)[k]? = d[k]? := by
  by_cases hi : i < d.length
  · rw [getElem?_swap d i i k hi hi]
    split
    · rename_i h; rw [h]
    · rfl
  · rw [swap_of_ge_left d i i (by omega)]

theorem heapSort_pop_spec (hsw : StrictWeakOrder less) (first B : Nat) :
    ∀ (i : Nat) (d : List α), first + i < d.length → B ≤ d.length → first + i < B →
      (∀ k, k < i + 1 → HeapAt less d first (i + 1) k) →
      SortedIn less d (first + i + 1) B →
      (∀ m y, first + i < m → m < B → d[m]? = some y →
        AllIn (fun x => less y x = false) d first (first + i + 1)) →
      RangePerm first (first + i + 1) d (heapSort_pop less first i d) ∧
      SortedIn less (heapSort_pop less first i d) first B := by
  intro i
  induction i with
  | zero =>
    intro d hlen hB hiB hheap hsorted hcross
    unfold heapSort_pop
    have e0 : siftDown_func less 0 first 1 0 (swap d first first) = swap d first first := by
      unfold siftDown_func
      simp
    rw [e0]
    refine ⟨swap_rangePerm d first (first + 0 + 1) first first (Nat.le_refl _) (by omega)
      (Nat.le_refl _) (by omega), ?_⟩
    apply SortedIn.of_frame _ (fun k _ _ => swap_self_getElem? d first k)
    apply SortedIn.glue (m := first + 1) (fun p q _ _ _ _ _ => by omega) hsorted
    intro p q x y hp1 hp2 hq1 hq2 hx hy
    exact hcross q y (by omega) hq2 hy p x hp1 (by omega) hx
  | succ i ih =>
    intro d hlen hB hiB hheap hsorted hcross
    unfold heapSort_pop
    have hflen : first < d.length := by omega
    have hsw1 := getElem?_swap d first (first + (i + 1)) 
    have hat_first : (swap d first (first + (i + 1)))[first]? = d[first + (i + 1)]? := by
      rw [hsw1 _ hflen hlen, if_neg (by omega), if_pos rfl]
    have hat_last : (swap d first (first + (i + 1)))[first + (i + 1)]? = d[first]? := by
      rw [hsw1 _ hflen hlen, if_pos rfl]
    have hat_other : ∀ k, k ≠ first → k ≠ first + (i + 1) →
        (swap d first (first + (i + 1)))[k]? = d[k]? :=
      fun k h1 h2 => getElem?_swap_of_ne d _ _ _ h1 h2
    have hlen1 : (swap d first (first + (i + 1))).length = d.length := length_swap _ _ _
    obtain ⟨r1, r2⟩ := siftDown_func_spec hsw (i + 1) first 0 (i + 2) 0
      (swap d first (first + (i + 1))) (by omega) (Nat.le_refl _) (by omega)
      (by
        intro k _ hk2 hk0 c hc hchi
        rw [lessAt_congr less (hat_other (first + k) (by omega) (by omega))
          (hat_other (first + c) (by omega) (by omega))]
        exact hheap k (by omega) c hc (by omega))
      (fun pr c _ h _ _ => by omega)
    generalize siftDown_func less (i + 1) first (i + 2) 0 (swap d first (first + (i + 1)))
      = d2 at r1 r2 ⊢
    have p1 : RangePerm first (first + (i + 1) + 1) d (swap d first (first + (i + 1))) :=
      swap_rangePerm d first _ first (first + (i + 1)) (Nat.le_refl _) (by omega) (by omega)
        (by omega)
    have p2 : RangePerm first (first + i + 1) (swap d first (first + (i + 1))) d2 :=
      r1.mono (by omega) (by omega)
    have hlen2 : d2.length = d.length := by rw [p2.length_eq, hlen1]
    obtain ⟨root, hroot⟩ := getElem?_some_of_lt d first hflen
    have hmax := heap_root_max hsw d first (i + 1 + 1) (by omega) hheap
    have hd2_last : d2[first + (i + 1)]? = some root := by
      rw [p2.2 _ (Or.inr (by omega)), hat_last, hroot]
    have hd2_suffix : ∀ m, first + (i + 1) < m → d2[m]? = d[m]? := by
      intro m hm
      rw [p2.2 _ (Or.inr (by omega)), hat_other m (by omega) (by omega)]
    -- every element of the new heap range is an element of the old one
    have hold : ∀ (P : α → Prop), AllIn P d first (first + (i + 1) + 1) →
        AllIn P d2 first (first + i + 1) := by
      intro P hP
      apply p2.allIn
      intro k x hk1 hk2 hx
      by_cases hkf : k = first
      · rw [hkf, hat_first] at hx
        exact hP _ x (by omega) (by omega) hx
      · rw [hat_other k hkf (by omega)] at hx
        exact hP k x hk1 (by omega) hx
    obtain ⟨q1, q2⟩ := ih d2 (by omega) (by omega) (by omega)
      (fun k hk => r2 k (Nat.zero_le _) hk)
      (by
        -- the old root in front of the old suffix
        apply SortedIn.glue (m := first + (i + 1) + 1)
          (fun p q _ _ _ _ _ => by omega)
        · exact hsorted.of_frame (fun k hk _ => hd2_suffix k (by omega))
        · intro p q x y hp1 hp2 hq1 hq2 hx hy
          have hp : p = first + (i + 1) := by omega
          rw [hp, hd2_last] at hx
          cases hx
          rw [hd2_suffix q (by omega)] at hy
          exact hcross q y (by omega) hq2 hy first _ (Nat.le_refl _) (by omega) hroot)
      (by
        intro m y hm1 hm2 hy
        by_cases hm : m = first + (i + 1)
        · rw [hm, hd2_last] at hy
          cases hy
          apply hold
          intro k x hk1 hk2 hx
          have := hmax (k - first) (by omega)
          rw [show first + (k - first) = k by omega, lessAt_of_some less hroot hx] at this
          exact this
        · rw [hd2_suffix m (by omega)] at hy
          exact hold _ (hcross m y (by omega) hm2 hy))
    exact ⟨p1.trans ((p2.mono (Nat.le_refl _) (by omega)).trans
      (q1.mono (Nat.le_refl _) (by omega))), q2⟩

/-- The function `heapSort_func` sorts `[a, b)`. -/
theorem heapSort_func_spec (hsw : StrictWeakOrder less) (d : List α) (a b : Nat)
    (hab : a < b) (hb : b ≤ d.length) :
    RangePerm a b d (heapSort_func less d a b) ∧
    SortedIn less (heapSort_func less d a b) a b := by
  unfold heapSort_func
  dsimp only
  obtain ⟨r1, r2⟩ := heapSort_build_spec hsw (b - a) a ((b - a - 1) / 2) d (by omega)
    (fun k hk1 hk2 c hc hchi => by omega)
  generalize heapSort_build less (b - a) a ((b - a - 1) / 2) d = d1 at r1 r2 ⊢
  have hlen1 : d1.length = d.length := r1.length_eq
  obtain ⟨q1, q2⟩ := heapSort_pop_spec hsw a b (b - a - 1) d1 (by omega) (by omega)
    (by omega)
    (fun k hk => by
      have := r2 k (by omega)
      rwa [show b - a - 1 + 1 = b - a by omega])
    (fun p q _ _ _ _ _ => by omega)
    (fun m y hm1 hm2 _ => by omega)
  rw [show a + (b - a) = b by omega] at r1
  rw [show a + (b - a - 1) + 1 = b by omega] at q1
  exact ⟨r1.trans q1, q2⟩

end SortProofs7

section SortProofs8

variable {α : Type} {less : α → α → Bool}

theorem LowerBounded.restrict {d : List α} {a b b' : Nat} (h : LowerBounded less d a b)
    (hb : b' ≤ b) : LowerBounded less d a b' :=
  fun k x y ha hk1 hk2 hx hy => h k x y ha hk1 (by omega) hx hy

theorem AllIn.of_same {P : α → Prop} {d d' : List α} {a b : Nat} (h : AllIn P d a b)
    (hf : ∀ k, a ≤ k → k < b → d'[k]? = d[k]?) : AllIn P d' a b := by
  intro k x hk1 hk2 hx
  rw [hf k hk1 hk2] at hx
  exact h k x hk1 hk2 hx

/-- A range partitioned around the element at `mid`, with both sides in order, is in
order. -/
theorem SortedIn.of_partition (hsw : StrictWeakOrder less) {d : List α} {a mid b : Nat}
    {p : α} (hmid : d[mid]? = some p) (hl : SortedIn less d a mid)
    (hr : SortedIn less d (mid + 1) b)
    (hlt : AllIn (fun x => less x p = true) d a mid)
    (hge : AllIn (fun x => less x p = false) d (mid + 1) b) :
    SortedIn less d a b := by
  apply SortedIn.glue hl
  · apply SortedIn.glue (m := mid + 1) (fun i j _ _ _ _ _ => by omega) hr
    intro i j x y hi1 hi2 hj1 hj2 hx hy
    have hi : i = mid := by omega
    rw [hi, hmid] at hx
    cases hx
    exact hge j y hj1 hj2 hy
  · intro i j x y hi1 hi2 hj1 hj2 hx hy
    have hxp := hlt i x hi1 hi2 hx
    by_cases hj : j = mid
    · rw [hj, hmid] at hy
      cases hy
      exact hsw.asymm hxp
    · have hyp := hge j y (by omega) hj2 hy
      cases hyx : less y x with
      | false => rfl
      | true =>
        have := hsw.2.1 y x p hyx hxp
        rw [hyp] at this
        exact absurd this (by decide)

/-- A range split into elements not greater than `p`, which are all at least `p`, and
elements greater than `p`, in order, is in order. -/
theorem SortedIn.of_partitionEqual (hsw : StrictWeakOrder less) {d : List α}
    {a mid b : Nat} {p : α}
    (hle : AllIn (fun x => less p x = false) d a mid)
    (hge : AllIn (fun x => less x p = false) d a mid)
    (hgt : AllIn (fun x => less p x = true) d mid b)
    (hr : SortedIn less d mid b) :
    SortedIn less d a b := by
  apply SortedIn.glue _ hr
  · intro i j x y hi1 hi2 hj1 hj2 hx hy
    have h1 := hle i x hi1 hi2 hx
    have h2 := hgt j y hj1 hj2 hy
    cases hyx : less y x with
    | false => rfl
    | true =>
      have := hsw.2.1 p y x h2 hyx
      rw [h1] at this
      exact absurd this (by decide)
  · intro i j x y hi1 hij hj hx hy
    exact hsw.2.2 y p x (hge j y (by omega) hj hy) (hle i x hi1 (by omega) hx)

end SortProofs8

section SortProofs9

variable {α : Type} {less : α → α → Bool}

theorem pdqsort_func_spec (hsw : StrictWeakOrder less) :
    ∀ (fuel : Nat) (d : List α) (a b limit : Nat) (wasBalanced wasPartitioned : Bool),
      b ≤ d.length → a ≤ b → b - a < fuel → LowerBounded less d a b →
      RangePerm a b d (pdqsort_func less fuel d a b limit wasBalanced wasPartitioned) ∧
      SortedIn less (pdqsort_func less fuel d a b limit wasBalanced wasPartitioned) a b := by
  intro fuel
  induction fuel with
  | zero => intro d a b limit wb wp hb hab hfuel; omega
  | succ fuel ih =>
    intro d a b limit wb wp hb hab hfuel hl
    rw [pdqsort_func]
    dsimp only
    by_cases h12 : b - a ≤ 12
    · rw [if_pos h12]
      exact ⟨insertionSort_func_rangePerm less d a b, insertionSort_func_sorted hsw d a b hb⟩
    rw [if_neg h12]
    by_cases hlim : limit = 0
    · rw [if_pos hlim]
      exact heapSort_func_spec hsw d a b (by omega) hb
    rw [if_neg hlim]
    -- breakPatterns
    have hbp : RangePerm a b d
        (if (!wb) = true then (breakPatterns_func d a b, limit - 1) else (d, limit)).1 := by
      split
      · exact breakPatterns_func_rangePerm d a b
      · exact RangePerm.refl _ _ _
    generalize (if (!wb) = true then (breakPatterns_func d a b, limit - 1) else (d, limit))
      = bp at hbp ⊢
    obtain ⟨d1, limit1⟩ := bp
    dsimp only at hbp ⊢
    -- choosePivot
    have hcp := choosePivot_func_mem less d1 a b (by omega)
    generalize choosePivot_func less d1 a b = cp at hcp ⊢
    obtain ⟨pivot, hint⟩ := cp
    dsimp only at hcp ⊢
    -- reverseRange
    have htr : RangePerm a b d1
        (if hint = sortedHint.decreasingHint then
          (reverseRange_func d1 a b, b - 1 - (pivot - a), sortedHint.increasingHint)
        else (d1, pivot, hint)).1 ∧
        a ≤ (if hint = sortedHint.decreasingHint then
          (reverseRange_func d1 a b, b - 1 - (pivot - a), sortedHint.increasingHint)
        else (d1, pivot, hint)).2.1 ∧
        (if hint = sortedHint.decreasingHint then
          (reverseRange_func d1 a b, b - 1 - (pivot - a), sortedHint.increasingHint)
        else (d1, pivot, hint)).2.1 < b := by
      split
      · exact ⟨reverseRange_func_rangePerm d1 a b (by omega), by dsimp only; omega,
          by dsimp only; omega⟩
      · exact ⟨RangePerm.refl _ _ _, hcp.1, hcp.2⟩
    generalize (if hint = sortedHint.decreasingHint then
          (reverseRange_func d1 a b, b - 1 - (pivot - a), sortedHint.increasingHint)
        else (d1, pivot, hint)) = tr at htr ⊢
    obtain ⟨d2, pivot2, hint2⟩ := tr
    dsimp only at htr ⊢
    obtain ⟨htr1, hp2a, hp2b⟩ := htr
    have p02 : RangePerm a b d d2 := hbp.trans htr1
    have hl2 : LowerBounded less d2 a b := p02.lowerBounded hl
    have hlen2 : b ≤ d2.length := by rw [p02.length_eq]; exact hb
    -- partialInsertionSort
    have hps : RangePerm a b d2
        (if (wb && wp && decide (hint2 = sortedHint.increasingHint)) = true then
          partialInsertionSort_func less d2 a b else (d2, false)).1 ∧
        ((if (wb && wp && decide (hint2 = sortedHint.increasingHint)) = true then
          partialInsertionSort_func less d2 a b else (d2, false)).2 = true →
          SortedIn less (if (wb && wp && decide (hint2 = sortedHint.increasingHint)) = true then
          partialInsertionSort_func less d2 a b else (d2, false)).1 a b) := by
      split
      · exact partialInsertionSort_func_spec hsw d2 a b (by omega) hlen2 hl2
      · exact ⟨RangePerm.refl _ _ _, fun h => absurd h (by simp)⟩
    generalize (if (wb && wp && decide (hint2 = sortedHint.increasingHint)) = true then
          partialInsertionSort_func less d2 a b else (d2, false)) = ps at hps ⊢
    obtain ⟨d3, done⟩ := ps
    dsimp only at hps ⊢
    obtain ⟨hps1, hps2⟩ := hps
    have p03 : RangePerm a b d d3 := p02.trans hps1
    have hl3 : LowerBounded less d3 a b := p03.lowerBounded hl
    have hlen3 : b ≤ d3.length := by rw [p03.length_eq]; exact hb
    by_cases hdone : done = true
    · rw [if_pos hdone]
      exact ⟨p03, hps2 hdone⟩
    rw [if_neg hdone]
    by_cases heq : (decide (a > 0) && !lessAt less d3 (a - 1) pivot2) = true
    · -- the pivot equals the element before the range
      rw [if_pos heq]
      simp only [Bool.and_eq_true, decide_eq_true_eq, Bool.not_eq_true'] at heq
      obtain ⟨ha0, hle⟩ := heq
      obtain ⟨e1, e2, e3, p, hp, e4, e5⟩ :=
        partitionEqual_func_spec hsw d3 a b pivot2 (by omega) hlen3 hp2a hp2b
      generalize partitionEqual_func less d3 a b pivot2 = pe at e1 e2 e3 e4 e5 ⊢
      obtain ⟨d4, mid⟩ := pe
      dsimp only at e1 e2 e3 e4 e5 ⊢
      have p04 : RangePerm a b d d4 := p03.trans e1
      have hl4 : LowerBounded less d4 a b := p04.lowerBounded hl
      have hlen4 : b ≤ d4.length := by rw [p04.length_eq]; exact hb
      obtain ⟨w, hw⟩ := getElem?_some_of_lt d3 (a - 1) (by omega)
      have hpw : less w p = false := by
        rw [lessAt_of_some less hw hp] at hle; exact hle
      have hw4 : d4[a - 1]? = some w := by
        rw [e1.2 (a - 1) (Or.inl (by omega))]; exact hw
      -- every element of the range is at least the pivot
      have hge : AllIn (fun x => less x p = false) d4 a b := by
        intro k x hk1 hk2 hx
        exact hsw.2.2 x w p (hl4 k w x ha0 hk1 hk2 hw4 hx) hpw
      have hlmid : LowerBounded less d4 mid b := by
        intro k x y _ hk1 hk2 hx hy
        have h1 := e4 (mid - 1) x (by omega) (by omega) hx
        have h2 := e5 k y hk1 hk2 hy
        cases hyx : less y x with
        | false => rfl
        | true =>
          have := hsw.2.1 p y x h2 hyx
          rw [h1] at this
          exact absurd this (by decide)
      obtain ⟨r1, r2⟩ := ih d4 mid b limit1 wb wp hlen4 e3 (by omega) hlmid
      generalize pdqsort_func less fuel d4 mid b limit1 wb wp = r at r1 r2 ⊢
      refine ⟨p04.trans (r1.mono (by omega) (Nat.le_refl _)), ?_⟩
      have hfr : ∀ k, a ≤ k → k < mid → r[k]? = d4[k]? := fun k _ hk => r1.2 k (Or.inl hk)
      have hge' : AllIn (fun x => less x p = false) d4 a mid :=
        fun k x hk1 hk2 hx => hge k x hk1 (by omega) hx
      exact SortedIn.of_partitionEqual hsw (e4.of_same hfr) (hge'.of_same hfr)
        (r1.allIn _ e5) r2
    rw [if_neg heq]
    obtain ⟨e1, e2, e3, p, hp, hmid, e4, e5⟩ :=
      partition_func_spec less d3 a b pivot2 (by omega) hlen3 hp2a hp2b
    generalize partition_func less d3 a b pivot2 = pf at e1 e2 e3 hmid e4 e5 ⊢
    obtain ⟨d4, mid, ap⟩ := pf
    dsimp only at e1 e2 e3 hmid e4 e5 ⊢
    have p04 : RangePerm a b d d4 := p03.trans e1
    have hl4 : LowerBounded less d4 a b := p04.lowerBounded hl
    have hlen4 : b ≤ d4.length := by rw [p04.length_eq]; exact hb
    by_cases hside : mid - a < b - mid
    · rw [if_pos hside]
      obtain ⟨q1, s1⟩ := ih d4 a mid limit1 true true (by omega) e2 (by omega)
        (hl4.restrict (by omega))
      generalize pdqsort_func less fuel d4 a mid limit1 true true = r1 at q1 s1 ⊢
      have hlenr1 : r1.length = d4.length := q1.length_eq
      have hmid1 : r1[mid]? = some p := by rw [q1.2 mid (Or.inr (Nat.le_refl _))]; exact hmid
      have e5' : AllIn (fun x => less x p = false) r1 (mid + 1) b :=
        e5.of_same (fun k hk _ => q1.2 k (Or.inr (by omega)))
      obtain ⟨q2, s2⟩ := ih r1 (mid + 1) b limit1 (decide (mid - a ≥ (b - a) / 8)) ap
        (by omega) (by omega) (by omega)
        (by
          intro k x y _ hk1 hk2 hx hy
          rw [show mid + 1 - 1 = mid by omega, hmid1] at hx
          cases hx
          exact e5' k y hk1 hk2 hy)
      generalize pdqsort_func less fuel r1 (mid + 1) b limit1 (decide (mid - a ≥ (b - a) / 8))
        ap = r at q2 s2 ⊢
      refine ⟨p04.trans ((q1.mono (Nat.le_refl _) (by omega)).trans
        (q2.mono (by omega) (Nat.le_refl _))), ?_⟩
      have hfr : ∀ k, k < mid + 1 → r[k]? = r1[k]? := fun k hk => q2.2 k (Or.inl hk)
      exact SortedIn.of_partition hsw (by rw [hfr mid (by omega)]; exact hmid1)
        (s1.of_frame (fun k _ hk => hfr k (by omega))) s2
        ((q1.allIn _ e4).of_same (fun k _ hk => hfr k (by omega)))
        (q2.allIn _ e5')
    · rw [if_neg hside]
      have hl4r : LowerBounded less d4 (mid + 1) b := by
        intro k x y _ hk1 hk2 hx hy
        rw [show mid + 1 - 1 = mid by omega, hmid] at hx
        cases hx
        exact e5 k y hk1 hk2 hy
      obtain ⟨q1, s1⟩ := ih d4 (mid + 1) b limit1 true true (by omega) (by omega) (by omega)
        hl4r
      generalize pdqsort_func less fuel d4 (mid + 1) b limit1 true true = r1 at q1 s1 ⊢
      have hlenr1 : r1.length = d4.length := q1.length_eq
      have hfr1 : ∀ k, k < mid + 1 → r1[k]? = d4[k]? := fun k hk => q1.2 k (Or.inl hk)
      have hl1 : LowerBounded less r1 a mid :=
        ((q1.mono (by omega) (Nat.le_refl _) : RangePerm a b d4 r1).lowerBounded hl4).restrict
          (by omega)
      obtain ⟨q2, s2⟩ := ih r1 a mid limit1 (decide (b - mid ≥ (b - a) / 8)) ap
        (by omega) e2 (by omega) hl1
      generalize pdqsort_func less fuel r1 a mid limit1 (decide (b - mid ≥ (b - a) / 8)) ap
        = r at q2 s2 ⊢
      refine ⟨p04.trans ((q1.mono (by omega) (Nat.le_refl _)).trans
        (q2.mono (Nat.le_refl _) (by omega))), ?_⟩
      have hfr : ∀ k, mid ≤ k → r[k]? = r1[k]? := fun k hk => q2.2 k (Or.inr hk)
      exact SortedIn.of_partition hsw
        (by rw [hfr mid (Nat.le_refl _), hfr1 mid (by omega)]; exact hmid)
        s2 (s1.of_frame (fun k hk _ => hfr k (by omega)))
        (q2.allIn _ (e4.of_same (fun k _ hk => hfr1 k (by omega))))
        ((q1.allIn _ e5).of_same (fun k hk _ => hfr k (by omega)))

/-- The model of `sort.Slice` keeps the documented contract: for a strict weak ordering
the result is a permutation of the slice in which no element is less than one before
it. -/
theorem sort_Slice_spec (hsw : StrictWeakOrder less) (x : List α) :
    (sort_Slice less x).Perm x ∧
    (sort_Slice less x).Pairwise (fun u v => less v u = false) := by
  unfold sort_Slice
  dsimp only
  obtain ⟨h1, h2⟩ := pdqsort_func_spec hsw (x.length + 1) x 0 x.length (bits_Len x.length)
    true true (Nat.le_refl _) (Nat.zero_le _) (by omega)
    (fun k u v h0 _ _ _ _ => by omega)
  generalize pdqsort_func less (x.length + 1) x 0 x.length (bits_Len x.length) true true
    = r at h1 h2 ⊢
  refine ⟨h1.1, ?_⟩
  rw [List.pairwise_iff_getElem]
  intro i j hi hj hij
  exact h2 i j r[i] r[j] (Nat.zero_le _) hij (by rw [← h1.length_eq]; exact hj)
    (List.getElem?_eq_getElem hi) (List.getElem?_eq_getElem hj)

end SortProofs9

/-! ## The order getTags sorts by -/

theorem getTags_less_iff (x y : TagWithTimeAndArchitecture) :
    getTags_less x y = true ↔
      ((createdInstant x).1 > (createdInstant y).1 ∨
        ((createdInstant x).1 = (createdInstant y).1 ∧
          (createdInstant x).2 > (createdInstant y).2)) := by
  simp [getTags_less, Time.After, createdInstant, Time.instant]

theorem getTags_less_eq_false_iff (x y : TagWithTimeAndArchitecture) :
    getTags_less x y = false ↔
      ((createdInstant x).1 < (createdInstant y).1 ∨
        ((createdInstant x).1 = (createdInstant y).1 ∧
          (createdInstant x).2 ≤ (createdInstant y).2)) := by
  rw [← Bool.not_eq_true, getTags_less_iff]
  omega

theorem getTags_less_strictWeakOrder : StrictWeakOrder getTags_less := by
  refine ⟨?_, ?_, ?_⟩
  · intro x
    rw [getTags_less_eq_false_iff]; omega
  · intro x y z hxy hyz
    rw [getTags_less_iff] at *; omega
  · intro x y z hxy hyz
    rw [getTags_less_eq_false_iff] at *; omega

theorem getTags_less_of_ne (x y : TagWithTimeAndArchitecture)
    (hne : createdInstant x ≠ createdInstant y) (h : getTags_less y x = false) :
    getTags_less x y = true := by
  rw [getTags_less_eq_false_iff] at h
  rw [getTags_less_iff]
  have : (createdInstant x).1 ≠ (createdInstant y).1 ∨
      (createdInstant x).2 ≠ (createdInstant y).2 := by
    by_contra hc
    push_neg at hc
    exact hne (Prod.ext hc.1 hc.2)
  omega

/-- The sort step of `getTags`: a permutation of the resolved tags in which no tag is
newer than one before it. -/
theorem sort_Slice_getTags_less (tags : List TagWithTimeAndArchitecture) :
    (sort_Slice getTags_less tags).Perm tags ∧
    (sort_Slice getTags_less tags).Pairwise (fun x y => getTags_less y x = false) :=
  sort_Slice_spec getTags_less_strictWeakOrder tags

/-! ## Claim C1: getArchitectures -/

theorem foldl_append_singleton {β γ : Type} (f : β → γ) (xs : List β) (acc : List γ) :
    xs.foldl (fun res x => res ++ [f x]) acc = acc ++ xs.map f := by
  induction xs generalizing acc with
  | nil => simp
  | cons x xs ih => simp [ih]

theorem getArchitectures_res_eq (r : ManifestList) :
    getArchitectures_res r =
      if r.Manifests = [] then [r.Architecture]
      else r.Manifests.map (fun m => m.Platform.Architecture) := by
  unfold getArchitectures_res
  cases hm : r.Manifests with
  | nil => simp
  | cons m ms => simp [foldl_append_singleton]

/-- Claim C1. For a manifest-list response that decodes to `r` (whatever its status),
`getArchitectures` returns, with a nil error, the `platform.architecture` of every entry of
`r.Manifests` in response order with duplicates kept when that list is non-empty (so a list
as long as `r.Manifests`), and the one-element list `[r.Architecture]` when it is empty. -/
theorem getArchitectures_decoded (reg : Registry) (hist : List Request) (repo tag : String)
    (status : Nat) (r : ManifestList)
    (h : reg.manifestList hist repo tag = .response status (some r)) :
    (r.Manifests ≠ [] →
      (getArchitectures reg hist repo tag).1 =
          .ret (r.Manifests.map (fun m => m.Platform.Architecture), none) ∧
        (r.Manifests.map (fun m => m.Platform.Architecture)).length = r.Manifests.length) ∧
    (r.Manifests = [] →
      (getArchitectures reg hist repo tag).1 = .ret ([r.Architecture], none)) := by
  constructor
  · intro hne
    simp [getArchitectures, h, getArchitectures_res_eq, hne]
  · intro he
    simp [getArchitectures, h, getArchitectures_res_eq, he]

/-- Claim C1 at the examples of the specification: amd64 and arm64 come back in that
order and are joined as `"amd64,arm64"`; empty `manifests` with `architecture: "amd64"`
gives `["amd64"]`. -/
theorem getArchitectures_decoded_witness :
    (getArchitectures
        (Registry.const none (fun _ => none) (fun _ _ => none) (fun _ _ => none)
          (fun _ _ => some exampleMulti)) [] "app" "v1").1
      = .ret (["amd64", "arm64"], none) ∧
    strings_Join ["amd64", "arm64"] "," = "amd64,arm64" ∧
    (getArchitectures
        (Registry.const none (fun _ => none) (fun _ _ => none) (fun _ _ => none)
          (fun _ _ => some exampleFallback)) [] "app" "v1").1
      = .ret (["amd64"], none) := by
  refine ⟨?_, by decide, ?_⟩
  · exact ((getArchitectures_decoded _ [] "app" "v1" 200 exampleMulti rfl).1
      (by simp [exampleMulti])).1
  · exact (getArchitectures_decoded _ [] "app" "v1" 200 exampleFallback rfl).2 rfl

/-! ## The requests a run issues -/

theorem tagsListRepos_append (h1 h2 : List Request) :
    tagsListRepos (h1 ++ h2) = tagsListRepos h1 ++ tagsListRepos h2 := by
  simp [tagsListRepos, List.filterMap_append]

theorem getCreatedTime_tagsListRepos (reg : Registry) (hist : List Request)
    (repo tag : String) :
    tagsListRepos (getCreatedTime reg hist repo tag).2 = tagsListRepos hist := by
  unfold getCreatedTime
  cases h1 : reg.manifest hist repo tag with
  | failed => simp [tagsListRepos_append, tagsListRepos]
  | response st body =>
    cases body with
    | none => simp [tagsListRepos_append, tagsListRepos]
    | some m =>
      simp only
      cases h2 : reg.blob (hist ++ [Request.manifest repo tag]) repo m.Config.Digest with
      | failed => simp [tagsListRepos_append, tagsListRepos]
      | response st2 body2 =>
        cases body2 <;> simp [tagsListRepos_append, tagsListRepos]

theorem getArchitectures_tagsListRepos (reg : Registry) (hist : List Request)
    (repo tag : String) :
    tagsListRepos (getArchitectures reg hist repo tag).2 = tagsListRepos hist := by
  unfold getArchitectures
  cases h1 : reg.manifestList hist repo tag with
  | failed => simp [tagsListRepos_append, tagsListRepos]
  | response st body => cases body <;> simp [tagsListRepos_append, tagsListRepos]

theorem getTags_resolve_tagsListRepos (reg : Registry) (repo : String) (tags : List String)
    (hist : List Request) (acc : List TagWithTimeAndArchitecture) :
    tagsListRepos (getTags_resolve reg repo tags hist acc).2 = tagsListRepos hist := by
  induction tags generalizing hist acc with
  | nil => simp [getTags_resolve]
  | cons tag rest ih =>
    have hc := getCreatedTime_tagsListRepos reg hist repo tag
    unfold getTags_resolve
    rcases hct : getCreatedTime reg hist repo tag with ⟨⟨created, e1⟩, hist1⟩
    rw [hct] at hc
    cases e1 with
    | some err => simpa using hc
    | none =>
      have ha := getArchitectures_tagsListRepos reg hist1 repo tag
      rcases hat : getArchitectures reg hist1 repo tag with ⟨ra, hist2⟩
      rw [hat] at ha
      simp only at ha hc ⊢
      cases ra with
      | exit => simp only [hat]; rw [ha, hc]
      | ret p =>
        rcases p with ⟨archs, e2⟩
        cases e2 with
        | some err => simp only [hat]; rw [ha, hc]
        | none => simp only [hat]; rw [ih, ha, hc]

theorem getTags_tagsListRepos (reg : Registry) (hist : List Request) (repo : String)
    (showAll : Bool) (t : Table) :
    tagsListRepos (getTags reg hist repo showAll t).2
      = tagsListRepos hist ++ [repo] := by
  have base : tagsListRepos (hist ++ [Request.tagsList repo]) = tagsListRepos hist ++ [repo] := by
    simp [tagsListRepos_append, tagsListRepos]
  unfold getTags
  cases h1 : reg.tagsList hist repo with
  | failed => simpa using base
  | response st body =>
    cases body with
    | none => simpa using base
    | some tags =>
      have hr := getTags_resolve_tagsListRepos reg repo tags.Tags
        (hist ++ [Request.tagsList repo]) []
      rcases hres : getTags_resolve reg repo tags.Tags (hist ++ [Request.tagsList repo]) []
        with ⟨r, hist2⟩
      rw [hres] at hr
      simp only at hr
      cases r with
      | exit => simp only [hres]; rw [hr, base]
      | ret p =>
        rcases p with ⟨resolved, e⟩
        cases e <;> (simp only [hres]; rw [hr, base])

theorem listImages_loop_tagsListRepos (reg : Registry) (sName : String) (showAll : Bool)
    (repos : List String) (hist : List Request)
    (t : Table) :
    ∃ l, tagsListRepos (listImages_loop reg sName showAll repos hist t).2
          = tagsListRepos hist ++ l ∧
      l <+: repos.filter (passesFilter sName) ∧
      ((listImages_loop reg sName showAll repos hist t).1 ≠ .exit →
        l = repos.filter (passesFilter sName)) := by
  induction repos generalizing hist t with
  | nil => exact ⟨[], by simp [listImages_loop]⟩
  | cons repo rest ih =>
    unfold listImages_loop
    by_cases hp : passesFilter sName repo = true
    · simp only [hp, if_true, List.filter_cons_of_pos]
      have hg := getTags_tagsListRepos reg hist repo showAll t
      rcases hgt : getTags reg hist repo showAll t with ⟨r, hist1⟩
      rw [hgt] at hg
      simp only at hg
      cases r with
      | exit =>
        refine ⟨[repo], by simpa using hg, ?_, by simp⟩
        exact List.prefix_iff_eq_append.mpr (by simp)
      | ret p =>
        rcases p with ⟨t1, e⟩
        obtain ⟨l, h1, h2, h3⟩ := ih hist1 t1
        refine ⟨repo :: l, ?_, ?_, ?_⟩
        · simp only [h1, hg]; simp
        · exact (List.prefix_cons_inj repo).mpr h2
        · intro hne; rw [h3 hne]
    · simp only [hp, Bool.false_eq_true, if_false]
      obtain ⟨l, h1, h2, h3⟩ := ih hist t
      refine ⟨l, h1, ?_, ?_⟩
      · simpa [List.filter_cons, hp] using h2
      · intro hne; simpa [List.filter_cons, hp] using h3 hne

theorem listImages_loop_no_error (reg : Registry) (sName : String) (showAll : Bool)
    (repos : List String) (hist : List Request)
    (t : Table) :
    (listImages_loop reg sName showAll repos hist t).1 = .exit ∨
      ∃ t1, (listImages_loop reg sName showAll repos hist t).1
        = .ret { err := none, printed := some t1 } := by
  induction repos generalizing hist t with
  | nil => exact Or.inr ⟨t, by simp [listImages_loop]⟩
  | cons repo rest ih =>
    unfold listImages_loop
    by_cases hp : passesFilter sName repo = true
    · simp only [hp, if_true]
      rcases hgt : getTags reg hist repo showAll t with ⟨r, hist1⟩
      cases r with
      | exit => exact Or.inl rfl
      | ret p => exact ih hist1 p.1
    · simp only [hp, Bool.false_eq_true, if_false]
      exact ih hist t

/-! ## What getTags returns once every tag is resolved -/

theorem foldl_AppendRow (t : Table) (rows : List (List String)) :
    rows.foldl Table.AppendRow t = { t with rows := t.rows ++ rows } := by
  induction rows generalizing t with
  | nil => simp
  | cons r rs ih => simp [ih, Table.AppendRow]

theorem getTags_resolve_tags (reg : Registry) (repo : String) (tags : List String)
    (hist : List Request) (acc resolved : List TagWithTimeAndArchitecture)
    (hist2 : List Request)
    (h : getTags_resolve reg repo tags hist acc = (.ret (resolved, none), hist2)) :
    resolved.map (fun x => x.Tag) = acc.map (fun x => x.Tag) ++ tags := by
  induction tags generalizing hist acc with
  | nil =>
    simp [getTags_resolve] at h
    simp [h.1]
  | cons tag rest ih =>
    unfold getTags_resolve at h
    rcases hct : getCreatedTime reg hist repo tag with ⟨⟨created, e1⟩, hist1⟩
    rw [hct] at h
    cases e1 with
    | some err => simp at h
    | none =>
      simp only at h
      rcases hat : getArchitectures reg hist1 repo tag with ⟨ra, hist3⟩
      rw [hat] at h
      cases ra with
      | exit => simp at h
      | ret p =>
        rcases p with ⟨archs, e2⟩
        cases e2 with
        | some err => simp at h
        | none =>
          simp only at h
          have := ih _ _ h
          simpa using this

theorem getTags_of_resolved (reg : Registry) (hist : List Request) (repo : String) (showAll : Bool) (t : Table) (status : Nat)
    (tags : TagsResponse) (resolved : List TagWithTimeAndArchitecture)
    (hist2 : List Request)
    (htags : reg.tagsList hist repo = .response status (some tags))
    (hres : getTags_resolve reg repo tags.Tags (hist ++ [Request.tagsList repo]) []
      = (.ret (resolved, none), hist2)) :
    getTags reg hist repo showAll t =
      (.ret ({ t with rows := t.rows ++ getTags_rows repo showAll resolved }, none),
        hist2) := by
  unfold getTags
  simp only [htags, hres, foldl_AppendRow]

theorem getTags_truncate_eq (showAll : Bool) (tags : List TagWithTimeAndArchitecture) :
    getTags_truncate showAll tags = if showAll then tags else tags.take 5 := by
  unfold getTags_truncate
  cases showAll with
  | true => simp
  | false =>
    by_cases h : tags.length > 5
    · simp [h]
    · simp [h, List.take_of_length_le (Nat.le_of_not_gt h)]

/-! ## Claim C3: truncation -/

/-- Claim C3. When the tag list of a repository decodes and every tag is resolved (`n`
tags), `getTags` returns a nil error and appends to the table, in sorted order, one row
per entry of the sorted list when `showAll` is set (`n` rows), and one row for each of its
first five entries otherwise (`min n 5` rows). -/
theorem getTags_row_count (reg : Registry) (hist : List Request) (repo : String)
    (showAll : Bool) (t : Table)
    (status : Nat) (tags : TagsResponse) (resolved : List TagWithTimeAndArchitecture)
    (hist2 : List Request)
    (htags : reg.tagsList hist repo = .response status (some tags))
    (hres : getTags_resolve reg repo tags.Tags (hist ++ [Request.tagsList repo]) []
      = (.ret (resolved, none), hist2)) :
    resolved.map (fun x => x.Tag) = tags.Tags ∧
    (getTags reg hist repo showAll t).1 =
      .ret ({ t with rows := t.rows ++
                (if showAll then (sort_Slice getTags_less resolved).map (getTags_row repo)
                 else ((sort_Slice getTags_less resolved).take 5).map (getTags_row repo)) },
            none) ∧
    (if showAll then (sort_Slice getTags_less resolved).map (getTags_row repo)
      else ((sort_Slice getTags_less resolved).take 5).map (getTags_row repo)).length
      = if showAll then tags.Tags.length else min tags.Tags.length 5 := by
  have hmap : resolved.map (fun x => x.Tag) = tags.Tags := by
    simpa using getTags_resolve_tags reg repo tags.Tags _ [] resolved hist2 hres
  have hlen : resolved.length = tags.Tags.length := by
    rw [← hmap, List.length_map]
  have hsl : (sort_Slice getTags_less resolved).length = tags.Tags.length := by
    rw [(sort_Slice_getTags_less resolved).1.length_eq, hlen]
  refine ⟨hmap, ?_, ?_⟩
  · rw [getTags_of_resolved reg hist repo showAll t status tags resolved hist2
      htags hres]
    simp only [getTags_rows, getTags_truncate_eq]
    cases showAll <;> simp
  · cases showAll with
    | true => simp [hsl]
    | false => simp [hsl, Nat.min_comm]

/-- Claim C3 at the example of the specification: eight resolved tags give five rows
without `showAll` and eight rows with it. -/
theorem getTags_row_count_witness :
    getTags_resolve exampleRegistryEightTags "app"
        ["t1", "t2", "t3", "t4", "t5", "t6", "t7", "t8"]
        ([Request.catalog] ++ [Request.tagsList "app"]) []
      = (.ret (exampleEightResolved, none), exampleEightHist) ∧
    (((sort_Slice getTags_less exampleEightResolved).take 5).map
        (getTags_row "app")).length = 5 ∧
    ((sort_Slice getTags_less exampleEightResolved).map (getTags_row "app")).length
      = 8 :=
  ⟨by decide,
   by simpa [TagsResponse.ofTags] using
     (getTags_row_count
      exampleRegistryEightTags [Request.catalog] "app" false getTable 200
      (TagsResponse.ofTags ["t1", "t2", "t3", "t4", "t5", "t6", "t7", "t8"])
      exampleEightResolved exampleEightHist rfl (by decide)).2.2,
   by simpa [TagsResponse.ofTags] using
     (getTags_row_count
      exampleRegistryEightTags [Request.catalog] "app" true getTable 200
      (TagsResponse.ofTags ["t1", "t2", "t3", "t4", "t5", "t6", "t7", "t8"])
      exampleEightResolved exampleEightHist rfl (by decide)).2.2⟩

/-! ## Claim C4: one tag list lookup per repository that passes the filter -/

theorem passesFilter_iff (sName repo : String) :
    passesFilter sName repo = true ↔ sName.data <+: repo.data := by
  unfold passesFilter strings_HasPrefix
  constructor
  · intro h
    rcases Bool.or_eq_true _ _ |>.mp h with h1 | h2
    · have : sName = "" := by simpa using h1
      subst this
      exact List.nil_prefix
    · exact List.isPrefixOf_iff_prefix.mp h2
  · intro h
    exact (Bool.or_eq_true _ _).mpr (Or.inr (List.isPrefixOf_iff_prefix.mpr h))

/-- Claim C4 (amended). For a catalog that decodes and any filter, the tag list lookups
`listImages` issues are an initial segment of the catalog's repositories that start with
the filter, in catalog order, one lookup each; when the run is not ended by `log.Fatal`
they are all of them, and with an empty filter all repositories of the catalog. A
repository that does not start with the filter is never looked up. -/
theorem listImages_tagsList_lookups (reg : Registry) (registryURL sName : String) (showAll : Bool) (status : Nat) (catalog : CatalogResponse)
    (hurl : registryURL ≠ "")
    (hcat : reg.catalog [] = .response status (some catalog)) :
    (∀ repo, passesFilter sName repo = true ↔ sName.data <+: repo.data) ∧
    tagsListRepos (listImages reg registryURL sName showAll).2
      <+: catalog.Repositories.filter (passesFilter sName) ∧
    ((listImages reg registryURL sName showAll).1 ≠ .exit →
      tagsListRepos (listImages reg registryURL sName showAll).2
        = catalog.Repositories.filter (passesFilter sName)) ∧
    (sName = "" → (listImages reg registryURL sName showAll).1 ≠ .exit →
      tagsListRepos (listImages reg registryURL sName showAll).2
        = catalog.Repositories) := by
  have hrun : listImages reg registryURL sName showAll
      = listImages_loop reg sName showAll catalog.Repositories [.catalog]
          getTable := by
    unfold listImages
    simp [hurl, hcat]
  obtain ⟨l, h1, h2, h3⟩ := listImages_loop_tagsListRepos reg sName showAll
    catalog.Repositories [.catalog] getTable
  have h1' : tagsListRepos (listImages reg registryURL sName showAll).2 = l := by
    rw [hrun, h1]; simp [tagsListRepos]
  refine ⟨passesFilter_iff sName, ?_, ?_, ?_⟩
  · rw [h1']; exact h2
  · intro hne
    rw [h1']; exact h3 (by rwa [hrun] at hne)
  · intro hs hne
    rw [h1', h3 (by rwa [hrun] at hne)]
    subst hs
    simp [passesFilter]

/-- Claim C4 at the example of the specification: with the catalog `app-a`, `app-b`,
`tool-c` and the filter `app`, the tag lists of `app-a` and `app-b` are looked up, once
each, and that of `tool-c` is not. -/
theorem listImages_tagsList_lookups_witness :
    tagsListRepos (listImages exampleRegistry "http://registry" "app" false).2
      = ["app-a", "app-b"] := by
  have h := (listImages_tagsList_lookups exampleRegistry "http://registry" "app"
    false 200 { Repositories := ["app-a", "app-b", "tool-c"] } (by decide) rfl).2.2.1
    (by decide)
  rw [h]
  decide

/-- Claim C4 as stated fails: when the manifest-list body of `app-a:v1` is not valid JSON,
`getArchitectures` ends the process with `log.Fatal`, and `app-b`, which starts with the
filter `app`, is never looked up. -/
theorem listImages_tagsList_lookups_counterexample :
    (listImages exampleRegistryBadManifestList "http://registry" "app" false).1
      = .exit ∧
    tagsListRepos
      (listImages exampleRegistryBadManifestList "http://registry" "app" false).2
      = ["app-a"] ∧
    ["app-a", "app-b", "tool-c"].filter (passesFilter "app") = ["app-a", "app-b"] := by
  decide

/-! ## Claim C5: errors of getTags -/

/-- Claim C5 fails on the code: the tag list request of `app-a` fails, `getTags` returns
that error, and `listImages` drops it, prints the table built from the other
repositories and returns nil. -/
theorem listImages_drops_getTags_error :
    (getTags exampleRegistryBadTagsList [Request.catalog] "app-a" false
        getTable).1
      = .ret (getTable, some (.requestFailed (.tagsList "app-a"))) ∧
    (listImages exampleRegistryBadTagsList "http://registry" "" false).1
      = .ret { err := none,
               printed := some
                 { header := ["image", "tags", "architecture", "Created Time"],
                   rows := [["app-b", "v1", "amd64", "2023-05-01 12:30:00"],
                            ["tool-c", "v1", "amd64", "2023-05-01 12:30:00"]] } } := by
  decide

/-! ## Claim C6: the status of the catalog response -/

/-- Claim C6 (amended). `listImages` does not look at the status of the catalog response.
It returns an error without printing when the catalog request fails in the transport, and
when the body of the response, whatever its status, does not decode to a catalog. A
response of any status whose body decodes to a catalog is processed: the run is the loop
over its repositories, which either ends in `log.Fatal` or prints a table and returns
nil. -/
theorem listImages_catalog_status (reg : Registry) (registryURL sName : String)
    (showAll : Bool) (hurl : registryURL ≠ "") :
    (reg.catalog [] = .failed →
      listImages reg registryURL sName showAll
        = (.ret { err := some (.requestFailed .catalog), printed := none }, [.catalog])) ∧
    (∀ status, reg.catalog [] = .response status none →
      listImages reg registryURL sName showAll
        = (.ret { err := some (.decodeFailed .catalog), printed := none }, [.catalog])) ∧
    (∀ status catalog, reg.catalog [] = .response status (some catalog) →
      listImages reg registryURL sName showAll
        = listImages_loop reg sName showAll catalog.Repositories [.catalog]
            getTable ∧
      ((listImages reg registryURL sName showAll).1 = .exit ∨
        ∃ t, (listImages reg registryURL sName showAll).1
          = .ret { err := none, printed := some t })) := by
  refine ⟨?_, ?_, ?_⟩
  · intro hcat
    unfold listImages
    simp [hurl, hcat]
  · intro status hcat
    unfold listImages
    simp [hurl, hcat]
  · intro status catalog hcat
    have hrun : listImages reg registryURL sName showAll
        = listImages_loop reg sName showAll catalog.Repositories [.catalog]
            getTable := by
      unfold listImages
      simp [hurl, hcat]
    refine ⟨hrun, ?_⟩
    rw [hrun]
    exact listImages_loop_no_error reg sName showAll _ _ _

/-- Claim C6 (amended) at three registries: a catalog request that fails in the transport
and a catalog body that does not decode give an error, and a catalog response with status
500 whose body decodes is run through the loop over the decoded repositories. -/
theorem listImages_catalog_status_witness :
    listImages exampleRegistryCatalogDown "http://registry" "tool" false
      = (.ret { err := some (.requestFailed .catalog), printed := none }, [.catalog]) ∧
    listImages exampleRegistryCatalogBadBody "http://registry" "tool" false
      = (.ret { err := some (.decodeFailed .catalog), printed := none }, [.catalog]) ∧
    listImages exampleRegistryCatalog500 "http://registry" "tool" false
      = listImages_loop exampleRegistryCatalog500 "tool" false
          ["app-a", "app-b", "tool-c"] [.catalog] getTable :=
  ⟨(listImages_catalog_status exampleRegistryCatalogDown "http://registry" "tool" false
      (by decide)).1 rfl,
   (listImages_catalog_status exampleRegistryCatalogBadBody "http://registry" "tool" false
      (by decide)).2.1 200 rfl,
   ((listImages_catalog_status exampleRegistryCatalog500 "http://registry" "tool" false
      (by decide)).2.2 500 { Repositories := ["app-a", "app-b", "tool-c"] } rfl).1⟩

/-- Claim C6 as stated fails: a catalog response with status 500 whose body decodes is
processed as if the call had succeeded; the run prints the table and returns nil. -/
theorem listImages_catalog_status_counterexample :
    exampleRegistryCatalog500.catalog []
      = .response 500 (some { Repositories := ["app-a", "app-b", "tool-c"] }) ∧
    (listImages exampleRegistryCatalog500 "http://registry" "tool" false).1
      = .ret { err := none,
               printed := some
                 { header := ["image", "tags", "architecture", "Created Time"],
                   rows := [["tool-c", "v1", "amd64", "2023-05-01 12:30:00"]] } } := by
  decide

/-! ## Claim C10: a creation time that does not parse at display time -/

/-- Claim C10 (amended). When every tag of a repository is resolved, `getTags` returns a
nil error and appends one row per retained tag, whether or not its creation time
parses; the time cell of a tag whose creation time does not parse is the formatted zero
time, `0001-01-01 00:00:00`. -/
theorem getTags_unparsed_time (reg : Registry) (hist : List Request) (repo : String) (showAll : Bool) (t : Table)
    (status : Nat) (tags : TagsResponse) (resolved : List TagWithTimeAndArchitecture)
    (hist2 : List Request)
    (htags : reg.tagsList hist repo = .response status (some tags))
    (hres : getTags_resolve reg repo tags.Tags (hist ++ [Request.tagsList repo]) []
      = (.ret (resolved, none), hist2)) :
    (getTags reg hist repo showAll t).1 =
      .ret ({ t with rows := t.rows ++ getTags_rows repo showAll resolved },
        none) ∧
    getTags_rows repo showAll resolved
      = List.map (getTags_row repo)
          (getTags_truncate showAll (sort_Slice getTags_less resolved)) ∧
    ∀ x, (time_Parse x.CreatedTime).2 = true →
      getTags_row repo x = [repo, x.Tag, x.Architecture, "0001-01-01 00:00:00"] := by
  refine ⟨?_, rfl, ?_⟩
  · rw [getTags_of_resolved reg hist repo showAll t status tags resolved hist2
      htags hres]
  · intro x hx
    have hz : (time_Parse x.CreatedTime).1 = Time.zero := by
      unfold time_Parse at hx ⊢
      cases h : (scanRFC3339Nano x.CreatedTime.data).bind fieldsTime with
      | none => rfl
      | some t => rw [h] at hx; simp at hx
    have hf : Time.zero.Format = "0001-01-01 00:00:00" := by decide
    simp [getTags_row, hz, hf]

/-- Claim C10 (amended) at a tag whose creation time is `not-a-time`: the run does not
fail and the tag's row carries the formatted zero time. -/
theorem getTags_unparsed_time_witness :
    (time_Parse "not-a-time").2 = true ∧
    getTags_row "app" (exampleTag "v1" "not-a-time")
      = ["app", "v1", "amd64", "0001-01-01 00:00:00"] :=
  ⟨by decide,
   (getTags_unparsed_time exampleRegistryBadTime [Request.catalog] "app" false
      getTable 200 (TagsResponse.ofTags ["v1"]) [exampleTag "v1" "not-a-time"]
      [Request.catalog, Request.tagsList "app", Request.manifest "app" "v1",
       Request.blob "app" "v1", Request.manifestList "app" "v1"]
      rfl (by decide)).2.2 (exampleTag "v1" "not-a-time") (by decide)⟩

/-- Claim C10 as stated fails: for the creation time `not-a-time` the time cell of the row
is `0001-01-01 00:00:00`, which is neither empty nor the original string. -/
theorem getTags_unparsed_time_counterexample :
    (time_Parse "not-a-time").2 = true ∧
    (getTags_row "app" (exampleTag "v1" "not-a-time"))[3]? = some "0001-01-01 00:00:00" ∧
    "0001-01-01 00:00:00" ≠ "" ∧ "0001-01-01 00:00:00" ≠ "not-a-time" := by
  decide

/-! ## Claim C2: newest first -/

/-- Claim C2. For resolved tags whose creation instants are pairwise distinct (the instant
of a creation time that parses is the one it denotes), the sort step of `getTags` gives a
permutation of the tags in which every tag is strictly newer than all tags after it; so
the result is the same for every input order of the same tags. -/
theorem getTags_sort_newest_first (tags : List TagWithTimeAndArchitecture)
    (hdistinct : tags.Pairwise (fun x y => createdInstant x ≠ createdInstant y)) :
    (sort_Slice getTags_less tags).Perm tags ∧
    (sort_Slice getTags_less tags).Pairwise
      (fun x y => (time_Parse x.CreatedTime).1.After (time_Parse y.CreatedTime).1 = true) ∧
    ∀ tags', tags'.Perm tags → sort_Slice getTags_less tags' = sort_Slice getTags_less tags := by
  have hsorted : ∀ l : List TagWithTimeAndArchitecture, l.Perm tags →
      (sort_Slice getTags_less l).Pairwise (fun x y => getTags_less x y = true) := by
    intro l hl
    have hp := (sort_Slice_getTags_less l).1
    have hso := (sort_Slice_getTags_less l).2
    have hd : (sort_Slice getTags_less l).Pairwise
        (fun x y => createdInstant x ≠ createdInstant y) :=
      ((hp.trans hl).pairwise_iff (fun {a b} (h : createdInstant a ≠ createdInstant b) =>
        Ne.symm h)).mpr hdistinct
    exact (hso.and hd).imp (fun {a b} h => getTags_less_of_ne a b h.2 h.1)
  refine ⟨(sort_Slice_getTags_less tags).1, hsorted tags (List.Perm.refl _), ?_⟩
  intro tags' hp'
  haveI : IsAntisymm TagWithTimeAndArchitecture (fun x y => getTags_less x y = true) :=
    ⟨fun a b hab hba => by
      rw [getTags_less_iff] at hab hba
      omega⟩
  exact List.eq_of_perm_of_sorted
    (((sort_Slice_getTags_less tags').1.trans hp').trans (sort_Slice_getTags_less tags).1.symm)
    (hsorted tags' hp') (hsorted tags (List.Perm.refl _))

/-- Claim C2 at the example of the specification: three tags with creation times
T1 > T2 > T3, given in the order T2, T3, T1, come out as T1, T2, T3. -/
theorem getTags_sort_newest_first_witness :
    sort_Slice getTags_less
        [exampleTag "t2" "2023-05-02T00:00:00Z", exampleTag "t3" "2023-05-01T00:00:00Z",
         exampleTag "t1" "2023-05-03T00:00:00Z"]
      = sort_Slice getTags_less
        [exampleTag "t1" "2023-05-03T00:00:00Z", exampleTag "t2" "2023-05-02T00:00:00Z",
         exampleTag "t3" "2023-05-01T00:00:00Z"] ∧
    sort_Slice getTags_less
        [exampleTag "t1" "2023-05-03T00:00:00Z", exampleTag "t2" "2023-05-02T00:00:00Z",
         exampleTag "t3" "2023-05-01T00:00:00Z"]
      = [exampleTag "t1" "2023-05-03T00:00:00Z", exampleTag "t2" "2023-05-02T00:00:00Z",
         exampleTag "t3" "2023-05-01T00:00:00Z"] :=
  ⟨(getTags_sort_newest_first
      [exampleTag "t1" "2023-05-03T00:00:00Z", exampleTag "t2" "2023-05-02T00:00:00Z",
       exampleTag "t3" "2023-05-01T00:00:00Z"] (by decide)).2.2 _ (by decide),
   by decide⟩

/-! ## Claim C9: a creation time that does not parse, in the sort -/

theorem time_Parse_zero_of_error (s : String) (h : (time_Parse s).2 = true) :
    (time_Parse s).1 = Time.zero := by
  unfold time_Parse at h ⊢
  cases hb : (scanRFC3339Nano s.data).bind fieldsTime with
  | none => rfl
  | some t => rw [hb] at h; simp at h

/-- Claim C9 (amended). In the sort a tag whose creation time does not parse counts as the
zero time, January 1 of year 1, 00:00:00 UTC: it comes after every tag whose creation
time is later than the zero time and before every tag whose creation time is earlier. -/
theorem getTags_sort_unparsed (tags : List TagWithTimeAndArchitecture) (i j : Nat)
    (u p : TagWithTimeAndArchitecture)
    (hu : (sort_Slice getTags_less tags)[i]? = some u)
    (hp : (sort_Slice getTags_less tags)[j]? = some p)
    (hfail : (time_Parse u.CreatedTime).2 = true) :
    ((time_Parse p.CreatedTime).1.After Time.zero = true → j < i) ∧
    (Time.zero.After (time_Parse p.CreatedTime).1 = true → i < j) := by
  have hz := time_Parse_zero_of_error u.CreatedTime hfail
  have hso := (sort_Slice_getTags_less tags).2
  rw [List.pairwise_iff_getElem] at hso
  obtain ⟨hi, hui⟩ := List.getElem?_eq_some.mp hu
  obtain ⟨hj, hpj⟩ := List.getElem?_eq_some.mp hp
  constructor
  · intro hafter
    have hpu : getTags_less p u = true := by
      simp only [getTags_less, hz]; exact hafter
    by_contra hlt
    rcases Nat.lt_or_ge i j with h | h
    · have := hso i j hi hj h
      rw [hui, hpj, hpu] at this
      exact absurd this (by decide)
    · have hij : i = j := by omega
      subst hij
      rw [hui] at hpj
      subst hpj
      rw [hz] at hafter
      exact absurd hafter (by decide)
  · intro hbefore
    have hup : getTags_less u p = true := by
      simp only [getTags_less, hz]; exact hbefore
    by_contra hlt
    rcases Nat.lt_or_ge j i with h | h
    · have := hso j i hj hi h
      rw [hui, hpj, hup] at this
      exact absurd this (by decide)
    · have hij : i = j := by omega
      subst hij
      rw [hui] at hpj
      subst hpj
      rw [hz] at hbefore
      exact absurd hbefore (by decide)

/-- Claim C9 (amended) at the tags `new` (created in 2023) and `bad` (creation time
`not-a-time`): `bad` is not at an earlier index than `new`. -/
theorem getTags_sort_unparsed_witness :
    (sort_Slice getTags_less
      [exampleTag "bad" "not-a-time", exampleTag "new" "2023-05-01T00:00:00Z"])[1]?
      = some (exampleTag "bad" "not-a-time") ∧ 0 < 1 :=
  ⟨by decide,
   (getTags_sort_unparsed
      [exampleTag "bad" "not-a-time", exampleTag "new" "2023-05-01T00:00:00Z"] 1 0
      (exampleTag "bad" "not-a-time") (exampleTag "new" "2023-05-01T00:00:00Z")
      (by decide) (by decide) (by decide)).1 (by decide)⟩

/-- Claim C9 as stated fails: the creation time `0000-06-01T00:00:00Z` parses, to an
instant before the zero time, and the tag `bad`, whose creation time does not parse, is
sorted before it; and `bad` stays before a tag created at the zero time itself,
`0001-01-01T00:00:00Z`, when the tag list has it first. -/
theorem getTags_sort_unparsed_counterexample :
    (time_Parse "0000-06-01T00:00:00Z").2 = false ∧
    (time_Parse "0001-01-01T00:00:00Z").2 = false ∧
    (time_Parse "not-a-time").2 = true ∧
    sort_Slice getTags_less
        [exampleTag "old" "0000-06-01T00:00:00Z", exampleTag "bad" "not-a-time"]
      = [exampleTag "bad" "not-a-time", exampleTag "old" "0000-06-01T00:00:00Z"] ∧
    sort_Slice getTags_less
        [exampleTag "bad" "not-a-time", exampleTag "first" "0001-01-01T00:00:00Z"]
      = [exampleTag "bad" "not-a-time", exampleTag "first" "0001-01-01T00:00:00Z"] := by
  decide

/-! ## Claim C8: stability -/

section Stability

variable {α κ : Type} [DecidableEq κ]

theorem swap_cons_succ (x : α) (xs : List α) (i j : Nat) :
    swap (x :: xs) (i + 1) (j + 1) = x :: swap xs i j := by
  unfold swap
  simp only [List.getElem?_cons_succ]
  cases xs[i]? <;> cases xs[j]? <;> simp [List.set_cons_succ]

theorem swap_adjacent (data : List α) (j : Nat) (a b : α)
    (ha : data[j]? = some a) (hb : data[j + 1]? = some b) :
    ∃ pre post, data = pre ++ a :: b :: post ∧
      swap data (j + 1) j = pre ++ b :: a :: post := by
  induction j generalizing data with
  | zero =>
    match data, ha, hb with
    | x :: y :: post, ha, hb =>
      simp at ha hb
      subst ha hb
      exact ⟨[], post, rfl, by simp [swap]⟩
  | succ j ih =>
    match data, ha, hb with
    | x :: xs, ha, hb =>
      simp only [List.getElem?_cons_succ] at ha hb
      obtain ⟨pre, post, h1, h2⟩ := ih xs ha hb
      exact ⟨x :: pre, post, by simp [h1], by rw [swap_cons_succ, h2]; simp⟩

theorem filter_swap_adjacent (key : α → κ) (pre post : List α) (a b : α)
    (hne : key a ≠ key b) (k : κ) :
    (pre ++ b :: a :: post).filter (fun x => decide (key x = k))
      = (pre ++ a :: b :: post).filter (fun x => decide (key x = k)) := by
  simp only [List.filter_append, List.filter_cons]
  by_cases h1 : key a = k <;> by_cases h2 : key b = k <;> simp [h1, h2]
  exact absurd (h1.trans h2.symm) hne

theorem insertionSort_inner_filter (less : α → α → Bool) (key : α → κ)
    (hkey : ∀ x y, less x y = true → key x ≠ key y) (a j : Nat) (data : List α) (k : κ) :
    (insertionSort_inner less a j data).filter (fun x => decide (key x = k))
      = data.filter (fun x => decide (key x = k)) := by
  induction j generalizing data with
  | zero => rfl
  | succ j ih =>
    unfold insertionSort_inner
    by_cases hc : (decide (j + 1 > a) && lessAt less data (j + 1) j) = true
    · rw [if_pos hc, ih]
      have hl : lessAt less data (j + 1) j = true := by
        simp only [Bool.and_eq_true] at hc; exact hc.2
      obtain ⟨x, y, hx, hy, hxy⟩ := lessAt_eq_true less data (j + 1) j hl
      obtain ⟨pre, post, h1, h2⟩ := swap_adjacent data j y x hy hx
      rw [h2, h1]
      exact filter_swap_adjacent key pre post y x (Ne.symm (hkey x y hxy)) k
    · rw [if_neg hc]

theorem insertionSort_loop_filter (less : α → α → Bool) (key : α → κ)
    (hkey : ∀ x y, less x y = true → key x ≠ key y) (a b fuel i : Nat) (data : List α)
    (k : κ) :
    (insertionSort_loop less a b fuel i data).filter (fun x => decide (key x = k))
      = data.filter (fun x => decide (key x = k)) := by
  induction fuel generalizing i data with
  | zero => rfl
  | succ fuel ih =>
    unfold insertionSort_loop
    by_cases hc : i < b
    · rw [if_pos hc, ih, insertionSort_inner_filter less key hkey]
    · rw [if_neg hc]

theorem sort_Slice_short (less : α → α → Bool) (x : List α) (h : x.length ≤ 12) :
    sort_Slice less x = insertionSort_func less x 0 x.length := by
  unfold sort_Slice
  show pdqsort_func less (x.length + 1) x 0 x.length (bits_Len x.length) true true = _
  rw [pdqsort_func]
  exact if_pos (by simpa using h)

theorem sort_Slice_short_filter (less : α → α → Bool) (key : α → κ)
    (hkey : ∀ x y, less x y = true → key x ≠ key y) (x : List α) (h : x.length ≤ 12)
    (k : κ) :
    (sort_Slice less x).filter (fun e => decide (key e = k))
      = x.filter (fun e => decide (key e = k)) := by
  rw [sort_Slice_short less x h]
  exact insertionSort_loop_filter less key hkey _ _ _ _ _ k

end Stability

/-- Claim C8 (amended). For at most twelve resolved tags (where `sort.Slice` of Go 1.19
and later sorts by insertion) the sort is stable: for every instant, the tags created at
that instant come out of the sort in the order they have in the tag list. -/
theorem getTags_sort_stable_short (tags : List TagWithTimeAndArchitecture)
    (hlen : tags.length ≤ 12) (k : Int × Int) :
    (sort_Slice getTags_less tags).filter (fun x => decide (createdInstant x = k))
      = tags.filter (fun x => decide (createdInstant x = k)) := by
  refine sort_Slice_short_filter getTags_less createdInstant ?_ tags hlen k
  intro x y hxy heq
  rw [getTags_less_iff, heq] at hxy
  omega

/-- Claim C8 (amended) at three tags, the first two of the same image: the newer tag comes
first and the two others keep the order of the tag list. -/
theorem getTags_sort_stable_short_witness :
    (sort_Slice getTags_less
        [exampleTag "a" "2023-05-01T00:00:00Z", exampleTag "b" "2023-05-01T00:00:00Z",
         exampleTag "c" "2023-06-01T00:00:00Z"]).filter
        (fun x => decide (createdInstant x = createdInstant (exampleTag "a" "2023-05-01T00:00:00Z")))
      = [exampleTag "a" "2023-05-01T00:00:00Z", exampleTag "b" "2023-05-01T00:00:00Z"] :=
  (getTags_sort_stable_short
    [exampleTag "a" "2023-05-01T00:00:00Z", exampleTag "b" "2023-05-01T00:00:00Z",
     exampleTag "c" "2023-06-01T00:00:00Z"] (by decide) _).trans (by decide)

/-- Claim C8 as stated fails: of thirteen tags, `t00` to `t11` are created at the same
instant and `t12` later; in the sorted slice `t06` and `t02` to `t05` come before `t00`,
and `t01` comes last. -/
theorem getTags_sort_stable_counterexample :
    (exampleThirteen.take 12).map createdInstant = List.replicate 12 (63818496000, 0) ∧
    (sort_Slice getTags_less exampleThirteen).map (fun x => x.Tag)
      = ["t12", "t06", "t02", "t03", "t04", "t05", "t00", "t07", "t08", "t09", "t10",
         "t11", "t01"] := by
  decide

/-! ## Claim C7: the displayed time -/

theorem div_step (c n rest : Nat) (hc : 0 < c) (h : rest < c) : (c * n + rest) / c = n := by
  rw [Nat.add_comm, Nat.add_mul_div_left _ _ hc, Nat.div_eq_of_lt h, Nat.zero_add]

theorem absDate_core (q c f r yd secs : Nat) (hc : c ≤ 3) (hf : f ≤ 24) (hr : r ≤ 3)
    (hs : secs < 86400)
    (hyd : yd < 365 ∨ (yd = 365 ∧ r = 3 ∧ (f < 24 ∨ c = 3))) :
    let abs := (146097 * q + (36524 * c + (1461 * f + (365 * r + yd)))) * 86400 + secs
    let d := abs / 86400
    let n := d / 146097
    let y := 400 * n
    let d := d - 146097 * n
    let n := d / 36524
    let n := n - n / 4
    let y := y + 100 * n
    let d := d - 36524 * n
    let n := d / 1461
    let y := y + 4 * n
    let d := d - 1461 * n
    let n := d / 365
    let n := n - n / 4
    let y := y + n
    let d := d - 365 * n
    y = 400 * q + 100 * c + 4 * f + r ∧ d = yd := by
  intro abs d0 n0 y0 d1 n1 n1' y1 d2 n2 y2 d3 n3 n3' y3 d4
  have e0 : d0 = 146097 * q + (36524 * c + (1461 * f + (365 * r + yd))) := by
    show (_ * 86400 + secs) / 86400 = _
    rw [Nat.mul_comm]; exact div_step 86400 _ secs (by decide) hs
  have b3 : 365 * r + yd < 1461 := by omega
  have b2 : 1461 * f + (365 * r + yd) < 36524 ∨
      (1461 * f + (365 * r + yd) = 36524 ∧ c = 3) := by omega
  have b1 : 36524 * c + (1461 * f + (365 * r + yd)) < 146097 := by omega
  have e1 : n0 = q := by
    show d0 / 146097 = q
    rw [e0]; exact div_step 146097 q _ (by decide) b1
  have e2 : d1 = 36524 * c + (1461 * f + (365 * r + yd)) := by
    show d0 - 146097 * n0 = _
    rw [e0, e1]; omega
  have e3 : n1' = c := by
    show d1 / 36524 - d1 / 36524 / 4 = c
    rw [e2]
    rcases b2 with b2 | ⟨b2, hc3⟩
    · rw [div_step 36524 c _ (by decide) b2]; omega
    · rw [b2, hc3]
  have e4 : d2 = 1461 * f + (365 * r + yd) := by
    show d1 - 36524 * n1' = _
    rw [e2, e3]; omega
  have e5 : n2 = f := by
    show d2 / 1461 = f
    rw [e4]; exact div_step 1461 f _ (by decide) b3
  have e6 : d3 = 365 * r + yd := by
    show d2 - 1461 * n2 = _
    rw [e4, e5]; omega
  have e7 : n3' = r := by
    show d3 / 365 - d3 / 365 / 4 = r
    rw [e6]
    rcases hyd with h | ⟨h1, h2, _⟩
    · rw [div_step 365 r _ (by decide) h]; omega
    · rw [h1, h2]
  have e8 : d4 = yd := by
    show d3 - 365 * n3' = _
    rw [e6, e7]; omega
  refine ⟨?_, e8⟩
  show 400 * n0 + 100 * n1' + 4 * n2 + n3' = _
  rw [e1, e3, e5, e7]

theorem isLeap_iff (year : Int) :
    isLeap year = true ↔ (year % 4 = 0 ∧ (year % 100 ≠ 0 ∨ year % 400 = 0)) := by
  simp [isLeap]

/-- The cycle decomposition behind `daysSinceEpoch`. -/
theorem daysSinceEpoch_cycles (year : Int) (hy : absoluteZeroYear ≤ year) :
    ∃ q c f r : Nat, c ≤ 3 ∧ f ≤ 24 ∧ r ≤ 3 ∧
      year = ((400 * q + 100 * c + 4 * f + r : Nat) : Int) + absoluteZeroYear ∧
      daysSinceEpoch year = 146097 * q + (36524 * c + (1461 * f + (365 * r + 0))) ∧
      (isLeap year = true ↔ (r = 3 ∧ (f < 24 ∨ c = 3))) := by
  obtain ⟨Y, hY⟩ : ∃ Y : Nat, year = (Y : Int) + absoluteZeroYear :=
    ⟨(year - absoluteZeroYear).toNat, by omega⟩
  refine ⟨Y / 400, Y % 400 / 100, Y % 100 / 4, Y % 4, by omega, by omega, by omega, ?_, ?_, ?_⟩
  · rw [hY]; congr 1; omega
  · unfold daysSinceEpoch
    have : (year - absoluteZeroYear).toNat = Y := by omega
    simp only [this, daysPer400Years, daysPer100Years, daysPer4Years]
    omega
  · rw [isLeap_iff, hY]
    unfold absoluteZeroYear
    omega


theorem absDate_monthDay_fin :
    ∀ (leap : Bool) (m : Fin 13) (d : Fin 32), 1 ≤ m.val → 1 ≤ d.val →
      d.val ≤ (if m.val = 2 ∧ leap = true then 29
                else daysBefore.getD m.val 0 - daysBefore.getD (m.val - 1) 0) →
      absDate_monthDay leap (ydayOf leap m.val d.val) = (m.val, d.val) ∧
        ydayOf leap m.val d.val < (if leap = true then 366 else 365) := by
  decide

theorem daysIn_le (m : Nat) (year : Int) (hm : m ≤ 12) : daysIn m year ≤ 31 := by
  unfold daysIn
  split
  · omega
  · interval_cases m <;> simp [daysBefore]

theorem absDate_monthDay_ydayOf (year : Int) (m d : Nat) (hm1 : 1 ≤ m) (hm : m ≤ 12)
    (hd1 : 1 ≤ d) (hd : d ≤ daysIn m year) :
    absDate_monthDay (isLeap year) (ydayOf (isLeap year) m d) = (m, d) ∧
      ydayOf (isLeap year) m d < (if isLeap year = true then 366 else 365) := by
  have hd31 : d ≤ 31 := le_trans hd (daysIn_le m year hm)
  have h := absDate_monthDay_fin (isLeap year) ⟨m, by omega⟩ ⟨d, by omega⟩ hm1 hd1
  apply h
  show d ≤ _
  unfold daysIn at hd
  simpa using hd

theorem norm_in_range (hi lo base : Int) (h0 : 0 ≤ lo) (h1 : lo < base) :
    norm hi lo base = (hi, lo) := by
  unfold norm
  simp [not_lt.mpr h0, not_le.mpr h1]

theorem Date_in_range (y m d h mi s ns : Nat) (hm1 : 1 ≤ m) (hm : m ≤ 12) (hd1 : 1 ≤ d)
    (hh : h < 24) (hmi : mi < 60) (hs : s < 60) (hns : ns < 1000000000) :
    Date y m d h mi s ns =
      { sec := (((daysSinceEpoch y + ydayOf (isLeap y) m d) * 86400
                  + (h * 3600 + mi * 60 + s) : Nat) : Int) + absoluteToInternal,
        nsec := ns, offset := 0 } := by
  have n1 := norm_in_range y ((m : Int) - 1) 12 (by omega) (by omega)
  have n2 := norm_in_range s ns 1000000000 (by omega) (by omega)
  have n3 := norm_in_range mi s 60 (by omega) (by omega)
  have n4 := norm_in_range h mi 60 (by omega) (by omega)
  have n5 := norm_in_range d h 24 (by omega) (by omega)
  have e1 : ((m : Int) - 1 + 1 - 1).toNat = m - 1 := by omega
  have e2 : (decide ((m : Int) - 1 + 1 ≥ 3)) = decide (m ≥ 3) := by
    apply decide_eq_decide.mpr; omega
  have c1 : secondsPerDay = 86400 := by decide
  have c2 : secondsPerHour = 3600 := by decide
  have c3 : secondsPerMinute = 60 := by decide
  unfold Date ydayOf
  simp only [n1]
  simp only [n2]
  simp only [n3, n4, n5]
  simp only [e1, e2, c1, c2, c3]
  rw [Time.mk.injEq]
  refine ⟨?_, rfl, rfl⟩
  split_ifs <;> push_cast <;> omega

theorem absDate_eq (year : Int) (hy : absoluteZeroYear ≤ year) (yd secs : Nat)
    (hs : secs < 86400) (hyd : yd < (if isLeap year = true then 366 else 365)) :
    absDate ((daysSinceEpoch year + yd) * 86400 + secs)
      = (year, (absDate_monthDay (isLeap year) yd).1,
          (absDate_monthDay (isLeap year) yd).2, yd) := by
  obtain ⟨q, c, f, r, hc, hf, hr, hyear, hdse, hleap⟩ := daysSinceEpoch_cycles year hy
  have hyd' : yd < 365 ∨ (yd = 365 ∧ r = 3 ∧ (f < 24 ∨ c = 3)) := by
    by_cases hl : isLeap year = true
    · rw [if_pos hl] at hyd
      have := hleap.mp hl
      omega
    · rw [if_neg hl] at hyd
      exact Or.inl hyd
  have core := absDate_core q c f r yd secs hc hf hr hs hyd'
  simp only [] at core
  obtain ⟨hY, hD⟩ := core
  have hsum : daysSinceEpoch year + yd
      = 146097 * q + (36524 * c + (1461 * f + (365 * r + yd))) := by omega
  have c1 : secondsPerDay = 86400 := by decide
  have c2 : daysPer400Years = 146097 := by decide
  have c3 : daysPer100Years = 36524 := by decide
  have c4 : daysPer4Years = 1461 := by decide
  unfold absDate
  simp only [c1, c2, c3, c4, hsum, hY, hD]
  rw [← hyear]

theorem absClock_eq (days h mi s : Nat) (hh : h < 24) (hmi : mi < 60) (hs : s < 60) :
    absClock (days * 86400 + (h * 3600 + mi * 60 + s)) = (h, mi, s) := by
  have c1 : secondsPerDay = 86400 := by decide
  have c2 : secondsPerHour = 3600 := by decide
  have c3 : secondsPerMinute = 60 := by decide
  unfold absClock
  simp only [c1, c2, c3]
  have e1 : (days * 86400 + (h * 3600 + mi * 60 + s)) % 86400 = h * 3600 + mi * 60 + s := by
    omega
  have e2 : (h * 3600 + mi * 60 + s) / 3600 = h := by omega
  have e3 : (h * 3600 + mi * 60 + s - h * 3600) / 60 = mi := by omega
  rw [e1, e2, e3]
  simp only [Prod.mk.injEq, true_and]
  omega

theorem isDigitChar_iff (c : Char) : isDigitChar c = true ↔ 48 ≤ c.toNat ∧ c.toNat ≤ 57 := by
  unfold isDigitChar
  simp only [Bool.and_eq_true, decide_eq_true_eq]
  rw [Char.le_def, Char.le_def]
  constructor
  · intro ⟨h1, h2⟩
    exact ⟨h1, h2⟩
  · intro ⟨h1, h2⟩
    exact ⟨h1, h2⟩

theorem digitVal_lt (c : Char) (h : isDigitChar c = true) : digitVal c < 10 := by
  rw [isDigitChar_iff] at h
  unfold digitVal; omega

theorem digitChar_digitVal (c : Char) (h : isDigitChar c = true) :
    digitChar (digitVal c) = c := by
  rw [isDigitChar_iff] at h
  unfold digitChar digitVal
  have : 48 + (c.toNat - 48) % 10 = c.toNat := by omega
  rw [this]
  exact Char.ofNat_toNat c

theorem appendInt_digits_small (fuel u : Nat) (acc : List Char) (h : u < 10) :
    appendInt_digits (fuel + 1) u acc = digitChar u :: acc := by
  unfold appendInt_digits digitChar
  rw [if_neg (by omega), Nat.mod_eq_of_lt h]

theorem appendInt_digits_step (fuel u : Nat) (acc : List Char) (h : 10 ≤ u) :
    appendInt_digits (fuel + 1) u acc = appendInt_digits fuel (u / 10) (digitChar u :: acc) := by
  conv_lhs => unfold appendInt_digits
  rw [if_pos h]
  have : u - u / 10 * 10 = u % 10 := by omega
  simp only [this, digitChar]

theorem digitChar_zero (n : Nat) (h : n % 10 = 0) : digitChar n = '0' := by
  unfold digitChar; rw [h]

theorem appendInt_two (k : Nat) (h : k < 100) :
    appendInt (k : Int) 2 = [digitChar (k / 10), digitChar k] := by
  unfold appendInt
  have hneg : ¬ ((k : Int) < 0) := by omega
  simp only [Int.natAbs_ofNat, if_neg hneg, List.nil_append]
  by_cases h1 : k < 10
  · rw [appendInt_digits_small _ _ _ h1, digitChar_zero (k / 10) (by omega)]
    rfl
  · rw [appendInt_digits_step _ _ _ (by omega), appendInt_digits_small _ _ _ (by omega)]
    rfl

theorem appendInt_four (k : Nat) (h : k < 10000) :
    appendInt (k : Int) 4
      = [digitChar (k / 1000), digitChar (k / 100), digitChar (k / 10), digitChar k] := by
  unfold appendInt
  have hneg : ¬ ((k : Int) < 0) := by omega
  simp only [Int.natAbs_ofNat, if_neg hneg, List.nil_append]
  have e2 : k / 10 / 10 = k / 100 := by omega
  have e3 : k / 100 / 10 = k / 1000 := by omega
  by_cases h1 : k < 10
  · rw [appendInt_digits_small _ _ _ h1, digitChar_zero (k / 10) (by omega),
      digitChar_zero (k / 100) (by omega), digitChar_zero (k / 1000) (by omega)]
    rfl
  · rw [appendInt_digits_step _ _ _ (by omega)]
    by_cases h2 : k < 100
    · rw [appendInt_digits_small _ _ _ (by omega), digitChar_zero (k / 100) (by omega),
        digitChar_zero (k / 1000) (by omega)]
      rfl
    · rw [appendInt_digits_step _ _ _ (by omega), e2]
      by_cases h3 : k < 1000
      · rw [appendInt_digits_small _ _ _ (by omega), digitChar_zero (k / 1000) (by omega)]
        rfl
      · rw [appendInt_digits_step _ _ _ (by omega), e3,
          appendInt_digits_small _ _ _ (by omega)]
        rfl

/-- Formatting a time built from a valid wall-clock reading, moved to any zone, gives the
display form of that reading. -/
theorem Format_fieldsTime (f : Fields) (t : Time) (hy : f.year < 10000)
    (hm1 : 1 ≤ f.month) (hm : f.month ≤ 12) (hh : f.hour < 24) (hmi : f.min < 60)
    (hs : f.sec < 60) (hns : f.nsec < 1000000000) (ht : fieldsTime f = some t) :
    t.Format = displayForm f.year f.month f.day f.hour f.min f.sec := by
  unfold fieldsTime at ht
  by_cases hday : (decide (f.day < 1) || decide (f.day > daysIn f.month f.year)) = true
  · rw [if_pos hday] at ht; exact absurd ht (by simp)
  rw [if_neg hday] at ht
  have hd1 : 1 ≤ f.day := by
    simp only [Bool.or_eq_true, decide_eq_true_eq, not_or, not_lt] at hday; omega
  have hd : f.day ≤ daysIn f.month f.year := by
    simp only [Bool.or_eq_true, decide_eq_true_eq, not_or, not_lt] at hday; omega
  have hD := Date_in_range f.year f.month f.day f.hour f.min f.sec f.nsec hm1 hm hd1 hh hmi
    hs hns
  obtain ⟨hmd, hyd⟩ := absDate_monthDay_ydayOf f.year f.month f.day hm1 hm hd1 hd
  have habs : t.abs = (daysSinceEpoch f.year + ydayOf (isLeap f.year) f.month f.day) * 86400
      + (f.hour * 3600 + f.min * 60 + f.sec) := by
    have hi : internalToAbsolute = -absoluteToInternal := rfl
    cases hz : f.zone with
    | none =>
      rw [hz] at ht
      simp only [Option.some.injEq] at ht
      rw [← ht, hD]
      unfold Time.abs
      simp only [hi]
      omega
    | some z =>
      rw [hz] at ht
      simp only [Option.some.injEq] at ht
      rw [← ht, hD]
      unfold Time.abs
      simp only [hi]
      omega
  have hsecs : f.hour * 3600 + f.min * 60 + f.sec < 86400 := by omega
  have hyear : absoluteZeroYear ≤ (f.year : Int) := by unfold absoluteZeroYear; omega
  unfold Time.Format
  simp only [habs, absDate_eq f.year hyear _ _ hsecs hyd, absClock_eq _ _ _ _ hh hmi hs, hmd]
  have hd100 : f.day < 100 := by
    have := daysIn_le f.month f.year hm; omega
  rw [appendInt_four f.year hy, appendInt_two f.month (by omega), appendInt_two f.day hd100,
    appendInt_two f.hour (by omega), appendInt_two f.min (by omega),
    appendInt_two f.sec (by omega)]
  rfl

theorem getYear_some (s v : List Char) (y : Nat) (h : getYear s = some (y, v)) :
    ∃ c0 c1 c2 c3, s = c0 :: c1 :: c2 :: c3 :: v ∧
      isDigitChar c0 = true ∧ isDigitChar c1 = true ∧ isDigitChar c2 = true ∧
      isDigitChar c3 = true ∧
      y = ((digitVal c0 * 10 + digitVal c1) * 10 + digitVal c2) * 10 + digitVal c3 := by
  match s, h with
  | c0 :: c1 :: c2 :: c3 :: rest, h =>
    simp only [getYear] at h
    by_cases hd : (isDigitChar c0 && isDigitChar c1 && isDigitChar c2 && isDigitChar c3) = true
    · rw [if_pos hd] at h
      simp only [Bool.and_eq_true] at hd
      simp only [Option.some.injEq, Prod.mk.injEq] at h
      exact ⟨c0, c1, c2, c3, by rw [h.2], hd.1.1.1, hd.1.1.2, hd.1.2, hd.2, h.1.symm⟩
    · rw [if_neg hd] at h
      exact absurd h (by simp)
  | [], h => simp [getYear] at h
  | [_], h => simp [getYear] at h
  | [_, _], h => simp [getYear] at h
  | [_, _, _], h => simp [getYear] at h

theorem skip_some (s v : List Char) (c : Char) (h : skip s c = some v) : s = c :: v := by
  match s, h with
  | [], h => simp [skip] at h
  | d :: rest, h =>
    simp only [skip] at h
    by_cases hd : d = c
    · rw [if_pos hd] at h
      simp only [Option.some.injEq] at h
      rw [hd, h]
    · rw [if_neg hd] at h
      exact absurd h (by simp)

theorem getnum_fixed_some (s v : List Char) (n : Nat) (h : getnum s true = some (n, v)) :
    ∃ c0 c1, s = c0 :: c1 :: v ∧ isDigitChar c0 = true ∧ isDigitChar c1 = true ∧
      n = digitVal c0 * 10 + digitVal c1 := by
  match s, h with
  | [], h => simp [getnum] at h
  | [c0], h =>
    unfold getnum at h
    by_cases h0 : isDigitChar c0 = true <;> simp [h0] at h
  | c0 :: c1 :: rest, h =>
    unfold getnum at h
    by_cases h0 : isDigitChar c0 = true
    · by_cases h1 : isDigitChar c1 = true
      · simp [h0, h1] at h
        exact ⟨c0, c1, by rw [h.2], h0, h1, h.1.symm⟩
      · simp [h0, h1] at h
    · simp [h0] at h

theorem getnum_free_some (s v : List Char) (n : Nat) (h : getnum s false = some (n, v)) :
    (∃ c0 c1, s = c0 :: c1 :: v ∧ isDigitChar c0 = true ∧ isDigitChar c1 = true ∧
      n = digitVal c0 * 10 + digitVal c1) ∨
    (∃ c0, s = c0 :: v ∧ isDigitChar c0 = true ∧ n = digitVal c0) := by
  match s, h with
  | [], h => simp [getnum] at h
  | [c0], h =>
    unfold getnum at h
    by_cases h0 : isDigitChar c0 = true
    · simp [h0] at h
      exact Or.inr ⟨c0, by rw [h.2], h0, h.1.symm⟩
    · simp [h0] at h
  | c0 :: c1 :: rest, h =>
    unfold getnum at h
    by_cases h0 : isDigitChar c0 = true
    · by_cases h1 : isDigitChar c1 = true
      · simp [h0, h1] at h
        exact Or.inl ⟨c0, c1, by rw [h.2], h0, h1, h.1.symm⟩
      · simp [h0, h1] at h
        exact Or.inr ⟨c0, by rw [h.2], h0, h.1.symm⟩
    · simp [h0] at h

theorem atoiDigits_foldl_lt (ds : List Char) (hds : ∀ c ∈ ds, isDigitChar c = true)
    (acc : Nat) :
    ds.foldl (fun x c => x * 10 + digitVal c) acc < (acc + 1) * 10 ^ ds.length := by
  induction ds generalizing acc with
  | nil => simp
  | cons c cs ih =>
    have hc := digitVal_lt c (hds c (List.mem_cons_self _ _))
    have := ih (fun d hd => hds d (List.mem_cons_of_mem _ hd)) (acc * 10 + digitVal c)
    simp only [List.foldl_cons, List.length_cons]
    calc _ < (acc * 10 + digitVal c + 1) * 10 ^ cs.length := this
      _ ≤ ((acc + 1) * 10) * 10 ^ cs.length := Nat.mul_le_mul_right _ (by omega)
      _ = (acc + 1) * 10 ^ (cs.length + 1) := by rw [Nat.pow_succ]; ring

theorem parseNanoseconds_lt (digits : List Char)
    (hds : ∀ c ∈ digits, isDigitChar c = true) :
    parseNanoseconds digits < 1000000000 := by
  unfold parseNanoseconds atoiDigits
  have h1 := atoiDigits_foldl_lt (digits.take 9)
    (fun c hc => hds c (List.mem_of_mem_take hc)) 0
  have hl : (digits.take 9).length ≤ 9 := by simp
  simp only [Nat.zero_add, Nat.one_mul] at h1
  calc _ < 10 ^ (digits.take 9).length * 10 ^ (9 - (digits.take 9).length) :=
        Nat.mul_lt_mul_of_pos_right h1 (by positivity)
    _ = 10 ^ 9 := by rw [← Nat.pow_add]; congr 1; omega
    _ = 1000000000 := by norm_num

theorem getFrac_lt (s : List Char) : (getFrac s).1 < 1000000000 := by
  match s with
  | [] => simp [getFrac]
  | [_] => simp [getFrac]
  | c0 :: c1 :: rest =>
    simp only [getFrac]
    by_cases hc : (commaOrPeriod c0 && isDigitChar c1) = true
    · rw [if_pos hc]
      exact parseNanoseconds_lt _ (fun c hc => (List.mem_takeWhile_imp hc))
    · rw [if_neg hc]
      show 0 < 1000000000
      decide

theorem scanRFC3339Nano_some (value : List Char) (f : Fields)
    (h : scanRFC3339Nano value = some f) :
    ∃ v1 v2 v3 v4 v5 v6 v7 v8 v9 v10 v11,
      getYear value = some (f.year, v1) ∧ skip v1 '-' = some v2 ∧
      getnum v2 true = some (f.month, v3) ∧ 1 ≤ f.month ∧ f.month ≤ 12 ∧
      skip v3 '-' = some v4 ∧ getnum v4 true = some (f.day, v5) ∧
      skip v5 'T' = some v6 ∧ getnum v6 false = some (f.hour, v7) ∧ f.hour < 24 ∧
      skip v7 ':' = some v8 ∧ getnum v8 true = some (f.min, v9) ∧ f.min < 60 ∧
      skip v9 ':' = some v10 ∧ getnum v10 true = some (f.sec, v11) ∧ f.sec < 60 ∧
      f.nsec = (getFrac v11).1 ∧ getZone (getFrac v11).2 = some (f.zone, []) := by
  unfold scanRFC3339Nano at h
  cases h1 : getYear value with
  | none => simp [h1] at h
  | some p1 =>
  obtain ⟨year, v1⟩ := p1
  simp only [h1] at h
  cases h2 : skip v1 '-' with
  | none => simp [h2] at h
  | some v2 =>
  simp only [h2] at h
  cases h3 : getnum v2 true with
  | none => simp [h3] at h
  | some p3 =>
  obtain ⟨month, v3⟩ := p3
  simp only [h3] at h
  by_cases hmr : (decide (month ≤ 0) || decide (12 < month)) = true
  · rw [if_pos hmr] at h; exact absurd h (by simp)
  rw [if_neg hmr] at h
  cases h4 : skip v3 '-' with
  | none => simp [h4] at h
  | some v4 =>
  simp only [h4] at h
  cases h5 : getnum v4 true with
  | none => simp [h5] at h
  | some p5 =>
  obtain ⟨day, v5⟩ := p5
  simp only [h5] at h
  cases h6 : skip v5 'T' with
  | none => simp [h6] at h
  | some v6 =>
  simp only [h6] at h
  cases h7 : getnum v6 false with
  | none => simp [h7] at h
  | some p7 =>
  obtain ⟨hour, v7⟩ := p7
  simp only [h7] at h
  by_cases hhr : 24 ≤ hour
  · rw [if_pos hhr] at h; exact absurd h (by simp)
  rw [if_neg hhr] at h
  cases h8 : skip v7 ':' with
  | none => simp [h8] at h
  | some v8 =>
  simp only [h8] at h
  cases h9 : getnum v8 true with
  | none => simp [h9] at h
  | some p9 =>
  obtain ⟨min, v9⟩ := p9
  simp only [h9] at h
  by_cases hmir : 60 ≤ min
  · rw [if_pos hmir] at h; exact absurd h (by simp)
  rw [if_neg hmir] at h
  cases h10 : skip v9 ':' with
  | none => simp [h10] at h
  | some v10 =>
  simp only [h10] at h
  cases h11 : getnum v10 true with
  | none => simp [h11] at h
  | some p11 =>
  obtain ⟨sec, v11⟩ := p11
  simp only [h11] at h
  by_cases hsr : 60 ≤ sec
  · rw [if_pos hsr] at h; exact absurd h (by simp)
  rw [if_neg hsr] at h
  cases h12 : getZone (getFrac v11).2 with
  | none => simp [h12] at h
  | some p12 =>
  obtain ⟨zone, v12⟩ := p12
  simp only [h12] at h
  by_cases hve : v12 ≠ []
  · rw [if_pos hve] at h; exact absurd h (by simp)
  rw [if_neg hve] at h
  simp only [Option.some.injEq] at h
  subst h
  have hv : v12 = [] := by simpa using hve
  subst hv
  simp only [Bool.or_eq_true, decide_eq_true_eq, not_or, not_le, not_lt] at hmr
  exact ⟨v1, v2, v3, v4, v5, v6, v7, v8, v9, v10, v11, rfl, h2, h3,
    by dsimp only; omega, by dsimp only; omega, h4, h5, h6, h7, by dsimp only; omega, h8,
    h9, by dsimp only; omega, h10, h11, by dsimp only; omega, rfl, h12⟩

theorem digitChar_of_mod (n : Nat) (c : Char) (hc : isDigitChar c = true)
    (h : n % 10 = digitVal c) : digitChar n = c := by
  rw [← digitChar_digitVal c hc]
  unfold digitChar
  rw [h, Nat.mod_eq_of_lt (digitVal_lt c hc)]

theorem isDigitChar_colon : isDigitChar ':' = false := by decide

/-- For a timestamp the scanner accepts and that writes its hour with two digits, the
display form of the fields read is the text of the timestamp up to the seconds, with a
space for the `T`. -/
theorem displayForm_literal (value : List Char) (f : Fields)
    (h : scanRFC3339Nano value = some f) (h13 : value[13]? = some ':') :
    displayForm f.year f.month f.day f.hour f.min f.sec
      = String.mk (value.take 10 ++ ' ' :: (value.drop 11).take 8) := by
  obtain ⟨v1, v2, v3, v4, v5, v6, v7, v8, v9, v10, v11, g1, g2, g3, _, _, g4, g5, g6, g7, _,
    g8, g9, _, g10, g11, _, _, _⟩ := scanRFC3339Nano_some value f h
  obtain ⟨y0, y1, y2, y3, e1, hy0, hy1, hy2, hy3, ey⟩ := getYear_some _ _ _ g1
  have e2 := skip_some _ _ _ g2
  obtain ⟨m0, m1, e3, hm0, hm1, em⟩ := getnum_fixed_some _ _ _ g3
  have e4 := skip_some _ _ _ g4
  obtain ⟨d0, d1, e5, hd0, hd1, ed⟩ := getnum_fixed_some _ _ _ g5
  have e6 := skip_some _ _ _ g6
  have e8 := skip_some _ _ _ g8
  obtain ⟨i0, i1, e9, hi0, hi1, ei⟩ := getnum_fixed_some _ _ _ g9
  have e10 := skip_some _ _ _ g10
  obtain ⟨s0, s1, e11, hs0, hs1, es⟩ := getnum_fixed_some _ _ _ g11
  have b := fun c hc => digitVal_lt c hc
  have by0 := b y0 hy0
  have by1 := b y1 hy1
  have by2 := b y2 hy2
  have by3 := b y3 hy3
  have bm0 := b m0 hm0
  have bm1 := b m1 hm1
  have bd0 := b d0 hd0
  have bd1 := b d1 hd1
  have bi0 := b i0 hi0
  have bi1 := b i1 hi1
  have bs0 := b s0 hs0
  have bs1 := b s1 hs1
  rcases getnum_free_some _ _ _ g7 with ⟨h0, h1, e7, hh0, hh1, eh⟩ | ⟨h0, e7, hh0, eh⟩
  · have bh0 := b h0 hh0
    have bh1 := b h1 hh1
    subst e1 e2 e3 e4 e5 e6 e7 e8 e9 e10 e11
    unfold displayForm
    rw [digitChar_of_mod (f.year / 1000) y0 hy0 (by omega),
      digitChar_of_mod (f.year / 100) y1 hy1 (by omega),
      digitChar_of_mod (f.year / 10) y2 hy2 (by omega),
      digitChar_of_mod f.year y3 hy3 (by omega),
      digitChar_of_mod (f.month / 10) m0 hm0 (by omega),
      digitChar_of_mod f.month m1 hm1 (by omega),
      digitChar_of_mod (f.day / 10) d0 hd0 (by omega),
      digitChar_of_mod f.day d1 hd1 (by omega),
      digitChar_of_mod (f.hour / 10) h0 hh0 (by omega),
      digitChar_of_mod f.hour h1 hh1 (by omega),
      digitChar_of_mod (f.min / 10) i0 hi0 (by omega),
      digitChar_of_mod f.min i1 hi1 (by omega),
      digitChar_of_mod (f.sec / 10) s0 hs0 (by omega),
      digitChar_of_mod f.sec s1 hs1 (by omega)]
    rfl
  · subst e1 e2 e3 e4 e5 e6 e7 e8 e9 e10 e11
    simp only [List.getElem?_cons_succ, List.getElem?_cons_zero, Option.some.injEq] at h13
    rw [h13, isDigitChar_colon] at hi0
    exact absurd hi0 (by decide)

/-- Claim C7. For a tag whose creation time parses as RFC3339Nano, the time cell of its
row is the display form `YYYY-MM-DD HH:MM:SS` of the year, month, day, hour, minute and
second read from the timestamp, whatever its fraction and zone; when the hour is written
with two digits, as RFC 3339 requires, the cell is the text of the timestamp up to the
seconds with a space for the `T`. -/
theorem getTags_row_time (repo : String) (x : TagWithTimeAndArchitecture)
    (hparse : (time_Parse x.CreatedTime).2 = false) :
    ∃ f : Fields, scanRFC3339Nano x.CreatedTime.data = some f ∧
      getTags_row repo x
        = [repo, x.Tag, x.Architecture,
            displayForm f.year f.month f.day f.hour f.min f.sec] ∧
      (x.CreatedTime.data[13]? = some ':' →
        getTags_row repo x
          = [repo, x.Tag, x.Architecture,
              String.mk (x.CreatedTime.data.take 10 ++
                ' ' :: (x.CreatedTime.data.drop 11).take 8)]) := by
  unfold time_Parse at hparse
  cases hs : scanRFC3339Nano x.CreatedTime.data with
  | none => simp [hs] at hparse
  | some f =>
    cases ht : fieldsTime f with
    | none => simp [hs, ht] at hparse
    | some t =>
      have hval : (time_Parse x.CreatedTime).1 = t := by
        unfold time_Parse; simp [hs, ht]
      obtain ⟨v1, v2, v3, v4, v5, v6, v7, v8, v9, v10, v11, g1, _, _, hm1, hm, _, _, _, _,
        hh, _, _, hmi, _, _, hsec, hns, _⟩ := scanRFC3339Nano_some _ f hs
      obtain ⟨y0, y1, y2, y3, _, hy0, hy1, hy2, hy3, ey⟩ := getYear_some _ _ _ g1
      have hy : f.year < 10000 := by
        have := digitVal_lt y0 hy0
        have := digitVal_lt y1 hy1
        have := digitVal_lt y2 hy2
        have := digitVal_lt y3 hy3
        omega
      have hfmt := Format_fieldsTime f t hy hm1 hm hh hmi hsec
        (by rw [hns]; exact getFrac_lt v11) ht
      have hrow : getTags_row repo x
          = [repo, x.Tag, x.Architecture,
              displayForm f.year f.month f.day f.hour f.min f.sec] := by
        unfold getTags_row
        simp only [hval, hfmt]
      refine ⟨f, rfl, hrow, ?_⟩
      intro h13
      rw [hrow, displayForm_literal _ f hs h13]

/-- Claim C7 at the example of the specification: `2023-05-01T12:30:00.123456Z` is
displayed as `2023-05-01 12:30:00`. -/
theorem getTags_row_time_witness :
    (time_Parse "2023-05-01T12:30:00.123456Z").2 = false ∧
    getTags_row "app" (exampleTag "v1" "2023-05-01T12:30:00.123456Z")
      = ["app", "v1", "amd64", "2023-05-01 12:30:00"] :=
  ⟨by decide,
   (getTags_row_time "app" (exampleTag "v1" "2023-05-01T12:30:00.123456Z")
      (by decide)).elim (fun _ h => (h.2.2 (by decide)).trans (by decide))⟩

end RegistryCli
